import Mathlib

/-!
Verification of the pips-solver repository core against its specification.

The repository contains several implementations of the same game.  This file
shallowly embeds the two implementations the claims refer to:

* namespace `CS` — the `claude_sonnet_4_5` crate (domino-only variant):
  `data_model/{pips,piece,point,board,assignment,constraint,direction,placement,game}.rs`
  and `solver/mod.rs`.
* namespace `GC` — the `gpt_5_codex` crate (polyomino variant):
  `model/{pips,point,board,constraint,piece}.rs`, `solver/mod.rs` and
  `polypips/generator.rs`.

Machine integers (`u8`, `u32`, `usize`) are modelled as `Nat`; every Rust
subtraction is either guarded by the source itself (so `Nat` subtraction
agrees with the machine result) or explicitly modelled on `Int` where the
source uses signed arithmetic.  `HashSet` fields are modelled as `Finset`,
`Vec` as `List`; `Result<T, String>` as `Except String T`.  Error message
strings are kept short; no theorem depends on their text.
-/

deriving instance DecidableEq for Except

/-- Grid point with non-negative coordinates (`Point` in both crates:
`x: u32/usize`, `y: u32/usize`). -/
structure Point where
  x : Nat
  y : Nat
deriving DecidableEq, Repr

/-- Both crates order points lexicographically by `(y, x)` wherever an order
is needed (board iteration, pivot representatives).  We equip `Point` with
that order. -/
def Point.key (p : Point) : Lex (Nat × Nat) := toLex (p.y, p.x)

theorem Point.key_injective : Function.Injective Point.key := by
  intro p q h
  cases p with
  | mk px py =>
    cases q with
    | mk qx qy =>
      have h2 : ((py, px) : Nat × Nat) = (qy, qx) := toLex.injective h
      simp only [Prod.mk.injEq] at h2
      simp [h2.1, h2.2]

instance : LinearOrder Point :=
  LinearOrder.lift' Point.key Point.key_injective

theorem Point.le_iff (p q : Point) :
    p ≤ q ↔ p.y < q.y ∨ (p.y = q.y ∧ p.x ≤ q.x) := by
  change Point.key p ≤ Point.key q ↔ _
  rw [Point.key, Point.key, Prod.Lex.le_iff]

/-- Executable `(y, x)` comparison (the comparator both crates sort points
by). -/
def Point.leB (p q : Point) : Bool :=
  p.y < q.y || (p.y == q.y && p.x ≤ q.x)

theorem Point.leB_iff_le (p q : Point) : Point.leB p q = true ↔ p ≤ q := by
  rw [Point.le_iff, Point.leB]
  simp only [Bool.or_eq_true, Bool.and_eq_true, decide_eq_true_eq, beq_iff_eq]

/-- Binary minimum under the `(y, x)` order. -/
def pmin (a b : Point) : Point := if Point.leB a b then a else b

theorem pmin_eq_min (a b : Point) : pmin a b = min a b := by
  rw [pmin, min_def]
  by_cases h : a ≤ b
  · rw [if_pos ((Point.leB_iff_le a b).2 h), if_pos h]
  · rw [if_neg (fun hb => h ((Point.leB_iff_le a b).1 hb)), if_neg h]

/-- Lift of `pmin` to `Option Point` (`none` is the identity). -/
def omin : Option Point → Option Point → Option Point
  | none, x => x
  | some a, none => some a
  | some a, some b => some (pmin a b)

instance : Std.Commutative omin where
  comm := by
    intro a b
    cases a <;> cases b <;> simp [omin, pmin_eq_min, min_comm]

instance : Std.Associative omin where
  assoc := by
    intro a b c
    cases a <;> cases b <;> cases c <;> simp [omin, pmin_eq_min, min_assoc]

/-- The `(y, x)`-least element of a finite point set, or `none` if empty.
This is the value of `v.sort(); v[0]` and of `min_by_key(|p| (p.y, p.x))`
in the sources (both deterministic since the key is injective). -/
def minPoint (s : Finset Point) : Option Point :=
  s.fold omin none some

theorem minPoint_empty : minPoint ∅ = none := rfl

theorem minPoint_insert (p : Point) (s : Finset Point) (hp : p ∉ s) :
    minPoint (insert p s) = omin (some p) (minPoint s) := by
  rw [minPoint, Finset.fold_insert hp]
  rfl

theorem minPoint_eq_none_iff (s : Finset Point) :
    minPoint s = none ↔ s = ∅ := by
  induction s using Finset.induction with
  | empty => simp [minPoint_empty]
  | @insert a s ha ih =>
      rw [minPoint_insert a s ha]
      cases minPoint s with
      | none => simp [omin, Finset.insert_ne_empty]
      | some m => simp [omin, Finset.insert_ne_empty]

theorem minPoint_eq_some_iff (s : Finset Point) (p : Point) :
    minPoint s = some p ↔ p ∈ s ∧ ∀ q ∈ s, p ≤ q := by
  induction s using Finset.induction generalizing p with
  | empty => simp [minPoint_empty]
  | @insert a s ha ih =>
      rw [minPoint_insert a s ha]
      rcases h : minPoint s with _ | m
      · have hs : s = ∅ := (minPoint_eq_none_iff s).1 h
        subst hs
        simp only [omin, Option.some.injEq]
        constructor
        · rintro rfl
          refine ⟨Finset.mem_insert_self _ _, ?_⟩
          intro q hq
          rcases Finset.mem_insert.1 hq with rfl | hq
          · exact le_refl _
          · exact absurd hq (Finset.not_mem_empty q)
        · rintro ⟨hmem, _⟩
          rcases Finset.mem_insert.1 hmem with rfl | hmem
          · rfl
          · exact absurd hmem (Finset.not_mem_empty p)
      · have hm := (ih m).1 h
        simp only [omin, pmin_eq_min, Option.some.injEq]
        constructor
        · rintro rfl
          constructor
          · rcases min_cases a m with ⟨hmin, _⟩ | ⟨hmin, _⟩
            · rw [hmin]; exact Finset.mem_insert_self _ _
            · rw [hmin]; exact Finset.mem_insert_of_mem hm.1
          · intro q hq
            rcases Finset.mem_insert.1 hq with rfl | hq
            · exact min_le_left _ _
            · exact le_trans (min_le_right a m) (hm.2 q hq)
        · rintro ⟨hmem, hleast⟩
          have h1 : p ≤ a := hleast a (Finset.mem_insert_self _ _)
          have h2 : p ≤ m := hleast m (Finset.mem_insert_of_mem hm.1)
          have h3 : min a m ≤ p := by
            rcases Finset.mem_insert.1 hmem with rfl | hmem
            · exact min_le_left _ _
            · exact le_trans (min_le_right a m) (hm.2 p hmem)
          exact le_antisymm h3 (le_min h1 h2)

namespace CS

/-- `Assignment` — a pip value assigned to a point.  A pip (`Pips` in the
source) wraps a `u8` bounded to `0..=6` at construction; we use `Nat` and
carry the bound as a hypothesis where a claim needs it. -/
structure Assignment where
  pips : Nat
  point : Point
deriving DecidableEq, Repr

/-- `Constraint` of `claude_sonnet_4_5/src/data_model/constraint.rs` (the
variant with an explicit `Empty` case used to signal a satisfied, dropped
constraint). -/
inductive Constraint where
  | Empty : Constraint
  | AllSame (target : Option Nat) (points : Finset Point)
  | AllDifferent (excluded : Finset Nat) (points : Finset Point)
  | LessThan (target : Nat) (points : Finset Point)
  | Exactly (target : Nat) (points : Finset Point)
  | MoreThan (target : Nat) (points : Finset Point)
deriving DecidableEq

/-- The point set referenced by a constraint (`Empty` references none). -/
def Constraint.pointsOf : Constraint → Finset Point
  | .Empty => ∅
  | .AllSame _ points => points
  | .AllDifferent _ points => points
  | .LessThan _ points => points
  | .Exactly _ points => points
  | .MoreThan _ points => points

/-- `Constraint::reduce_a` — reduce a constraint by a single assignment.
Mirrors `data_model/constraint.rs` lines 135–313: a point outside the
constraint leaves it unchanged; otherwise the variant-specific rule applies.
`usize` subtractions are written as `Nat` subtraction; in the `Exactly` and
`LessThan` branches the source guards them (`pips > target` / `pips >=
target` fail first), and in the `MoreThan` branch the source itself uses
`saturating_sub`, which is exactly `Nat` subtraction. -/
def reduce_a (c : Constraint) (a : Assignment) : Except String Constraint :=
  match c with
  | .Empty => .ok .Empty
  | .AllSame target points =>
      if a.point ∈ points then
        match target with
        | some tv =>
            if a.pips ≠ tv then
              .error "The pip is not the same as the expected pip."
            else
              let new_points := points.erase a.point
              if new_points.card = 0 then .ok .Empty
              else if new_points.card = 1 then
                .ok (.Exactly tv new_points)
              else .ok (.AllSame (some tv) new_points)
        | none =>
            let new_points := points.erase a.point
            if new_points.card = 0 then .ok .Empty
            else if new_points.card = 1 then
              .ok (.Exactly a.pips new_points)
            else .ok (.AllSame (some a.pips) new_points)
      else .ok (.AllSame target points)
  | .AllDifferent excluded points =>
      if a.point ∈ points then
        if a.pips ∈ excluded then .error "The pip is already used."
        else
          let new_excluded := insert a.pips excluded
          let new_points := points.erase a.point
          if new_points.card = 0 then .ok .Empty
          else .ok (.AllDifferent new_excluded new_points)
      else .ok (.AllDifferent excluded points)
  | .LessThan target points =>
      if a.point ∈ points then
        if a.pips ≥ target then
          .error "The pips is not less than the target sum."
        else
          let new_points := points.erase a.point
          if new_points.card = 0 then .ok .Empty
          else if target - a.pips = 1 ∧ new_points.card = 1 then
            .ok (.Exactly 0 new_points)
          else .ok (.LessThan (target - a.pips) new_points)
      else .ok (.LessThan target points)
  | .Exactly target points =>
      if a.point ∈ points then
        if points.card = 1 then
          if a.pips ≠ target then
            .error "The pips is not the same as the expected pip."
          else .ok .Empty
        else if a.pips > target then
          .error "The pip exceeds the expected exact sum."
        else
          let new_points := points.erase a.point
          let new_target := target - a.pips
          if new_target > new_points.card * 6 then
            .error "The remaining sum is unachievable."
          else .ok (.Exactly new_target new_points)
      else .ok (.Exactly target points)
  | .MoreThan target points =>
      if a.point ∈ points then
        if points.card = 1 then
          if a.pips ≤ target then
            .error "The pips is less than the minimum required sum."
          else .ok .Empty
        else
          let new_points := points.erase a.point
          let new_target := target - a.pips
          if new_target = 5 ∧ new_points.card = 1 then
            .ok (.Exactly 6 new_points)
          else .ok (.MoreThan new_target new_points)
      else .ok (.MoreThan target points)

/-- `Piece` — a domino as an ordered pair of pips (`data_model/piece.rs`). -/
structure Piece where
  pips1 : Nat
  pips2 : Nat
deriving DecidableEq, Repr

/-- `Piece::new` stores the pips in non-descending order. -/
def Piece.new (p1 p2 : Nat) : Piece :=
  if p1 ≤ p2 then ⟨p1, p2⟩ else ⟨p2, p1⟩

/-- `Piece::is_doubleton`. -/
def Piece.is_doubleton (p : Piece) : Bool := p.pips1 == p.pips2

/-- `piece::remove_one` — remove the first occurrence of `piece`, or fail. -/
def remove_one (pieces : List Piece) (piece : Piece) : Except String (List Piece) :=
  if piece ∈ pieces then .ok (pieces.erase piece)
  else .error "was not present in the list of pieces."

/-- Compass `Direction` (`data_model/direction.rs`). -/
inductive Direction where
  | North
  | East
  | South
  | West
deriving DecidableEq, Repr

/-- `Placement` — a piece placed at a point heading a direction. -/
structure Placement where
  piece : Piece
  point : Point
  direction : Direction
deriving DecidableEq, Repr

/-- `Placement::assignments` (`data_model/placement.rs`): the two pip/point
pairs covered by the domino, in source order. -/
def Placement.assignments (pl : Placement) : List Assignment :=
  let x := pl.point.x
  let y := pl.point.y
  let p1 := pl.piece.pips1
  let p2 := pl.piece.pips2
  match pl.direction with
  | .North => [⟨p1, ⟨x, y + 1⟩⟩, ⟨p2, ⟨x, y⟩⟩]
  | .East => [⟨p1, ⟨x, y⟩⟩, ⟨p2, ⟨x + 1, y⟩⟩]
  | .South => [⟨p1, ⟨x, y⟩⟩, ⟨p2, ⟨x, y + 1⟩⟩]
  | .West => [⟨p1, ⟨x + 1, y⟩⟩, ⟨p2, ⟨x, y⟩⟩]

/-- `Placement::points` — the set of covered points. -/
def Placement.points (pl : Placement) : Finset Point :=
  (pl.assignments.map Assignment.point).toFinset

/-- `Board` — a set of points (`data_model/board.rs`; the `Arc` copy-on-write
wrapper is a sharing optimisation with set semantics). -/
structure Board where
  points : Finset Point
deriving DecidableEq

/-- `Board::is_empty` (stated via `card` so that it evaluates by kernel
reduction; a `HashSet` is empty iff its size is zero). -/
def Board.is_empty (b : Board) : Bool := b.points.card == 0

/-- `Board::reduce_b` — remove a placement's points, failing if any of them
is not on the board. -/
def Board.reduce_b (b : Board) (pl : Placement) : Except String Board :=
  if pl.points ⊆ b.points then .ok ⟨b.points \ pl.points⟩
  else .error "Placement has at least one point outside of the board."

/-- `Constraint::reduce_p` — fold `reduce_a` over a placement's assignments. -/
def reduce_p (c : Constraint) (pl : Placement) : Except String Constraint :=
  pl.assignments.foldlM reduce_a c

/-- `reduce_cs` — reduce every constraint by the placement in list order,
dropping the ones that became `Empty`; the first violation aborts.  The
source's imperative loop that pushes non-`Empty` results is rendered as
structural recursion producing the same list. -/
def reduce_cs (constraints : List Constraint) (pl : Placement) :
    Except String (List Constraint) :=
  match constraints with
  | [] => .ok []
  | c :: rest =>
    match reduce_p c pl with
    | .error e => .error e
    | .ok .Empty => reduce_cs rest pl
    | .ok reduced => (reduce_cs rest pl).map (reduced :: ·)

/-- `Game` — board, remaining pieces, remaining constraints. -/
structure Game where
  board : Board
  pieces : List Piece
  constraints : List Constraint
deriving DecidableEq

/-- `Game::is_won` — empty board, no pieces, no constraints. -/
def Game.is_won (g : Game) : Bool :=
  g.board.is_empty && g.pieces.isEmpty && g.constraints.isEmpty

/-- `Game::play` — reduce the board, remove the piece, reduce the
constraints; all-or-nothing (`data_model/game.rs` lines 129–140).  The `?`
operator of the source is written as explicit matches. -/
def Game.play (g : Game) (pl : Placement) : Except String Game :=
  match g.board.reduce_b pl with
  | .error e => .error e
  | .ok new_board =>
    match remove_one g.pieces pl.piece with
    | .error e => .error e
    | .ok new_pieces =>
      match reduce_cs g.constraints pl with
      | .error e => .error e
      | .ok new_constraints => .ok ⟨new_board, new_pieces, new_constraints⟩

/-- The call-site semantics of `play`: the method borrows the caller's game
immutably (`&self`) and returns a fresh `Result`, so the pair below models
what the caller observes — the result together with its own (unchanged)
game value. -/
def Game.playCall (g : Game) (pl : Placement) : Except String Game × Game :=
  (g.play pl, g)

/-- The point set of a constraint as `pivot_point` reads it
(`Empty` contributes nothing). -/
def pivotCandidate (g : Game) (c : Constraint) : Option (Point × Nat) :=
  match c with
  | .Empty => none
  | _ =>
    let pts := c.pointsOf
    if pts = ∅ then none
    else
      let onBoard := pts ∩ g.board.points
      match minPoint onBoard with
      | none => none
      | some p => some (p, pts.card)

/-- One step of a first-minimum scan under the `(size, x, y)` key used by
`pivot_point`'s `min_by_key` — the accumulator is replaced only on a
strictly smaller key, so the first of several equally-minimal elements
wins, as Rust's `Iterator::min_by_key` specifies. -/
def pivotStep (acc : Option (Point × Nat)) (c : Point × Nat) : Option (Point × Nat) :=
  match acc with
  | none => some c
  | some b =>
      if c.2 < b.2 ∨ (c.2 = b.2 ∧ (c.1.x < b.1.x ∨ (c.1.x = b.1.x ∧ c.1.y < b.1.y)))
      then some c else some b

/-- First minimum of a list under the `(size, x, y)` key. -/
def minByKeyFirst (l : List (Point × Nat)) : Option (Point × Nat) :=
  l.foldl pivotStep none

/-- Weak order on pivot candidates by the `(size, x, y)` key. -/
def pivotKeyLe (b x : Point × Nat) : Prop :=
  b.2 < x.2 ∨ (b.2 = x.2 ∧ (b.1.x < x.1.x ∨ (b.1.x = x.1.x ∧ b.1.y ≤ x.1.y)))

/-- `Game::pivot_point` (`data_model/game.rs` lines 71–114): the `(y,x)`-least
on-board point of the constraint minimising `(full point count, rep.x, rep.y)`;
falling back to the board's `(y,x)`-least point. -/
def Game.pivot_point (g : Game) : Option Point :=
  let candidates := g.constraints.filterMap (pivotCandidate g)
  match minByKeyFirst candidates with
  | some (p, _) => some p
  | none => minPoint g.board.points

/-- `Game::unique_pieces` — deduplicate, preserving first-occurrence order. -/
def Game.unique_pieces (g : Game) : List Piece :=
  g.pieces.foldl (fun acc p => if p ∈ acc then acc else acc ++ [p]) []

/-- Helper of `anchors_for_direction`: push an optional anchor if new. -/
def pushUnique (l : List Point) (o : Option Point) : List Point :=
  match o with
  | none => l
  | some p => if p ∈ l then l else l ++ [p]

/-- `solver/mod.rs::anchors_for_direction` — the anchors at which a domino in
the given direction covers the pivot (the `checked_sub` guards model `u32`). -/
def anchors_for_direction (pivot : Point) (d : Direction) : List Point :=
  match d with
  | .North =>
      pushUnique
        (pushUnique [] (if pivot.y = 0 then none else some ⟨pivot.x, pivot.y - 1⟩))
        (some pivot)
  | .East =>
      pushUnique (pushUnique [] (some pivot))
        (if pivot.x = 0 then none else some ⟨pivot.x - 1, pivot.y⟩)
  | .South =>
      pushUnique (pushUnique [] (some pivot))
        (if pivot.y = 0 then none else some ⟨pivot.x, pivot.y - 1⟩)
  | .West =>
      pushUnique (pushUnique [] (some pivot))
        (if pivot.x = 0 then none else some ⟨pivot.x - 1, pivot.y⟩)

/-- The direction list tried by `solve_recursive`: doubletons only try
`North` and `East`. -/
def directionsFor (p : Piece) : List Direction :=
  if p.is_doubleton then [.North, .East]
  else [.North, .East, .South, .West]

/-- The candidate placements tried by one `solve_recursive` frame, in the
source's loop order: unique pieces × directions × anchors covering the
pivot. -/
def candidates (g : Game) (pivot : Point) : List Placement :=
  (g.unique_pieces).flatMap fun piece =>
    (directionsFor piece).flatMap fun d =>
      (anchors_for_direction pivot d).map fun anchor => ⟨piece, anchor, d⟩

/-- `solve_recursive` (`solver/mod.rs` lines 33–78), with the path
accumulator replaced by returning the placements played from this frame on
(the source prepends to a persistent list and reverses at the end — the same
list).  The `fuel` argument bounds the recursion depth; each successful
`play` removes one piece, so `pieces.length + 1` fuel is never exhausted. -/
def solveAux : Nat → Game → Option (List Placement)
  | 0, _ => none
  | fuel + 1, g =>
    if g.is_won then some []
    else
      match g.pivot_point with
      | none => none
      | some pivot =>
          (candidates g pivot).findSome? fun pl =>
            match g.play pl with
            | .ok g' => (solveAux fuel g').map (pl :: ·)
            | .error _ => none

/-- `solve` — run the recursive solver (the `Result` error string of the
source is elided; `none` is its `Err("No valid placements.")`). -/
def solve (g : Game) : Option (List Placement) :=
  solveAux (g.pieces.length + 1) g

end CS

namespace GC

/-- `Pips::MAX` of `gpt_5_codex/src/model/pips.rs`; a pip is a `u8` in
`0..=6`, modelled as `Nat` with the bound carried as a hypothesis where
needed. -/
def pipsMAX : Nat := 6

/-- `Assignment` (`model/assignment.rs`). -/
structure Assignment where
  pips : Nat
  point : Point
deriving DecidableEq, Repr

/-- `Constraint` of `gpt_5_codex/src/model/constraint.rs` (no `Empty`
variant; "satisfied" is signalled by `Ok(None)` from the reducers).  The
`Arc<HashSet<_>>` point sets are modelled as `Finset`. -/
inductive Constraint where
  | AllSame (expected : Option Nat) (points : Finset Point)
  | AllDifferent (excluded : Finset Nat) (points : Finset Point)
  | Exactly (target : Nat) (points : Finset Point)
  | LessThan (target : Nat) (points : Finset Point)
  | MoreThan (target : Nat) (points : Finset Point)
deriving DecidableEq

/-- `Constraint::points`. -/
def Constraint.points : Constraint → Finset Point
  | .AllSame _ points => points
  | .AllDifferent _ points => points
  | .Exactly _ points => points
  | .LessThan _ points => points
  | .MoreThan _ points => points

/-- `Constraint::reduce_assignment` (`model/constraint.rs` lines 113–286).
`Ok(Some c')` is "updated", `Ok(None)` is "satisfied, drop", `Err` is
"violated".  The `u32` subtractions of the `Exactly` and `LessThan` branches
are guarded by the source (`pip_value > target` / `pip_value >= target` fail
first), so `Nat` subtraction is exact there; the `MoreThan` branch casts to
`i32` in the source and is modelled on `Int`, with the final `as u32` cast
rendered as `Int.toNat` (the branch guarantees the value is non-negative). -/
def Constraint.reduce_assignment (c : Constraint) (a : Assignment) :
    Except String (Option Constraint) :=
  if a.point ∉ c.points then .ok (some c)
  else
    match c with
    | .AllDifferent excluded points =>
        if a.pips ∈ excluded then .error "The pip is already used."
        else
          let remaining_points := points.erase a.point
          let new_excluded := insert a.pips excluded
          if remaining_points = ∅ then .ok none
          else .ok (some (.AllDifferent new_excluded remaining_points))
    | .AllSame expected points =>
        let size := points.card
        let remaining := points.erase a.point
        match expected with
        | some target =>
            if a.pips ≠ target then
              .error "The pip is not the same as the expected pip."
            else if size = 1 then .ok none
            else if size = 2 then .ok (some (.Exactly target remaining))
            else .ok (some (.AllSame (some target) remaining))
        | none =>
            if size = 1 then .ok none
            else if size = 2 then .ok (some (.Exactly a.pips remaining))
            else .ok (some (.AllSame (some a.pips) remaining))
    | .Exactly target points =>
        let remaining := points.erase a.point
        let size := points.card
        let pip_value := a.pips
        if size = 1 then
          if pip_value = target then .ok none
          else .error "The pips is not the same as the expected pip."
        else if pip_value > target then
          .error "The pip exceeds the expected exact sum."
        else
          let remaining_target := target - pip_value
          let max_possible := remaining.card * pipsMAX
          if remaining_target > max_possible then
            .error "The remaining sum is unachievable."
          else .ok (some (.Exactly remaining_target remaining))
    | .LessThan target points =>
        let remaining := points.erase a.point
        let size := points.card
        let pip_value := a.pips
        if pip_value ≥ target then
          .error "The pips is not less than the target sum."
        else if size = 1 then .ok none
        else
          let remaining_target := target - pip_value
          if size = 2 ∧ remaining_target = 1 then
            .ok (some (.Exactly 0 remaining))
          else .ok (some (.LessThan remaining_target remaining))
    | .MoreThan target points =>
        let remaining := points.erase a.point
        let size := points.card
        let pip_value : Int := a.pips
        let remaining_points := remaining.card
        if size = 1 then
          if pip_value > (target : Int) then .ok none
          else .error "The pips is less than the minimum required sum."
        else
          let remaining_target : Int := (target : Int) - pip_value
          if remaining_points = 1 ∧ remaining_target = 5 then
            .ok (some (.Exactly 6 remaining))
          else if remaining_target < 0 then .ok none
          else
            let max_possible : Int := (remaining_points : Int) * (pipsMAX : Int)
            if remaining_target ≥ max_possible then
              .error "The remaining sum is unachievable."
            else .ok (some (.MoreThan remaining_target.toNat remaining))

end GC

/-- C3 (amended).  For `MoreThan(target, points)` with `|points| ≥ 2` and an
assignment `(pip, point)` with `point ∈ points`, the claude_sonnet_4_5
reduction `reduce_a` behaves exactly as the claim states: `new_target =
max(0, target − pip)` (its `saturating_sub`, i.e. `Nat` subtraction), with
the transition to `Exactly(6, new_points)` when `|new_points| = 1` and
`new_target = 5`, and the updated `MoreThan(new_target, new_points)`
otherwise; in particular it never returns Satisfied or Violated.  The
gpt_5_codex reduction `reduce_assignment` agrees only when `pip ≤ target`
and `target − pip < 6·|new_points|`; outside that range it returns
Satisfied or Violated (see the counterexample). -/
theorem moreThan_reduce_amended_C3 (t : Nat) (pts : Finset Point) (pip : Nat)
    (q : Point) (hmem : q ∈ pts) (hcard : 2 ≤ pts.card) :
    CS.reduce_a (.MoreThan t pts) ⟨pip, q⟩ =
      .ok (if t - pip = 5 ∧ (pts.erase q).card = 1
           then .Exactly 6 (pts.erase q)
           else .MoreThan (t - pip) (pts.erase q))
    ∧ (pip ≤ t → t - pip < 6 * (pts.erase q).card →
        GC.Constraint.reduce_assignment (.MoreThan t pts) ⟨pip, q⟩ =
          .ok (some (if (pts.erase q).card = 1 ∧ t - pip = 5
                     then .Exactly 6 (pts.erase q)
                     else .MoreThan (t - pip) (pts.erase q)))) := by
  have h1 : pts.card ≠ 1 := by omega
  constructor
  · simp only [CS.reduce_a, hmem, if_true, h1, if_false]
    rw [apply_ite Except.ok]
  · intro hle hach
    have hne : ¬ (q ∉ pts) := by simpa using hmem
    simp only [GC.Constraint.reduce_assignment, GC.Constraint.points, hne, if_false]
    have hsub : ((t : Int) - (pip : Int)) = ((t - pip : Nat) : Int) := by omega
    rw [if_neg h1, hsub]
    by_cases hc : (pts.erase q).card = 1 ∧ t - pip = 5
    · rw [if_pos (by exact ⟨hc.1, by rw [hc.2]; rfl⟩), if_pos hc]
    · have hc' : ¬ ((pts.erase q).card = 1 ∧ ((t - pip : Nat) : Int) = 5) := by
        intro ⟨ha, hb⟩
        exact hc ⟨ha, by omega⟩
      rw [if_neg hc', if_neg (by omega : ¬ ((t - pip : Nat) : Int) < 0),
        if_neg (by push_cast [GC.pipsMAX]; omega :
          ¬ ((t - pip : Nat) : Int) ≥ ((pts.erase q).card : Int) * (GC.pipsMAX : Int)),
        if_neg hc]
      simp

/-- C3 counterexample.  The claim prescribes, for `MoreThan(0, {(0,0),(1,0)})`
reduced by the assignment `1 @ (0,0)`, the updated constraint
`MoreThan(max(0, 0−1), {(1,0)}) = MoreThan(0, {(1,0)})` and states that the
reduction never returns Satisfied when `|points| ≥ 2`; but the gpt_5_codex
`reduce_assignment` (one of the two implementations the claim cites) returns
`Ok(None)` — Satisfied — because it computes `0 − 1 = −1 < 0` in `i32` and
drops the constraint. -/
theorem moreThan_reduce_cex_C3 :
    GC.Constraint.reduce_assignment
        (.MoreThan 0 {⟨0,0⟩, ⟨1,0⟩}) ⟨1, ⟨0,0⟩⟩ = .ok none
    ∧ (Except.ok none : Except String (Option GC.Constraint)) ≠
        .ok (some (.MoreThan 0 (Finset.erase {⟨0,0⟩, ⟨1,0⟩} ⟨0,0⟩))) := by
  decide

/-- C3 witness: the amended theorem applied at
`MoreThan(6, {(0,0),(1,0)})` reduced by `1 @ (0,0)` (the `Exactly(6, ·)`
transition fires). -/
theorem moreThan_reduce_amended_C3_witness :
    CS.reduce_a (.MoreThan 6 {⟨0,0⟩, ⟨1,0⟩}) ⟨1, ⟨0,0⟩⟩ =
      .ok (if 6 - 1 = 5 ∧ (Finset.erase {⟨0,0⟩, ⟨1,0⟩} (⟨0,0⟩ : Point)).card = 1
           then .Exactly 6 (Finset.erase {⟨0,0⟩, ⟨1,0⟩} (⟨0,0⟩ : Point))
           else .MoreThan (6 - 1) (Finset.erase {⟨0,0⟩, ⟨1,0⟩} (⟨0,0⟩ : Point))) :=
  (moreThan_reduce_amended_C3 6 {⟨0,0⟩, ⟨1,0⟩} 1 ⟨0,0⟩ (by decide) (by decide)).1

/-- C4.  For `LessThan(target, points)` and an assignment `(pip, point)` with
`point ∈ points`, both cited reductions (gpt_5_codex `reduce_assignment` and
claude_sonnet_4_5 `reduce_a`) are Violated exactly when `pip ≥ target`;
otherwise, with `new_points = points \ {point}` and `new_target = target −
pip`, they return Satisfied when `new_points` is empty, the transition
`Exactly(0, new_points)` when `|new_points| = 1` and `new_target = 1`, and
the updated `LessThan(new_target, new_points)` in all other cases. -/
theorem lessThan_reduce_C4 (t : Nat) (pts : Finset Point) (pip : Nat) (q : Point)
    (hmem : q ∈ pts) :
    ((∃ e, GC.Constraint.reduce_assignment (.LessThan t pts) ⟨pip, q⟩ = .error e) ↔ t ≤ pip)
    ∧ (pip < t →
        GC.Constraint.reduce_assignment (.LessThan t pts) ⟨pip, q⟩ =
          .ok (if pts.erase q = ∅ then none
               else if (pts.erase q).card = 1 ∧ t - pip = 1 then
                 some (.Exactly 0 (pts.erase q))
               else some (.LessThan (t - pip) (pts.erase q))))
    ∧ ((∃ e, CS.reduce_a (.LessThan t pts) ⟨pip, q⟩ = .error e) ↔ t ≤ pip)
    ∧ (pip < t →
        CS.reduce_a (.LessThan t pts) ⟨pip, q⟩ =
          .ok (if pts.erase q = ∅ then .Empty
               else if (pts.erase q).card = 1 ∧ t - pip = 1 then
                 .Exactly 0 (pts.erase q)
               else .LessThan (t - pip) (pts.erase q))) := by
  have hne : ¬ (q ∉ pts) := by simpa using hmem
  have hc1 : 1 ≤ pts.card := Finset.card_pos.2 ⟨q, hmem⟩
  have hce : (pts.erase q).card = pts.card - 1 := Finset.card_erase_of_mem hmem
  have hempty : pts.erase q = ∅ ↔ pts.card = 1 := by
    rw [← Finset.card_eq_zero, hce]
    omega
  refine ⟨?_, ?_, ?_, ?_⟩
  · simp only [GC.Constraint.reduce_assignment, GC.Constraint.points, hne, if_false]
    by_cases h : t ≤ pip
    · rw [if_pos (by omega : pip ≥ t)]
      exact ⟨fun _ => h, fun _ => ⟨_, rfl⟩⟩
    · rw [if_neg (by omega : ¬ pip ≥ t)]
      constructor
      · rintro ⟨e, he⟩
        split_ifs at he
      · intro hle
        omega
  · intro hlt
    simp only [GC.Constraint.reduce_assignment, GC.Constraint.points, hne, if_false]
    rw [if_neg (by omega : ¬ pip ≥ t)]
    by_cases hsz : pts.card = 1
    · rw [if_pos hsz, if_pos (hempty.2 hsz)]
    · rw [if_neg hsz, if_neg (show ¬ pts.erase q = ∅ from fun h => hsz (hempty.1 h))]
      by_cases hc2 : pts.card = 2 ∧ t - pip = 1
      · rw [if_pos hc2,
          if_pos (show (pts.erase q).card = 1 ∧ t - pip = 1 from ⟨by omega, hc2.2⟩)]
      · rw [if_neg hc2,
          if_neg (show ¬ ((pts.erase q).card = 1 ∧ t - pip = 1) from
            fun h => hc2 ⟨by omega, h.2⟩)]
  · simp only [CS.reduce_a, hmem, if_true]
    by_cases h : t ≤ pip
    · rw [if_pos (by omega : pip ≥ t)]
      exact ⟨fun _ => h, fun _ => ⟨_, rfl⟩⟩
    · rw [if_neg (by omega : ¬ pip ≥ t)]
      constructor
      · rintro ⟨e, he⟩
        split_ifs at he
      · intro hle
        omega
  · intro hlt
    simp only [CS.reduce_a, hmem, if_true]
    rw [if_neg (by omega : ¬ pip ≥ t)]
    by_cases hz : (pts.erase q).card = 0
    · rw [if_pos hz, if_pos (Finset.card_eq_zero.1 hz)]
    · rw [if_neg hz,
        if_neg (show ¬ pts.erase q = ∅ from fun h => hz (by rw [h]; rfl))]
      by_cases hc2 : t - pip = 1 ∧ (pts.erase q).card = 1
      · rw [if_pos hc2,
          if_pos (show (pts.erase q).card = 1 ∧ t - pip = 1 from ⟨hc2.2, hc2.1⟩)]
      · rw [if_neg hc2,
          if_neg (show ¬ ((pts.erase q).card = 1 ∧ t - pip = 1) from
            fun h => hc2 ⟨h.2, h.1⟩)]

/-- C4 witness: the theorem applied at `LessThan(3, {(0,0),(1,0)})` reduced
by `2 @ (0,0)` (the `Exactly(0, ·)` transition fires). -/
theorem lessThan_reduce_C4_witness :
    GC.Constraint.reduce_assignment (.LessThan 3 {⟨0,0⟩, ⟨1,0⟩}) ⟨2, ⟨0,0⟩⟩ =
      .ok (if Finset.erase {⟨0,0⟩, ⟨1,0⟩} (⟨0,0⟩ : Point) = ∅ then none
           else if (Finset.erase {⟨0,0⟩, ⟨1,0⟩} (⟨0,0⟩ : Point)).card = 1 ∧ 3 - 2 = 1 then
             some (.Exactly 0 (Finset.erase {⟨0,0⟩, ⟨1,0⟩} (⟨0,0⟩ : Point)))
           else some (.LessThan (3 - 2) (Finset.erase {⟨0,0⟩, ⟨1,0⟩} (⟨0,0⟩ : Point)))) :=
  (lessThan_reduce_C4 3 {⟨0,0⟩, ⟨1,0⟩} 2 ⟨0,0⟩ (by decide)).2.1 (by decide)

/-- C10.  For `AllDifferent(excluded, points)` with `|excluded| + |points| ≤
7` and `|points| ≥ 1`, and an assignment `(pip, point)` with `point ∈
points`: an assignment whose pip is already excluded is Violated; an
assignment that empties the point set is Satisfied and dropped; and whenever
the reduction returns an updated constraint, that constraint is
`AllDifferent(excluded ∪ {pip}, points \ {point})`, the sum `|excluded| +
|points|` is preserved exactly, stays `≤ 7`, and the new point set is
non-empty.  Proved for both cited implementations (gpt_5_codex
`reduce_assignment` and claude_sonnet_4_5 `reduce_a`). -/
theorem allDifferent_reduce_C10 (excl : Finset Nat) (pts : Finset Point)
    (pip : Nat) (q : Point) (hsum : excl.card + pts.card ≤ 7)
    (hpts : 1 ≤ pts.card) (hmem : q ∈ pts) :
    (pip ∈ excl →
      (∃ e, GC.Constraint.reduce_assignment (.AllDifferent excl pts) ⟨pip, q⟩ = .error e)
      ∧ (∃ e, CS.reduce_a (.AllDifferent excl pts) ⟨pip, q⟩ = .error e))
    ∧ (pip ∉ excl → pts.erase q = ∅ →
        GC.Constraint.reduce_assignment (.AllDifferent excl pts) ⟨pip, q⟩ = .ok none
        ∧ CS.reduce_a (.AllDifferent excl pts) ⟨pip, q⟩ = .ok .Empty)
    ∧ (pip ∉ excl → pts.erase q ≠ ∅ →
        GC.Constraint.reduce_assignment (.AllDifferent excl pts) ⟨pip, q⟩ =
          .ok (some (.AllDifferent (insert pip excl) (pts.erase q)))
        ∧ CS.reduce_a (.AllDifferent excl pts) ⟨pip, q⟩ =
          .ok (.AllDifferent (insert pip excl) (pts.erase q))
        ∧ (insert pip excl).card + (pts.erase q).card = excl.card + pts.card
        ∧ (insert pip excl).card + (pts.erase q).card ≤ 7
        ∧ 1 ≤ (pts.erase q).card) := by
  have hne : ¬ (q ∉ pts) := by simpa using hmem
  have hce : (pts.erase q).card = pts.card - 1 := Finset.card_erase_of_mem hmem
  refine ⟨?_, ?_, ?_⟩
  · intro hexc
    constructor
    · simp only [GC.Constraint.reduce_assignment, GC.Constraint.points, hne, if_false]
      rw [if_pos hexc]
      exact ⟨_, rfl⟩
    · simp only [CS.reduce_a, hmem, if_true]
      rw [if_pos hexc]
      exact ⟨_, rfl⟩
  · intro hexc hempt
    constructor
    · simp only [GC.Constraint.reduce_assignment, GC.Constraint.points, hne, if_false]
      rw [if_neg hexc, if_pos hempt]
    · simp only [CS.reduce_a, hmem, if_true]
      rw [if_neg hexc, if_pos (by rw [hempt]; rfl : (pts.erase q).card = 0)]
  · intro hexc hnempt
    have hins : (insert pip excl).card = excl.card + 1 :=
      Finset.card_insert_of_not_mem hexc
    have hrest : 1 ≤ (pts.erase q).card :=
      Finset.card_pos.2 (Finset.nonempty_iff_ne_empty.2 hnempt)
    refine ⟨?_, ?_, by omega, by omega, hrest⟩
    · simp only [GC.Constraint.reduce_assignment, GC.Constraint.points, hne, if_false]
      rw [if_neg hexc, if_neg hnempt]
    · simp only [CS.reduce_a, hmem, if_true]
      rw [if_neg hexc, if_neg (by omega : ¬ (pts.erase q).card = 0)]

/-- C10 witness: the theorem applied at `AllDifferent({0}, {(0,0),(1,0)})`
reduced by `3 @ (0,0)` (the updated case). -/
theorem allDifferent_reduce_C10_witness :
    GC.Constraint.reduce_assignment (.AllDifferent {0} {⟨0,0⟩, ⟨1,0⟩}) ⟨3, ⟨0,0⟩⟩ =
      .ok (some (.AllDifferent (insert 3 {0})
        (Finset.erase {⟨0,0⟩, ⟨1,0⟩} (⟨0,0⟩ : Point))))
    ∧ CS.reduce_a (.AllDifferent {0} {⟨0,0⟩, ⟨1,0⟩}) ⟨3, ⟨0,0⟩⟩ =
      .ok (.AllDifferent (insert 3 {0})
        (Finset.erase {⟨0,0⟩, ⟨1,0⟩} (⟨0,0⟩ : Point)))
    ∧ (insert 3 ({0} : Finset Nat)).card +
        (Finset.erase {⟨0,0⟩, ⟨1,0⟩} (⟨0,0⟩ : Point)).card =
        ({0} : Finset Nat).card + ({⟨0,0⟩, ⟨1,0⟩} : Finset Point).card
    ∧ (insert 3 ({0} : Finset Nat)).card +
        (Finset.erase {⟨0,0⟩, ⟨1,0⟩} (⟨0,0⟩ : Point)).card ≤ 7
    ∧ 1 ≤ (Finset.erase {⟨0,0⟩, ⟨1,0⟩} (⟨0,0⟩ : Point)).card :=
  (allDifferent_reduce_C10 {0} {⟨0,0⟩, ⟨1,0⟩} 3 ⟨0,0⟩ (by decide) (by decide)
    (by decide)).2.2 (by decide) (by decide)

/-- C8.  The single-assignment reduction is total for every constraint and
assignment with `pip ∈ 0..6`: it returns exactly one of Updated
(`Ok(Some _)` / a non-`Empty` constraint), Satisfied (`Ok(None)` /
`Empty`) or Violated (`Err`), for both cited implementations; and every
`target − pip` subtraction performed on an unsigned integer is guarded by a
preceding violation check, so it never underflows: whenever an updated
`Exactly`, `LessThan` or `MoreThan` constraint is produced from the same
variant, its new target satisfies `new_target + pip = old_target` exactly.
(The claude_sonnet_4_5 `MoreThan` branch uses `saturating_sub`, which cannot
underflow by construction and is covered by the C3 theorem.) -/
theorem reduce_one_total_C8 (pip : Nat) (q : Point) (hpip : pip ≤ 6) :
    (∀ c : GC.Constraint,
        (∃ c', GC.Constraint.reduce_assignment c ⟨pip, q⟩ = .ok (some c'))
        ∨ GC.Constraint.reduce_assignment c ⟨pip, q⟩ = .ok none
        ∨ (∃ e, GC.Constraint.reduce_assignment c ⟨pip, q⟩ = .error e))
    ∧ (∀ c : CS.Constraint,
        (∃ c', CS.reduce_a c ⟨pip, q⟩ = .ok c')
        ∨ (∃ e, CS.reduce_a c ⟨pip, q⟩ = .error e))
    ∧ (∀ t pts t' pts', q ∈ pts →
        GC.Constraint.reduce_assignment (.Exactly t pts) ⟨pip, q⟩ =
          .ok (some (.Exactly t' pts')) → t' + pip = t)
    ∧ (∀ t pts t' pts', q ∈ pts →
        GC.Constraint.reduce_assignment (.LessThan t pts) ⟨pip, q⟩ =
          .ok (some (.LessThan t' pts')) → t' + pip = t)
    ∧ (∀ t pts t' pts', q ∈ pts →
        GC.Constraint.reduce_assignment (.MoreThan t pts) ⟨pip, q⟩ =
          .ok (some (.MoreThan t' pts')) → t' + pip = t)
    ∧ (∀ t pts t' pts', q ∈ pts →
        CS.reduce_a (.Exactly t pts) ⟨pip, q⟩ = .ok (.Exactly t' pts') →
        t' + pip = t)
    ∧ (∀ t pts t' pts', q ∈ pts →
        CS.reduce_a (.LessThan t pts) ⟨pip, q⟩ = .ok (.LessThan t' pts') →
        t' + pip = t) := by
  refine ⟨?_, ?_, ?_, ?_, ?_, ?_, ?_⟩
  · intro c
    cases h : GC.Constraint.reduce_assignment c ⟨pip, q⟩ with
    | error e => exact Or.inr (Or.inr ⟨e, rfl⟩)
    | ok v =>
        cases v with
        | none => exact Or.inr (Or.inl rfl)
        | some c' => exact Or.inl ⟨c', rfl⟩
  · intro c
    cases h : CS.reduce_a c ⟨pip, q⟩ with
    | error e => exact Or.inr ⟨e, rfl⟩
    | ok c' => exact Or.inl ⟨c', rfl⟩
  · intro t pts t' pts' hmem h
    have hne : ¬ (q ∉ pts) := by simpa using hmem
    simp only [GC.Constraint.reduce_assignment, GC.Constraint.points, hne, if_false] at h
    split_ifs at h with h1 h2 h3 h4
    all_goals simp at h
    all_goals obtain ⟨ht, hpts2⟩ := h
    all_goals omega
  · intro t pts t' pts' hmem h
    have hne : ¬ (q ∉ pts) := by simpa using hmem
    simp only [GC.Constraint.reduce_assignment, GC.Constraint.points, hne, if_false] at h
    split_ifs at h with h1 h2 h3
    all_goals simp at h
    all_goals obtain ⟨ht, hpts2⟩ := h
    all_goals omega
  · intro t pts t' pts' hmem h
    have hne : ¬ (q ∉ pts) := by simpa using hmem
    simp only [GC.Constraint.reduce_assignment, GC.Constraint.points, hne, if_false] at h
    split_ifs at h with h1 h2 h3 h4 h5
    all_goals simp at h
    all_goals obtain ⟨ht, hpts2⟩ := h
    all_goals omega
  · intro t pts t' pts' hmem h
    simp only [CS.reduce_a, hmem, if_true] at h
    split_ifs at h with h1 h2 h3
    all_goals simp at h
    all_goals obtain ⟨ht, hpts2⟩ := h
    all_goals omega
  · intro t pts t' pts' hmem h
    simp only [CS.reduce_a, hmem, if_true] at h
    split_ifs at h with h1 h2 h3
    all_goals simp at h
    all_goals obtain ⟨ht, hpts2⟩ := h
    all_goals omega

/-- C8 witness: the totality theorem applied at `pip = 2`, `point = (0,0)`. -/
theorem reduce_one_total_C8_witness :
    (2 : Nat) ≤ 6 ∧
    ((∀ c : GC.Constraint,
        (∃ c', GC.Constraint.reduce_assignment c ⟨2, ⟨0,0⟩⟩ = .ok (some c'))
        ∨ GC.Constraint.reduce_assignment c ⟨2, ⟨0,0⟩⟩ = .ok none
        ∨ (∃ e, GC.Constraint.reduce_assignment c ⟨2, ⟨0,0⟩⟩ = .error e))
    ∧ (∀ c : CS.Constraint,
        (∃ c', CS.reduce_a c ⟨2, ⟨0,0⟩⟩ = .ok c')
        ∨ (∃ e, CS.reduce_a c ⟨2, ⟨0,0⟩⟩ = .error e))
    ∧ (∀ t pts t' pts', (⟨0,0⟩ : Point) ∈ pts →
        GC.Constraint.reduce_assignment (.Exactly t pts) ⟨2, ⟨0,0⟩⟩ =
          .ok (some (.Exactly t' pts')) → t' + 2 = t)
    ∧ (∀ t pts t' pts', (⟨0,0⟩ : Point) ∈ pts →
        GC.Constraint.reduce_assignment (.LessThan t pts) ⟨2, ⟨0,0⟩⟩ =
          .ok (some (.LessThan t' pts')) → t' + 2 = t)
    ∧ (∀ t pts t' pts', (⟨0,0⟩ : Point) ∈ pts →
        GC.Constraint.reduce_assignment (.MoreThan t pts) ⟨2, ⟨0,0⟩⟩ =
          .ok (some (.MoreThan t' pts')) → t' + 2 = t)
    ∧ (∀ t pts t' pts', (⟨0,0⟩ : Point) ∈ pts →
        CS.reduce_a (.Exactly t pts) ⟨2, ⟨0,0⟩⟩ = .ok (.Exactly t' pts') →
        t' + 2 = t)
    ∧ (∀ t pts t' pts', (⟨0,0⟩ : Point) ∈ pts →
        CS.reduce_a (.LessThan t pts) ⟨2, ⟨0,0⟩⟩ = .ok (.LessThan t' pts') →
        t' + 2 = t)) :=
  ⟨by decide, reduce_one_total_C8 2 ⟨0,0⟩ (by decide)⟩

namespace CS

theorem placement_points_card (pl : Placement) : pl.points.card = 2 := by
  rcases pl with ⟨piece, pt, d⟩
  rcases pt with ⟨x, y⟩
  cases d <;>
    · simp only [Placement.points, Placement.assignments, List.map_cons, List.map_nil,
        List.toFinset_cons, List.toFinset_nil, insert_emptyc_eq]
      rw [Finset.card_insert_of_not_mem (by
        simp only [Finset.mem_singleton]
        intro hcon
        have hy := congrArg Point.y hcon
        have hx := congrArg Point.x hcon
        simp_all)]
      rfl

theorem reduce_b_ok (b : Board) (pl : Placement) (b' : Board)
    (h : b.reduce_b pl = .ok b') :
    pl.points ⊆ b.points ∧ b' = ⟨b.points \ pl.points⟩ := by
  rw [Board.reduce_b] at h
  split_ifs at h with hsub
  · exact ⟨hsub, by injection h with h'; exact h'.symm⟩

theorem remove_one_ok (l : List Piece) (piece : Piece) (l' : List Piece)
    (h : remove_one l piece = .ok l') :
    piece ∈ l ∧ l' = l.erase piece := by
  rw [remove_one] at h
  split_ifs at h with hmem
  · exact ⟨hmem, by injection h with h'; exact h'.symm⟩

theorem reduce_cs_cons (c0 : Constraint) (rest : List Constraint) (pl : Placement) :
    reduce_cs (c0 :: rest) pl =
      match reduce_p c0 pl with
      | .error e => .error e
      | .ok r =>
          if r = .Empty then reduce_cs rest pl
          else (reduce_cs rest pl).map (r :: ·) := by
  rw [reduce_cs]
  rcases h : reduce_p c0 pl with e | r
  · rfl
  · cases r <;> simp [reduce_cs]

theorem reduce_cs_forward (pl : Placement) :
    ∀ (cs : List Constraint) (cs' : List Constraint),
      reduce_cs cs pl = .ok cs' →
      ∀ c ∈ cs, ∃ r, reduce_p c pl = .ok r ∧ (r = .Empty ∨ r ∈ cs') := by
  intro cs
  induction cs with
  | nil =>
      intro cs' _ c hc
      exact absurd hc (List.not_mem_nil c)
  | cons c0 rest ih =>
      intro cs' h c hc
      rw [reduce_cs_cons] at h
      rcases hr : reduce_p c0 pl with e | r0 <;> rw [hr] at h <;> dsimp only at h
      · exact Except.noConfusion h
      by_cases hE : r0 = .Empty
      · rw [if_pos hE] at h
        rcases List.mem_cons.1 hc with rfl | hmem
        · exact ⟨r0, hr, Or.inl hE⟩
        · exact ih cs' h c hmem
      · rw [if_neg hE] at h
        rcases hrest : reduce_cs rest pl with e | cs'' <;> rw [hrest] at h
        · exact Except.noConfusion h
        simp only [Except.map, Except.ok.injEq] at h
        rcases List.mem_cons.1 hc with rfl | hmem
        · exact ⟨r0, hr, Or.inr (by rw [← h]; exact List.mem_cons_self _ _)⟩
        · obtain ⟨r, hrp, hor⟩ := ih cs'' hrest c hmem
          refine ⟨r, hrp, ?_⟩
          rcases hor with rfl | hmem'
          · exact Or.inl rfl
          · exact Or.inr (by rw [← h]; exact List.mem_cons_of_mem _ hmem')

end CS

namespace CS

theorem reduce_a_points_subset (c : Constraint) (a : Assignment) (r : Constraint)
    (h : reduce_a c a = .ok r) : r.pointsOf ⊆ c.pointsOf := by
  cases c with
  | Empty =>
      simp only [reduce_a] at h
      injection h with h'
      subst h'
      exact subset_rfl
  | AllSame target points =>
      cases target <;>
        · simp only [reduce_a] at h
          split_ifs at h <;>
            (injection h with h'; subst h';
             simp [Constraint.pointsOf, Finset.erase_subset])
  | AllDifferent excl points =>
      simp only [reduce_a] at h
      split_ifs at h <;>
        (injection h with h'; subst h';
         simp [Constraint.pointsOf, Finset.erase_subset])
  | LessThan t points =>
      simp only [reduce_a] at h
      split_ifs at h <;>
        (injection h with h'; subst h';
         simp [Constraint.pointsOf, Finset.erase_subset])
  | Exactly t points =>
      simp only [reduce_a] at h
      split_ifs at h <;>
        (injection h with h'; subst h';
         simp [Constraint.pointsOf, Finset.erase_subset])
  | MoreThan t points =>
      simp only [reduce_a] at h
      split_ifs at h <;>
        (injection h with h'; subst h';
         simp [Constraint.pointsOf, Finset.erase_subset])

theorem foldl_reduce_a_points_subset (a_list : List Assignment) :
    ∀ (c r : Constraint), List.foldlM reduce_a c a_list = .ok r →
      r.pointsOf ⊆ c.pointsOf := by
  induction a_list with
  | nil =>
      intro c r h
      simp only [List.foldlM_nil] at h
      injection h with h'
      subst h'
      exact subset_rfl
  | cons a rest ih =>
      intro c r h
      simp only [List.foldlM_cons] at h
      rcases hm : reduce_a c a with e | mid <;> rw [hm] at h
      · exact Except.noConfusion h
      · exact subset_trans (ih mid r h) (reduce_a_points_subset c a mid hm)

theorem reduce_p_points_subset (c : Constraint) (pl : Placement) (r : Constraint)
    (h : reduce_p c pl = .ok r) : r.pointsOf ⊆ c.pointsOf :=
  foldl_reduce_a_points_subset pl.assignments c r h

end CS

/-- C2.  If `play(g, p)` succeeds yielding `g'` (claude_sonnet_4_5
`Game::play`), then the board lost exactly the piece's cells — in this
domino-only crate every piece shape covers 2 cells, so `|g'.board| =
|g.board| − 2` with no truncation — the piece multiset lost exactly one
piece, and every constraint of `g` either reappears in `g'` as its reduction
(with a point set that only shrank) or was satisfied by the placement and
dropped. -/
theorem play_effects_C2 (g : CS.Game) (pl : CS.Placement) (g' : CS.Game)
    (h : g.play pl = .ok g') :
    g'.board.points.card + 2 = g.board.points.card
    ∧ g'.board.points.card = g.board.points.card - 2
    ∧ g'.pieces.length + 1 = g.pieces.length
    ∧ ∀ c ∈ g.constraints, ∃ r, CS.reduce_p c pl = .ok r ∧
        (r = .Empty ∨ (r ∈ g'.constraints ∧ r.pointsOf ⊆ c.pointsOf)) := by
  rw [CS.Game.play] at h
  rcases hb : g.board.reduce_b pl with e | b' <;> rw [hb] at h
  · exact Except.noConfusion h
  rcases hp : CS.remove_one g.pieces pl.piece with e | ps' <;> rw [hp] at h
  · exact Except.noConfusion h
  rcases hc : CS.reduce_cs g.constraints pl with e | cs' <;> rw [hc] at h
  · exact Except.noConfusion h
  injection h with h'
  subst h'
  obtain ⟨hsub, hbeq⟩ := CS.reduce_b_ok g.board pl b' hb
  obtain ⟨hmem, hpeq⟩ := CS.remove_one_ok g.pieces pl.piece ps' hp
  have hcard2 : pl.points.card = 2 := CS.placement_points_card pl
  have hle : 2 ≤ g.board.points.card := by
    rw [← hcard2]
    exact Finset.card_le_card hsub
  have hbcard : b'.points.card = g.board.points.card - pl.points.card := by
    rw [hbeq]
    exact Finset.card_sdiff hsub
  have hplen : ps'.length = g.pieces.length - 1 := by
    rw [hpeq]
    exact List.length_erase_of_mem hmem
  have hplen1 : 1 ≤ g.pieces.length := List.length_pos.2 (List.ne_nil_of_mem hmem)
  dsimp only
  refine ⟨by omega, by omega, by omega, ?_⟩
  intro c hcmem
  obtain ⟨r, hr, hor⟩ := CS.reduce_cs_forward pl g.constraints cs' hc c hcmem
  refine ⟨r, hr, ?_⟩
  rcases hor with rfl | hmem'
  · exact Or.inl rfl
  · exact Or.inr ⟨hmem', CS.reduce_p_points_subset c pl r hr⟩

/-- C2 witness: a successful `play` on the two-cell board `{(0,0),(0,1)}`
with the doubleton domino `(1,1)` placed north at `(0,0)`. -/
theorem play_effects_C2_witness :
    ((⟨⟨∅⟩, [], []⟩ : CS.Game).board.points.card + 2 =
      (⟨⟨{⟨0,0⟩, ⟨0,1⟩}⟩, [CS.Piece.new 1 1], []⟩ : CS.Game).board.points.card)
    ∧ ((⟨⟨∅⟩, [], []⟩ : CS.Game).board.points.card =
      (⟨⟨{⟨0,0⟩, ⟨0,1⟩}⟩, [CS.Piece.new 1 1], []⟩ : CS.Game).board.points.card - 2)
    ∧ ((⟨⟨∅⟩, [], []⟩ : CS.Game).pieces.length + 1 =
      (⟨⟨{⟨0,0⟩, ⟨0,1⟩}⟩, [CS.Piece.new 1 1], []⟩ : CS.Game).pieces.length)
    ∧ ∀ c ∈ (⟨⟨{⟨0,0⟩, ⟨0,1⟩}⟩, [CS.Piece.new 1 1], []⟩ : CS.Game).constraints,
        ∃ r, CS.reduce_p c ⟨CS.Piece.new 1 1, ⟨0,0⟩, .North⟩ = .ok r ∧
          (r = .Empty ∨ (r ∈ (⟨⟨∅⟩, [], []⟩ : CS.Game).constraints ∧
            r.pointsOf ⊆ c.pointsOf)) :=
  play_effects_C2 ⟨⟨{⟨0,0⟩, ⟨0,1⟩}⟩, [CS.Piece.new 1 1], []⟩
    ⟨CS.Piece.new 1 1, ⟨0,0⟩, .North⟩ ⟨⟨∅⟩, [], []⟩ (by decide)

/-- C5.  A failing `play` leaves the caller's game entirely unchanged:
`play` borrows the game immutably and returns a fresh value, so on failure
the caller still holds the original board, piece list and constraint list,
and no partially-updated game exists.  The final conjunct records the
all-or-nothing decomposition: `play` fails exactly by one of its three steps
(board reduction, piece removal, constraint reduction) failing, with nothing
committed.  Proved for the claude_sonnet_4_5 `Game::play`; the gemini and
gpt_5_codex `play` functions have the same `fn play(&Game, &Placement) ->
Result<Game, _>` shape. -/
theorem play_failure_unchanged_C5 (g : CS.Game) (pl : CS.Placement)
    (h : (g.playCall pl).1.isOk = false) :
    (g.playCall pl).2.board = g.board
    ∧ (g.playCall pl).2.pieces = g.pieces
    ∧ (g.playCall pl).2.constraints = g.constraints
    ∧ (¬ ∃ g', g.play pl = .ok g')
    ∧ ((∃ e, g.board.reduce_b pl = .error e)
       ∨ (∃ e, CS.remove_one g.pieces pl.piece = .error e)
       ∨ (∃ e, CS.reduce_cs g.constraints pl = .error e)) := by
  refine ⟨rfl, rfl, rfl, ?_, ?_⟩
  · rintro ⟨g', hg'⟩
    rw [CS.Game.playCall] at h
    rw [hg'] at h
    exact Bool.noConfusion h
  · rw [CS.Game.playCall] at h
    rw [CS.Game.play] at h
    rcases hb : g.board.reduce_b pl with e | b' <;> rw [hb] at h
    · exact Or.inl ⟨e, rfl⟩
    rcases hp : CS.remove_one g.pieces pl.piece with e | ps' <;> rw [hp] at h
    · exact Or.inr (Or.inl ⟨e, rfl⟩)
    rcases hc : CS.reduce_cs g.constraints pl with e | cs' <;> rw [hc] at h
    · exact Or.inr (Or.inr ⟨e, rfl⟩)
    · exact Bool.noConfusion h

/-- C5 witness: playing any placement on the empty board fails (the
placement's points are off the board) and the caller's game is unchanged. -/
theorem play_failure_unchanged_C5_witness :
    ((⟨⟨∅⟩, [], []⟩ : CS.Game).playCall ⟨CS.Piece.new 1 1, ⟨0,0⟩, .North⟩).2.board =
      (⟨⟨∅⟩, [], []⟩ : CS.Game).board
    ∧ ((⟨⟨∅⟩, [], []⟩ : CS.Game).playCall ⟨CS.Piece.new 1 1, ⟨0,0⟩, .North⟩).2.pieces =
      (⟨⟨∅⟩, [], []⟩ : CS.Game).pieces
    ∧ ((⟨⟨∅⟩, [], []⟩ : CS.Game).playCall ⟨CS.Piece.new 1 1, ⟨0,0⟩, .North⟩).2.constraints =
      (⟨⟨∅⟩, [], []⟩ : CS.Game).constraints
    ∧ (¬ ∃ g', (⟨⟨∅⟩, [], []⟩ : CS.Game).play ⟨CS.Piece.new 1 1, ⟨0,0⟩, .North⟩ = .ok g')
    ∧ ((∃ e, (⟨⟨∅⟩, [], []⟩ : CS.Game).board.reduce_b
          ⟨CS.Piece.new 1 1, ⟨0,0⟩, .North⟩ = .error e)
       ∨ (∃ e, CS.remove_one (⟨⟨∅⟩, [], []⟩ : CS.Game).pieces
          (CS.Piece.new 1 1) = .error e)
       ∨ (∃ e, CS.reduce_cs (⟨⟨∅⟩, [], []⟩ : CS.Game).constraints
          ⟨CS.Piece.new 1 1, ⟨0,0⟩, .North⟩ = .error e)) :=
  play_failure_unchanged_C5 ⟨⟨∅⟩, [], []⟩ ⟨CS.Piece.new 1 1, ⟨0,0⟩, .North⟩ (by decide)

namespace CS

theorem pivotKeyLe_of_not_lt (b c : Point × Nat)
    (h : ¬ (c.2 < b.2 ∨ (c.2 = b.2 ∧ (c.1.x < b.1.x ∨ (c.1.x = b.1.x ∧ c.1.y < b.1.y))))) :
    pivotKeyLe b c := by
  rw [pivotKeyLe]
  omega

theorem pivotKeyLe_of_lt (b c : Point × Nat)
    (h : c.2 < b.2 ∨ (c.2 = b.2 ∧ (c.1.x < b.1.x ∨ (c.1.x = b.1.x ∧ c.1.y < b.1.y)))) :
    pivotKeyLe c b := by
  rw [pivotKeyLe]
  omega

theorem pivotKeyLe_trans (a b c : Point × Nat)
    (h1 : pivotKeyLe a b) (h2 : pivotKeyLe b c) : pivotKeyLe a c := by
  rw [pivotKeyLe] at *
  omega

theorem foldl_pivotStep_some (l : List (Point × Nat)) :
    ∀ b : Point × Nat,
      ∃ r, l.foldl pivotStep (some b) = some r ∧ (r = b ∨ r ∈ l) ∧
        pivotKeyLe r b ∧ ∀ x ∈ l, pivotKeyLe r x := by
  induction l with
  | nil =>
      intro b
      exact ⟨b, rfl, Or.inl rfl, Or.inr ⟨rfl, Or.inr ⟨rfl, le_refl _⟩⟩,
        fun x hx => absurd hx (List.not_mem_nil x)⟩
  | cons c l ih =>
      intro b
      rw [List.foldl_cons]
      by_cases hlt : c.2 < b.2 ∨ (c.2 = b.2 ∧ (c.1.x < b.1.x ∨ (c.1.x = b.1.x ∧ c.1.y < b.1.y)))
      · rw [show pivotStep (some b) c = some c from by rw [pivotStep, if_pos hlt]]
        obtain ⟨r, hr, hmem, hle, hall⟩ := ih c
        refine ⟨r, hr, ?_, ?_, ?_⟩
        · rcases hmem with rfl | hmem
          · exact Or.inr (List.mem_cons_self _ _)
          · exact Or.inr (List.mem_cons_of_mem _ hmem)
        · exact pivotKeyLe_trans r c b hle (pivotKeyLe_of_lt b c hlt)
        · intro x hx
          rcases List.mem_cons.1 hx with rfl | hx
          · exact hle
          · exact hall x hx
      · rw [show pivotStep (some b) c = some b from by rw [pivotStep, if_neg hlt]]
        obtain ⟨r, hr, hmem, hle, hall⟩ := ih b
        refine ⟨r, hr, ?_, hle, ?_⟩
        · rcases hmem with rfl | hmem
          · exact Or.inl rfl
          · exact Or.inr (List.mem_cons_of_mem _ hmem)
        · intro x hx
          rcases List.mem_cons.1 hx with rfl | hx
          · exact pivotKeyLe_trans r b x hle (pivotKeyLe_of_not_lt b x hlt)
          · exact hall x hx

theorem minByKeyFirst_some (l : List (Point × Nat)) (r : Point × Nat)
    (h : minByKeyFirst l = some r) :
    r ∈ l ∧ ∀ x ∈ l, pivotKeyLe r x := by
  cases l with
  | nil => exact Option.noConfusion h
  | cons c l =>
      rw [minByKeyFirst, List.foldl_cons] at h
      rw [show pivotStep none c = some c from rfl] at h
      obtain ⟨r', hr', hmem, hle, hall⟩ := foldl_pivotStep_some l c
      rw [hr'] at h
      injection h with h'
      subst h'
      constructor
      · rcases hmem with rfl | hmem
        · exact List.mem_cons_self _ _
        · exact List.mem_cons_of_mem _ hmem
      · intro x hx
        rcases List.mem_cons.1 hx with rfl | hx
        · exact hle
        · exact hall x hx

theorem minByKeyFirst_none (l : List (Point × Nat))
    (h : minByKeyFirst l = none) : l = [] := by
  cases l with
  | nil => rfl
  | cons c l =>
      rw [minByKeyFirst, List.foldl_cons] at h
      rw [show pivotStep none c = some c from rfl] at h
      obtain ⟨r', hr', _, _, _⟩ := foldl_pivotStep_some l c
      rw [hr'] at h
      exact Option.noConfusion h

end CS

namespace CS

theorem pivotCandidate_some_iff (g : Game) (c : Constraint) (pt : Point) (sz : Nat) :
    pivotCandidate g c = some (pt, sz) ↔
      c ≠ .Empty ∧ c.pointsOf ≠ ∅
      ∧ minPoint (c.pointsOf ∩ g.board.points) = some pt
      ∧ sz = c.pointsOf.card := by
  cases c with
  | Empty => simp [pivotCandidate]
  | AllSame t pts =>
      rw [pivotCandidate]
      dsimp only
      by_cases he : pts = ∅
      · simp [he, Constraint.pointsOf]
      · rcases hm : minPoint (pts ∩ g.board.points) with _ | m
        · simp [he, hm, Constraint.pointsOf]
        · simp only [he, if_false, hm, Constraint.pointsOf, Option.some.injEq, Prod.mk.injEq]
          constructor
          · rintro ⟨rfl, rfl⟩
            exact ⟨by simp, he, rfl, rfl⟩
          · rintro ⟨_, _, hsome, rfl⟩
            exact ⟨hsome, rfl⟩
      all_goals simp
  | AllDifferent a pts =>
      rw [pivotCandidate]
      dsimp only
      by_cases he : pts = ∅
      · simp [he, Constraint.pointsOf]
      · rcases hm : minPoint (pts ∩ g.board.points) with _ | m
        · simp [he, hm, Constraint.pointsOf]
        · simp only [he, if_false, hm, Constraint.pointsOf, Option.some.injEq, Prod.mk.injEq]
          constructor
          · rintro ⟨rfl, rfl⟩
            exact ⟨by simp, he, rfl, rfl⟩
          · rintro ⟨_, _, hsome, rfl⟩
            exact ⟨hsome, rfl⟩
      all_goals simp
  | LessThan a pts =>
      rw [pivotCandidate]
      dsimp only
      by_cases he : pts = ∅
      · simp [he, Constraint.pointsOf]
      · rcases hm : minPoint (pts ∩ g.board.points) with _ | m
        · simp [he, hm, Constraint.pointsOf]
        · simp only [he, if_false, hm, Constraint.pointsOf, Option.some.injEq, Prod.mk.injEq]
          constructor
          · rintro ⟨rfl, rfl⟩
            exact ⟨by simp, he, rfl, rfl⟩
          · rintro ⟨_, _, hsome, rfl⟩
            exact ⟨hsome, rfl⟩
      all_goals simp
  | Exactly a pts =>
      rw [pivotCandidate]
      dsimp only
      by_cases he : pts = ∅
      · simp [he, Constraint.pointsOf]
      · rcases hm : minPoint (pts ∩ g.board.points) with _ | m
        · simp [he, hm, Constraint.pointsOf]
        · simp only [he, if_false, hm, Constraint.pointsOf, Option.some.injEq, Prod.mk.injEq]
          constructor
          · rintro ⟨rfl, rfl⟩
            exact ⟨by simp, he, rfl, rfl⟩
          · rintro ⟨_, _, hsome, rfl⟩
            exact ⟨hsome, rfl⟩
      all_goals simp
  | MoreThan a pts =>
      rw [pivotCandidate]
      dsimp only
      by_cases he : pts = ∅
      · simp [he, Constraint.pointsOf]
      · rcases hm : minPoint (pts ∩ g.board.points) with _ | m
        · simp [he, hm, Constraint.pointsOf]
        · simp only [he, if_false, hm, Constraint.pointsOf, Option.some.injEq, Prod.mk.injEq]
          constructor
          · rintro ⟨rfl, rfl⟩
            exact ⟨by simp, he, rfl, rfl⟩
          · rintro ⟨_, _, hsome, rfl⟩
            exact ⟨hsome, rfl⟩
      all_goals simp

end CS

namespace CS

/-- Modelled from the spec: bounding-box slack of a finite point set — the
bounding-box area minus the cell count (spec pivot rule; 0 for the empty
set). -/
def regionSlack (s : Finset Point) : Nat :=
  if h : s.Nonempty then
    (((s.image Point.x).max' (h.image _) - (s.image Point.x).min' (h.image _) + 1)
      * ((s.image Point.y).max' (h.image _) - (s.image Point.y).min' (h.image _) + 1))
      - s.card
  else 0

/-- Modelled from the spec: the candidate region one constraint contributes
to the claimed pivot rule — its point set intersected with the board, when
non-empty. -/
def claimCandidate (g : Game) (c : Constraint) : Option (Finset Point) :=
  match c with
  | .Empty => none
  | _ =>
    let s := c.pointsOf ∩ g.board.points
    if s = ∅ then none else some s

/-- Modelled from the spec: one step of a first-minimum scan of candidate
regions under the claimed key `(on-board size, bounding-box slack)`. -/
def claimStep (acc : Option (Finset Point)) (s : Finset Point) :
    Option (Finset Point) :=
  match acc with
  | none => some s
  | some b =>
      if s.card < b.card ∨ (s.card = b.card ∧ regionSlack s < regionSlack b)
      then some s else some b

/-- Modelled from the spec (the rule claim C6 states): `S` is the on-board
point set of the smallest non-empty constraint, ties between constraints
broken by smaller bounding-box slack, the whole board when no constraint
contributes; the pivot is the `(y,x)`-least point of `S`. -/
def pivotSpecClaim (g : Game) : Option Point :=
  match (g.constraints.filterMap (claimCandidate g)).foldl claimStep none with
  | some s => minPoint s
  | none => minPoint g.board.points

end CS

/-- C6 counterexample.  On the board `{(0,0),(1,0),(2,0),(1,1)}` with the
two two-point constraints `Exactly(5, {(0,0),(1,1)})` (slack 2) and
`Exactly(5, {(1,0),(2,0)})` (slack 0), the claim's rule breaks the size tie
by smaller slack and therefore picks `(1,0)` (the `(y,x)`-least point of the
second constraint), but `claude_sonnet_4_5::Game::pivot_point` breaks the
tie by the representative point's `(x, y)` and returns `(0,0)`. -/
theorem pivot_point_cex_C6 :
    CS.Game.pivot_point
      ⟨⟨{⟨0,0⟩, ⟨1,0⟩, ⟨2,0⟩, ⟨1,1⟩}⟩, [],
        [.Exactly 5 {⟨0,0⟩, ⟨1,1⟩}, .Exactly 5 {⟨1,0⟩, ⟨2,0⟩}]⟩ = some ⟨0,0⟩
    ∧ CS.pivotSpecClaim
      ⟨⟨{⟨0,0⟩, ⟨1,0⟩, ⟨2,0⟩, ⟨1,1⟩}⟩, [],
        [.Exactly 5 {⟨0,0⟩, ⟨1,1⟩}, .Exactly 5 {⟨1,0⟩, ⟨2,0⟩}]⟩ = some ⟨1,0⟩
    ∧ (some (⟨0,0⟩ : Point) ≠ some (⟨1,0⟩ : Point)) := by
  refine ⟨by decide, by decide, by decide⟩

/-- C6 (amended).  `claude_sonnet_4_5::Game::pivot_point` returns the
`(y,x)`-least on-board point of a non-empty constraint whose key
`(total point count, rep.x, rep.y)` is minimal over all contributing
constraints — i.e. ties between equally-small constraints are broken by the
representative point's `(x, y)` coordinates, not by bounding-box slack, and
the constraint's size is its total point count (under the game invariant
every remaining constraint point is still on the board, so this coincides
with the on-board count); when no constraint contributes an on-board point
the pivot is the board's `(y,x)`-least point. -/
theorem pivot_point_amended_C6 (g : CS.Game) (p : Point)
    (h : g.pivot_point = some p) :
    (∃ c ∈ g.constraints, c ≠ .Empty
        ∧ p ∈ c.pointsOf ∩ g.board.points
        ∧ (∀ q ∈ c.pointsOf ∩ g.board.points, p ≤ q)
        ∧ (∀ d ∈ g.constraints, ∀ pd sd, CS.pivotCandidate g d = some (pd, sd) →
            CS.pivotKeyLe (p, c.pointsOf.card) (pd, sd)))
    ∨ ((∀ c ∈ g.constraints, CS.pivotCandidate g c = none)
        ∧ p ∈ g.board.points ∧ ∀ q ∈ g.board.points, p ≤ q) := by
  rw [CS.Game.pivot_point] at h
  rcases hm : CS.minByKeyFirst (g.constraints.filterMap (CS.pivotCandidate g))
    with _ | ⟨p', sz⟩ <;> rw [hm] at h <;> dsimp only at h
  · right
    refine ⟨?_, ?_⟩
    · intro c hc
      have hnil := CS.minByKeyFirst_none _ hm
      rcases hcand : CS.pivotCandidate g c with _ | z
      · rfl
      · exfalso
        have : z ∈ g.constraints.filterMap (CS.pivotCandidate g) :=
          List.mem_filterMap.2 ⟨c, hc, hcand⟩
        rw [hnil] at this
        exact absurd this (List.not_mem_nil z)
    · exact (minPoint_eq_some_iff _ _).1 h
  · injection h with h'
    subst h'
    left
    obtain ⟨hmem, hall⟩ := CS.minByKeyFirst_some _ _ hm
    obtain ⟨c, hc, hcand⟩ := List.mem_filterMap.1 hmem
    obtain ⟨hne, _, hminp, hsz⟩ := (CS.pivotCandidate_some_iff g c p' sz).1 hcand
    obtain ⟨hp_mem, hp_least⟩ := (minPoint_eq_some_iff _ _).1 hminp
    refine ⟨c, hc, hne, hp_mem, hp_least, ?_⟩
    intro d hd pd sd hdcand
    have : (pd, sd) ∈ g.constraints.filterMap (CS.pivotCandidate g) :=
      List.mem_filterMap.2 ⟨d, hd, hdcand⟩
    have hk := hall _ this
    rw [hsz] at hk
    exact hk

/-- C6 witness: the amended theorem applied to the two-cell board
`{(0,0),(1,0)}` with the single constraint `Exactly(5, {(0,0),(1,0)})`,
whose pivot is `(0,0)`. -/
theorem pivot_point_amended_C6_witness :
    (∃ c ∈ (⟨⟨{⟨0,0⟩, ⟨1,0⟩}⟩, [], [.Exactly 5 {⟨0,0⟩, ⟨1,0⟩}]⟩ : CS.Game).constraints,
        c ≠ .Empty
        ∧ (⟨0,0⟩ : Point) ∈ c.pointsOf ∩
            (⟨⟨{⟨0,0⟩, ⟨1,0⟩}⟩, [], [.Exactly 5 {⟨0,0⟩, ⟨1,0⟩}]⟩ : CS.Game).board.points
        ∧ (∀ q ∈ c.pointsOf ∩
            (⟨⟨{⟨0,0⟩, ⟨1,0⟩}⟩, [], [.Exactly 5 {⟨0,0⟩, ⟨1,0⟩}]⟩ : CS.Game).board.points,
            (⟨0,0⟩ : Point) ≤ q)
        ∧ (∀ d ∈ (⟨⟨{⟨0,0⟩, ⟨1,0⟩}⟩, [], [.Exactly 5 {⟨0,0⟩, ⟨1,0⟩}]⟩ : CS.Game).constraints,
            ∀ pd sd,
            CS.pivotCandidate ⟨⟨{⟨0,0⟩, ⟨1,0⟩}⟩, [], [.Exactly 5 {⟨0,0⟩, ⟨1,0⟩}]⟩ d =
              some (pd, sd) →
            CS.pivotKeyLe (⟨0,0⟩, c.pointsOf.card) (pd, sd)))
    ∨ ((∀ c ∈ (⟨⟨{⟨0,0⟩, ⟨1,0⟩}⟩, [], [.Exactly 5 {⟨0,0⟩, ⟨1,0⟩}]⟩ : CS.Game).constraints,
          CS.pivotCandidate ⟨⟨{⟨0,0⟩, ⟨1,0⟩}⟩, [], [.Exactly 5 {⟨0,0⟩, ⟨1,0⟩}]⟩ c = none)
        ∧ (⟨0,0⟩ : Point) ∈
            (⟨⟨{⟨0,0⟩, ⟨1,0⟩}⟩, [], [.Exactly 5 {⟨0,0⟩, ⟨1,0⟩}]⟩ : CS.Game).board.points
        ∧ ∀ q ∈ (⟨⟨{⟨0,0⟩, ⟨1,0⟩}⟩, [], [.Exactly 5 {⟨0,0⟩, ⟨1,0⟩}]⟩ : CS.Game).board.points,
            (⟨0,0⟩ : Point) ≤ q) :=
  pivot_point_amended_C6 ⟨⟨{⟨0,0⟩, ⟨1,0⟩}⟩, [], [.Exactly 5 {⟨0,0⟩, ⟨1,0⟩}]⟩ ⟨0,0⟩ (by decide)

namespace CS

/-- Execute a list of placements in order via `play`, failing as soon as one
`play` fails (the replay the claim C1 describes). -/
def replay : Game → List Placement → Option Game
  | g, [] => some g
  | g, pl :: rest =>
    match g.play pl with
    | .ok g' => replay g' rest
    | .error _ => none

/-- All assignments induced by a placement list, in play order. -/
def assignmentsOf (P : List Placement) : List Assignment :=
  P.flatMap Placement.assignments

/-- Modelled from the spec: the induced cell→pip map — the pip of the first
assignment covering the point. -/
def pipAt (al : List Assignment) (p : Point) : Option Nat :=
  (al.find? fun a => decide (a.point = p)).map Assignment.pips

/-- Modelled from the spec: the sum of the pips over a region under the
induced map. -/
def sumAt (al : List Assignment) (pts : Finset Point) : Nat :=
  ∑ p ∈ pts, (pipAt al p).getD 0

/-- Modelled from the spec: every point of the region is covered by the
induced map. -/
def coveredAt (al : List Assignment) (pts : Finset Point) : Prop :=
  ∀ p ∈ pts, (pipAt al p).isSome = true

/-- Modelled from the spec (§3, constraint meanings): direct evaluation of a
constraint as satisfied under the induced cell→pip map: `AllSame` — every
point carries the same pip, equal to the expected one when set;
`AllDifferent` — all pips distinct and outside the excluded set; `Exactly` /
`LessThan` / `MoreThan` — the regional sum compared with the target. -/
def constraintSatisfiedSpec (al : List Assignment) : Constraint → Prop
  | .Empty => True
  | .AllSame target pts =>
      coveredAt al pts
      ∧ (∀ p ∈ pts, ∀ q ∈ pts, pipAt al p = pipAt al q)
      ∧ ∀ t, target = some t → ∀ p ∈ pts, pipAt al p = some t
  | .AllDifferent excl pts =>
      coveredAt al pts
      ∧ (∀ p ∈ pts, ∀ v, pipAt al p = some v → v ∉ excl)
      ∧ ∀ p ∈ pts, ∀ q ∈ pts, p ≠ q → pipAt al p ≠ pipAt al q
  | .LessThan target pts => coveredAt al pts ∧ sumAt al pts < target
  | .Exactly target pts => coveredAt al pts ∧ sumAt al pts = target
  | .MoreThan target pts => coveredAt al pts ∧ target < sumAt al pts

theorem pipAt_cons_self (a : Assignment) (rest : List Assignment) :
    pipAt (a :: rest) a.point = some a.pips := by
  rw [pipAt, List.find?_cons_of_pos _ (by simp)]
  rfl

theorem pipAt_cons_ne (a : Assignment) (rest : List Assignment) (p : Point)
    (h : a.point ≠ p) : pipAt (a :: rest) p = pipAt rest p := by
  rw [pipAt, List.find?_cons_of_neg _ (by simpa using h), pipAt]

theorem sumAt_cons_of_not_mem (a : Assignment) (rest : List Assignment)
    (pts : Finset Point) (h : a.point ∉ pts) :
    sumAt (a :: rest) pts = sumAt rest pts :=
  Finset.sum_congr rfl fun p hp => by
    rw [pipAt_cons_ne a rest p (fun he => h (he ▸ hp))]

theorem coveredAt_cons_of_not_mem (a : Assignment) (rest : List Assignment)
    (pts : Finset Point) (h : a.point ∉ pts) (hcov : coveredAt rest pts) :
    coveredAt (a :: rest) pts := fun p hp => by
  rw [pipAt_cons_ne a rest p (fun he => h (he ▸ hp))]
  exact hcov p hp

theorem sumAt_cons_mem (a : Assignment) (rest : List Assignment)
    (pts : Finset Point) (h : a.point ∈ pts) :
    sumAt (a :: rest) pts = a.pips + sumAt rest (pts.erase a.point) := by
  rw [sumAt, ← Finset.insert_erase h,
    Finset.sum_insert (Finset.not_mem_erase _ _), pipAt_cons_self]
  rw [Finset.insert_erase h]
  congr 1
  apply Finset.sum_congr rfl
  intro p hp
  rw [pipAt_cons_ne a rest p (Finset.ne_of_mem_erase hp).symm]

theorem coveredAt_of_erase (a : Assignment) (rest : List Assignment)
    (pts : Finset Point) (hcov : coveredAt rest (pts.erase a.point)) :
    coveredAt (a :: rest) pts := by
  intro p hp
  by_cases hpe : p = a.point
  · subst hpe
    rw [pipAt_cons_self]
    rfl
  · rw [pipAt_cons_ne a rest p (fun he => hpe he.symm)]
    exact hcov p (Finset.mem_erase.2 ⟨hpe, hp⟩)

end CS

namespace CS

theorem satSpec_cons_of_not_mem (a : Assignment) (rest : List Assignment)
    (c : Constraint) (h : a.point ∉ c.pointsOf)
    (ih : constraintSatisfiedSpec rest c) :
    constraintSatisfiedSpec (a :: rest) c := by
  have hne : ∀ p ∈ c.pointsOf, pipAt (a :: rest) p = pipAt rest p := by
    intro p hp
    exact pipAt_cons_ne a rest p (fun he => h (he ▸ hp))
  cases c with
  | Empty => trivial
  | AllSame target pts =>
      obtain ⟨hcov, hsame, hexp⟩ := ih
      refine ⟨?_, ?_, ?_⟩
      · intro p hp
        rw [hne p hp]
        exact hcov p hp
      · intro p hp q hq
        rw [hne p hp, hne q hq]
        exact hsame p hp q hq
      · intro t ht p hp
        rw [hne p hp]
        exact hexp t ht p hp
  | AllDifferent excl pts =>
      obtain ⟨hcov, hnotin, hinj⟩ := ih
      refine ⟨?_, ?_, ?_⟩
      · intro p hp
        rw [hne p hp]
        exact hcov p hp
      · intro p hp v hv
        rw [hne p hp] at hv
        exact hnotin p hp v hv
      · intro p hp q hq hpq
        rw [hne p hp, hne q hq]
        exact hinj p hp q hq hpq
  | LessThan target pts =>
      obtain ⟨hcov, hsum⟩ := ih
      exact ⟨coveredAt_cons_of_not_mem a rest pts h hcov,
        by rw [sumAt_cons_of_not_mem a rest pts h]; exact hsum⟩
  | Exactly target pts =>
      obtain ⟨hcov, hsum⟩ := ih
      exact ⟨coveredAt_cons_of_not_mem a rest pts h hcov,
        by rw [sumAt_cons_of_not_mem a rest pts h]; exact hsum⟩
  | MoreThan target pts =>
      obtain ⟨hcov, hsum⟩ := ih
      exact ⟨coveredAt_cons_of_not_mem a rest pts h hcov,
        by rw [sumAt_cons_of_not_mem a rest pts h]; exact hsum⟩

theorem satSpec_allSame_of_const (al : List Assignment) (target : Option Nat)
    (tv : Nat) (pts : Finset Point)
    (htv : target = none ∨ target = some tv)
    (key : ∀ p ∈ pts, pipAt al p = some tv) :
    constraintSatisfiedSpec al (.AllSame target pts) := by
  refine ⟨?_, ?_, ?_⟩
  · intro p hp
    rw [key p hp]
    rfl
  · intro p hp q hq
    rw [key p hp, key q hq]
  · intro t ht p hp
    rcases htv with rfl | rfl
    · exact Option.noConfusion ht
    · injection ht with h'
      rw [key p hp]
      exact congrArg some h'

theorem mem_singleton_of_erase_card_zero (pts : Finset Point) (x p : Point)
    (hx : x ∈ pts) (h0 : (pts.erase x).card = 0) (hp : p ∈ pts) : p = x := by
  by_contra hne
  have : p ∈ pts.erase x := Finset.mem_erase.2 ⟨hne, hp⟩
  rw [Finset.card_eq_zero.1 h0] at this
  exact absurd this (Finset.not_mem_empty p)

end CS

namespace CS

theorem key_of_erase (a : Assignment) (rest : List Assignment) (pts : Finset Point)
    (v : Nat) (hv : a.pips = v)
    (hval : ∀ p ∈ pts.erase a.point, pipAt rest p = some v) :
    ∀ p ∈ pts, pipAt (a :: rest) p = some v := by
  intro p hp
  by_cases hpe : p = a.point
  · subst hpe
    rw [pipAt_cons_self, hv]
  · rw [pipAt_cons_ne a rest p (fun he => hpe he.symm)]
    exact hval p (Finset.mem_erase.2 ⟨hpe, hp⟩)

theorem exactly_singleton_val (rest : List Assignment) (t : Nat) (np : Finset Point)
    (q : Point) (hq : np = {q})
    (ih : constraintSatisfiedSpec rest (.Exactly t np)) :
    pipAt rest q = some t := by
  obtain ⟨hcov, hsum⟩ := ih
  subst hq
  have hsome := hcov q (Finset.mem_singleton_self q)
  rcases ho : pipAt rest q with _ | v
  · rw [ho] at hsome
    exact Bool.noConfusion hsome
  · rw [sumAt, Finset.sum_singleton, ho] at hsum
    simp only [Option.getD_some] at hsum
    rw [hsum]

theorem sat_spec_step (a : Assignment) (rest : List Assignment) (c c₁ : Constraint)
    (hm : reduce_a c a = .ok c₁)
    (ih : constraintSatisfiedSpec rest c₁) :
    constraintSatisfiedSpec (a :: rest) c := by
  cases c with
  | Empty => trivial
  | AllSame target pts =>
      by_cases hmem : a.point ∈ pts
      · cases target with
        | none =>
            simp only [reduce_a] at hm
            rw [if_pos hmem] at hm
            split_ifs at hm with h0 h1
            · refine satSpec_allSame_of_const _ none a.pips pts (Or.inl rfl)
                (key_of_erase a rest pts a.pips rfl ?_)
              intro p hp
              rw [Finset.card_eq_zero.1 h0] at hp
              exact absurd hp (Finset.not_mem_empty p)
            · injection hm with h'
              subst h'
              obtain ⟨q, hq⟩ := Finset.card_eq_one.1 h1
              have hval := exactly_singleton_val rest a.pips _ q hq ih
              refine satSpec_allSame_of_const _ none a.pips pts (Or.inl rfl)
                (key_of_erase a rest pts a.pips rfl ?_)
              intro p hp
              rw [hq, Finset.mem_singleton] at hp
              subst hp
              exact hval
            · injection hm with h'
              subst h'
              obtain ⟨hcov, hsame, hexp⟩ := ih
              exact satSpec_allSame_of_const _ none a.pips pts (Or.inl rfl)
                (key_of_erase a rest pts a.pips rfl (hexp a.pips rfl))
        | some tv =>
            simp only [reduce_a] at hm
            rw [if_pos hmem] at hm
            by_cases hne : a.pips ≠ tv
            · rw [if_pos hne] at hm
              exact Except.noConfusion hm
            rw [if_neg hne] at hm
            split_ifs at hm with h0 h1
            · have hv : a.pips = tv := not_not.mp hne
              refine satSpec_allSame_of_const _ (some tv) tv pts (Or.inr rfl)
                (key_of_erase a rest pts tv hv ?_)
              intro p hp
              rw [Finset.card_eq_zero.1 h0] at hp
              exact absurd hp (Finset.not_mem_empty p)
            · injection hm with h'
              subst h'
              have hv : a.pips = tv := not_not.mp hne
              obtain ⟨q, hq⟩ := Finset.card_eq_one.1 h1
              have hval := exactly_singleton_val rest tv _ q hq ih
              refine satSpec_allSame_of_const _ (some tv) tv pts (Or.inr rfl)
                (key_of_erase a rest pts tv hv ?_)
              intro p hp
              rw [hq, Finset.mem_singleton] at hp
              subst hp
              exact hval
            · injection hm with h'
              subst h'
              have hv : a.pips = tv := not_not.mp hne
              obtain ⟨hcov, hsame, hexp⟩ := ih
              exact satSpec_allSame_of_const _ (some tv) tv pts (Or.inr rfl)
                (key_of_erase a rest pts tv hv (hexp tv rfl))
      · simp only [reduce_a] at hm
        rw [if_neg hmem] at hm
        injection hm with h'
        subst h'
        exact satSpec_cons_of_not_mem a rest _ hmem ih
  | AllDifferent excl pts =>
      by_cases hmem : a.point ∈ pts
      · simp only [reduce_a] at hm
        rw [if_pos hmem] at hm
        split_ifs at hm with hexcl h0
        · refine ⟨?_, ?_, ?_⟩
          · intro p hp
            have := mem_singleton_of_erase_card_zero pts a.point p hmem h0 hp
            subst this
            rw [pipAt_cons_self]
            rfl
          · intro p hp v hv
            have := mem_singleton_of_erase_card_zero pts a.point p hmem h0 hp
            subst this
            rw [pipAt_cons_self] at hv
            injection hv with hv'
            subst hv'
            exact hexcl
          · intro p hp q hq' hpq
            have hp' := mem_singleton_of_erase_card_zero pts a.point p hmem h0 hp
            have hq2 := mem_singleton_of_erase_card_zero pts a.point q hmem h0 hq'
            exact absurd (hp'.trans hq2.symm) hpq
        · injection hm with h'
          subst h'
          obtain ⟨hcov, hnotin, hinj⟩ := ih
          refine ⟨coveredAt_of_erase a rest pts hcov, ?_, ?_⟩
          · intro p hp v hv
            by_cases hpe : p = a.point
            · subst hpe
              rw [pipAt_cons_self] at hv
              injection hv with hv'
              subst hv'
              exact hexcl
            · rw [pipAt_cons_ne a rest p (fun he => hpe he.symm)] at hv
              have hni := hnotin p (Finset.mem_erase.2 ⟨hpe, hp⟩) v hv
              exact fun hc => hni (Finset.mem_insert_of_mem hc)
          · intro p hp q hq' hpq
            by_cases hpe : p = a.point <;> by_cases hqe : q = a.point
            · exact absurd (hpe.trans hqe.symm) hpq
            · subst hpe
              rw [pipAt_cons_self, pipAt_cons_ne a rest q (fun he => hqe he.symm)]
              have hqmem := Finset.mem_erase.2 ⟨hqe, hq'⟩
              have hsome := hcov q hqmem
              rcases ho : pipAt rest q with _ | v
              · rw [ho] at hsome
                exact Bool.noConfusion hsome
              · intro hcon
                injection hcon with hc
                exact hnotin q hqmem v ho (by rw [← hc]; exact Finset.mem_insert_self a.pips excl)
            · subst hqe
              rw [pipAt_cons_self, pipAt_cons_ne a rest p (fun he => hpe he.symm)]
              have hpmem := Finset.mem_erase.2 ⟨hpe, hp⟩
              have hsome := hcov p hpmem
              rcases ho : pipAt rest p with _ | v
              · rw [ho] at hsome
                exact Bool.noConfusion hsome
              · intro hcon
                injection hcon with hc
                exact hnotin p hpmem v ho (by rw [hc]; exact Finset.mem_insert_self a.pips excl)
            · rw [pipAt_cons_ne a rest p (fun he => hpe he.symm),
                pipAt_cons_ne a rest q (fun he => hqe he.symm)]
              exact hinj p (Finset.mem_erase.2 ⟨hpe, hp⟩) q (Finset.mem_erase.2 ⟨hqe, hq'⟩) hpq
      · simp only [reduce_a] at hm
        rw [if_neg hmem] at hm
        injection hm with h'
        subst h'
        exact satSpec_cons_of_not_mem a rest _ hmem ih
  | LessThan target pts =>
      by_cases hmem : a.point ∈ pts
      · simp only [reduce_a] at hm
        rw [if_pos hmem] at hm
        split_ifs at hm with hge h0 h1
        · refine ⟨coveredAt_of_erase a rest pts ?_, ?_⟩
          · intro p hp
            rw [Finset.card_eq_zero.1 h0] at hp
            exact absurd hp (Finset.not_mem_empty p)
          · rw [sumAt_cons_mem a rest pts hmem, Finset.card_eq_zero.1 h0]
            simp only [sumAt, Finset.sum_empty]
            omega
        · injection hm with h'
          subst h'
          obtain ⟨hcov, hsum⟩ := ih
          obtain ⟨h1a, h1b⟩ := h1
          refine ⟨coveredAt_of_erase a rest pts hcov, ?_⟩
          rw [sumAt_cons_mem a rest pts hmem]
          omega
        · injection hm with h'
          subst h'
          obtain ⟨hcov, hsum⟩ := ih
          refine ⟨coveredAt_of_erase a rest pts hcov, ?_⟩
          rw [sumAt_cons_mem a rest pts hmem]
          omega
      · simp only [reduce_a] at hm
        rw [if_neg hmem] at hm
        injection hm with h'
        subst h'
        exact satSpec_cons_of_not_mem a rest _ hmem ih
  | Exactly target pts =>
      by_cases hmem : a.point ∈ pts
      · simp only [reduce_a] at hm
        rw [if_pos hmem] at hm
        by_cases hc1 : pts.card = 1
        · rw [if_pos hc1] at hm
          by_cases hne : a.pips ≠ target
          · rw [if_pos hne] at hm
            exact Except.noConfusion hm
          rw [if_neg hne] at hm
          have heq : a.pips = target := not_not.mp hne
          have h0 : (pts.erase a.point).card = 0 := by
            rw [Finset.card_erase_of_mem hmem, hc1]
          refine ⟨?_, ?_⟩
          · intro p hp
            have := mem_singleton_of_erase_card_zero pts a.point p hmem h0 hp
            subst this
            rw [pipAt_cons_self]
            rfl
          · rw [sumAt_cons_mem a rest pts hmem, Finset.card_eq_zero.1 h0]
            simp only [sumAt, Finset.sum_empty]
            omega
        · rw [if_neg hc1] at hm
          split_ifs at hm with hgt hun
          · injection hm with h'
            subst h'
            obtain ⟨hcov, hsum⟩ := ih
            refine ⟨coveredAt_of_erase a rest pts hcov, ?_⟩
            rw [sumAt_cons_mem a rest pts hmem]
            omega
      · simp only [reduce_a] at hm
        rw [if_neg hmem] at hm
        injection hm with h'
        subst h'
        exact satSpec_cons_of_not_mem a rest _ hmem ih
  | MoreThan target pts =>
      by_cases hmem : a.point ∈ pts
      · simp only [reduce_a] at hm
        rw [if_pos hmem] at hm
        split_ifs at hm with hc1 hle h5
        · have h0 : (pts.erase a.point).card = 0 := by
            rw [Finset.card_erase_of_mem hmem, hc1]
          refine ⟨?_, ?_⟩
          · intro p hp
            have := mem_singleton_of_erase_card_zero pts a.point p hmem h0 hp
            subst this
            rw [pipAt_cons_self]
            rfl
          · rw [sumAt_cons_mem a rest pts hmem, Finset.card_eq_zero.1 h0]
            simp only [sumAt, Finset.sum_empty]
            omega
        · injection hm with h'
          subst h'
          obtain ⟨hcov, hsum⟩ := ih
          obtain ⟨h5a, h5b⟩ := h5
          refine ⟨coveredAt_of_erase a rest pts hcov, ?_⟩
          rw [sumAt_cons_mem a rest pts hmem]
          omega
        · injection hm with h'
          subst h'
          obtain ⟨hcov, hsum⟩ := ih
          refine ⟨coveredAt_of_erase a rest pts hcov, ?_⟩
          rw [sumAt_cons_mem a rest pts hmem]
          omega
      · simp only [reduce_a] at hm
        rw [if_neg hmem] at hm
        injection hm with h'
        subst h'
        exact satSpec_cons_of_not_mem a rest _ hmem ih

end CS

namespace CS

theorem findSome?_eq_some_exists {α β : Type _} (f : α → Option β) :
    ∀ (l : List α) (b : β), l.findSome? f = some b → ∃ a ∈ l, f a = some b := by
  intro l
  induction l with
  | nil =>
      intro b h
      exact Option.noConfusion h
  | cons x xs ih =>
      intro b h
      simp only [List.findSome?] at h
      rcases hf : f x with _ | y <;> rw [hf] at h
      · obtain ⟨a, ha, hfa⟩ := ih b h
        exact ⟨a, List.mem_cons_of_mem x ha, hfa⟩
      · injection h with h'
        exact ⟨x, List.mem_cons_self x xs, by rw [hf, h']⟩

theorem foldlM_reduce_a_sound (al : List Assignment) :
    ∀ c : Constraint, List.foldlM reduce_a c al = .ok .Empty →
      constraintSatisfiedSpec al c := by
  induction al with
  | nil =>
      intro c h
      simp only [List.foldlM_nil] at h
      injection h with h'
      subst h'
      trivial
  | cons a rest ih =>
      intro c h
      simp only [List.foldlM_cons] at h
      rcases hm : reduce_a c a with e | c₁ <;> rw [hm] at h
      · exact Except.noConfusion h
      · exact sat_spec_step a rest c c₁ hm (ih c₁ h)

theorem foldlM_reduce_a_empty (al : List Assignment) :
    List.foldlM reduce_a .Empty al = .ok .Empty := by
  induction al with
  | nil => rfl
  | cons a rest ih => simpa [List.foldlM_cons, reduce_a] using ih

theorem foldlM_reduce_a_append (l₁ l₂ : List Assignment) :
    ∀ c : Constraint, List.foldlM reduce_a c (l₁ ++ l₂) =
      match List.foldlM reduce_a c l₁ with
      | .error e => .error e
      | .ok c' => List.foldlM reduce_a c' l₂ := by
  induction l₁ with
  | nil =>
      intro c
      rfl
  | cons a rest ih =>
      intro c
      simp only [List.cons_append, List.foldlM_cons]
      rcases hm : reduce_a c a with e | c₁
      · rfl
      · exact ih c₁

theorem play_ok_parts (g : Game) (pl : Placement) (g' : Game)
    (h : g.play pl = .ok g') :
    g.board.reduce_b pl = .ok g'.board
    ∧ remove_one g.pieces pl.piece = .ok g'.pieces
    ∧ reduce_cs g.constraints pl = .ok g'.constraints := by
  rw [Game.play] at h
  rcases hb : g.board.reduce_b pl with e | nb <;> rw [hb] at h
  · exact Except.noConfusion h
  rcases hp : remove_one g.pieces pl.piece with e | np <;> rw [hp] at h
  · exact Except.noConfusion h
  rcases hc : reduce_cs g.constraints pl with e | nc <;> rw [hc] at h
  · exact Except.noConfusion h
  injection h with h'
  subst h'
  exact ⟨rfl, rfl, rfl⟩

theorem replay_chain (P : List Placement) :
    ∀ (g g' : Game), replay g P = some g' →
      ∀ c ∈ g.constraints,
        ∃ r, List.foldlM reduce_a c (assignmentsOf P) = .ok r
          ∧ (r = .Empty ∨ r ∈ g'.constraints) := by
  induction P with
  | nil =>
      intro g g' h c hc
      rw [replay] at h
      injection h with h'
      subst h'
      exact ⟨c, rfl, Or.inr hc⟩
  | cons pl rest ih =>
      intro g g' h c hc
      rw [replay] at h
      rcases hp : g.play pl with e | g₁ <;> rw [hp] at h
      · exact Option.noConfusion h
      obtain ⟨_, _, hcs⟩ := play_ok_parts g pl g₁ hp
      obtain ⟨r, hr, hror⟩ := reduce_cs_forward pl g.constraints g₁.constraints hcs c hc
      rw [reduce_p] at hr
      rcases hror with rfl | hmem
      · refine ⟨.Empty, ?_, Or.inl rfl⟩
        rw [assignmentsOf, List.flatMap_cons, foldlM_reduce_a_append, hr]
        exact foldlM_reduce_a_empty _
      · obtain ⟨r', hr', hor'⟩ := ih g₁ g' h r hmem
        refine ⟨r', ?_, hor'⟩
        rw [assignmentsOf, List.flatMap_cons, foldlM_reduce_a_append, hr]
        exact hr'

theorem solveAux_sound (fuel : Nat) :
    ∀ (g : Game) (P : List Placement), solveAux fuel g = some P →
      ∃ g', replay g P = some g' ∧ g'.is_won = true := by
  induction fuel with
  | zero =>
      intro g P h
      exact Option.noConfusion h
  | succ n ih =>
      intro g P h
      rw [solveAux] at h
      by_cases hw : g.is_won
      · rw [if_pos hw] at h
        injection h with h'
        subst h'
        exact ⟨g, rfl, hw⟩
      · rw [if_neg hw] at h
        rcases hpv : g.pivot_point with _ | pivot <;> rw [hpv] at h
        · exact Option.noConfusion h
        obtain ⟨pl, hpl_mem, hf⟩ := findSome?_eq_some_exists _ _ P h
        rcases hp : g.play pl with e | g₁ <;> rw [hp] at hf <;> dsimp only at hf
        · exact Option.noConfusion hf
        rcases hs : solveAux n g₁ with _ | P₁ <;> rw [hs] at hf <;> simp only [Option.map] at hf
        · exact Option.noConfusion hf
        injection hf with h'
        subst h'
        obtain ⟨g', hrep, hwon⟩ := ih g₁ P₁ hs
        refine ⟨g', ?_, hwon⟩
        rw [replay, hp]
        exact hrep

theorem is_won_parts (g : Game) (h : g.is_won = true) :
    g.board.points = ∅ ∧ g.pieces = [] ∧ g.constraints = [] := by
  rw [Game.is_won] at h
  simp only [Bool.and_eq_true, Board.is_empty, beq_iff_eq, List.isEmpty_iff] at h
  exact ⟨Finset.card_eq_zero.1 h.1.1, h.1.2, h.2⟩

end CS

/-- C1.  Soundness of the claude_sonnet_4_5 solver: whenever `solve g`
returns a placement list `P`, replaying `P` in order via `play` starting
from `g` succeeds at every step (`replay` reaches a final game), the final
game is won (empty board, no pieces, no constraints), and every constraint
of the original `g` evaluates as satisfied — in the spec's direct sense —
under the cell→pip assignment induced by `P`. -/
theorem solve_sound_C1 (g : CS.Game) (P : List CS.Placement)
    (h : CS.solve g = some P) :
    ∃ g' : CS.Game, CS.replay g P = some g' ∧ g'.is_won = true
      ∧ ∀ c ∈ g.constraints,
          CS.constraintSatisfiedSpec (CS.assignmentsOf P) c := by
  rw [CS.solve] at h
  obtain ⟨g', hrep, hwon⟩ := CS.solveAux_sound _ g P h
  refine ⟨g', hrep, hwon, ?_⟩
  intro c hc
  obtain ⟨r, hr, hor⟩ := CS.replay_chain P g g' hrep c hc
  rcases hor with rfl | hmem
  · exact CS.foldlM_reduce_a_sound _ c hr
  · obtain ⟨-, -, hcs⟩ := CS.is_won_parts g' hwon
    rw [hcs] at hmem
    exact absurd hmem (List.not_mem_nil r)

/-- C1 witness: the soundness theorem applied to the game with board
`{(0,0),(0,1)}`, a single `(1,1)` domino and the constraint
`Exactly(2, {(0,0),(0,1)})`, which `solve` solves with one `North`
placement anchored at `(0,0)`. -/
theorem solve_sound_C1_witness :
    ∃ g' : CS.Game,
      CS.replay ⟨⟨{⟨0,0⟩, ⟨0,1⟩}⟩, [CS.Piece.new 1 1], [.Exactly 2 {⟨0,0⟩, ⟨0,1⟩}]⟩
        [⟨CS.Piece.new 1 1, ⟨0,0⟩, .North⟩] = some g'
      ∧ g'.is_won = true
      ∧ ∀ c ∈ (⟨⟨{⟨0,0⟩, ⟨0,1⟩}⟩, [CS.Piece.new 1 1],
            [.Exactly 2 {⟨0,0⟩, ⟨0,1⟩}]⟩ : CS.Game).constraints,
          CS.constraintSatisfiedSpec
            (CS.assignmentsOf [⟨CS.Piece.new 1 1, ⟨0,0⟩, .North⟩]) c :=
  solve_sound_C1 _ _ (by decide)

namespace GC

/-- Insertion of a point into a `(y,x)`-sorted list. -/
def insertPoint (p : Point) : List Point → List Point
  | [] => [p]
  | q :: rest => if Point.leB p q then p :: q :: rest else q :: insertPoint p rest

/-- `(y,x)`-sorted order of a point list (the order `Board::iter` yields:
row-major over the bitset, i.e. increasing `(y, x)`). -/
def sortPoints (l : List Point) : List Point := l.foldr insertPoint []

/-- Insertion of a `usize` into a sorted list (`sort_unstable` on column
indices). -/
def insertNat (n : Nat) : List Nat → List Nat
  | [] => [n]
  | m :: rest => if n ≤ m then n :: m :: rest else m :: insertNat n rest

/-- Ascending sort of a `usize` list. -/
def sortNats (l : List Nat) : List Nat := l.foldr insertNat []

/-- Lexicographic `≤` on `(i32, i32)` cells (Rust's derived `Ord` on
tuples, used by `Vec::sort` in `normalized_sorted`). -/
def cellLeB (a b : Int × Int) : Bool :=
  a.1 < b.1 || (a.1 == b.1 && a.2 ≤ b.2)

/-- Insertion of a cell into a lexicographically sorted list. -/
def insertCell (p : Int × Int) : List (Int × Int) → List (Int × Int)
  | [] => [p]
  | q :: rest => if cellLeB p q then p :: q :: rest else q :: insertCell p rest

/-- Lexicographic sort of a cell list. -/
def sortCells (l : List (Int × Int)) : List (Int × Int) := l.foldr insertCell []

/-- `Iterator::min().unwrap_or(default)`. -/
def listMinD (l : List Int) (d : Int) : Int :=
  match l with
  | [] => d
  | x :: xs => xs.foldl min x

/-- `piece.rs::normalize_preserve_order` — translate so minimum coordinates
are 0, keeping cell order. -/
def normalizePreserveOrder (cells : List (Int × Int)) : List (Int × Int) :=
  let minX := listMinD (cells.map Prod.fst) 0
  let minY := listMinD (cells.map Prod.snd) 0
  cells.map fun c => (c.1 - minX, c.2 - minY)

/-- `piece.rs::normalized_sorted` — the normalized cells, sorted: the
signature used to de-duplicate orientations. -/
def normalizedSorted (cells : List (Int × Int)) : List (Int × Int) :=
  sortCells (normalizePreserveOrder cells)

/-- `piece.rs::rotate_cw` — `(x, y) ↦ (y, −x)`. -/
def rotateCw (cells : List (Int × Int)) : List (Int × Int) :=
  cells.map fun c => (c.2, -c.1)

/-- `piece.rs::mirror_cells` — `(x, y) ↦ (−x, y)`. -/
def mirrorCells (cells : List (Int × Int)) : List (Int × Int) :=
  cells.map fun c => (-c.1, c.2)

/-- The loop body of `piece.rs::compute_orientations`: four clockwise
rotations (optionally with the mirror of each), de-duplicated by the
normalized-sorted signature, each orientation stored
order-preservingly normalized. -/
def computeOrientationsAux :
    Nat → List (Int × Int) → Bool → List (List (Int × Int)) →
    List (List (Int × Int)) → List (List (Int × Int))
  | 0, _, _, _, orients => orients
  | n + 1, rotated, includeReflection, uniq, orients =>
      let sig := normalizedSorted rotated
      let step1 : List (List (Int × Int)) × List (List (Int × Int)) :=
        if sig ∈ uniq then (uniq, orients)
        else (sig :: uniq, orients ++ [normalizePreserveOrder rotated])
      let step2 : List (List (Int × Int)) × List (List (Int × Int)) :=
        if includeReflection then
          let mirrored := mirrorCells rotated
          let sig2 := normalizedSorted mirrored
          if sig2 ∈ step1.1 then step1
          else (sig2 :: step1.1, step1.2 ++ [normalizePreserveOrder mirrored])
        else step1
      computeOrientationsAux n (rotateCw rotated) includeReflection step2.1 step2.2

/-- `piece.rs::compute_orientations`. -/
def computeOrientations (cells : List (Int × Int)) (includeReflection : Bool) :
    List (List (Int × Int)) :=
  computeOrientationsAux 4 cells includeReflection [] []

/-- `PolyShape` of `gpt_5_codex/src/model/piece.rs`. -/
inductive PolyShape where
  | Mono
  | Domino
  | TriI
  | TriL
  | TetI
  | TetLPlus
  | TetLMinus
  | TetO
  | TetSPlus
  | TetSMinus
  | TetT
  | PentFPlus
  | PentFMinus
  | PentI
  | PentLPlus
  | PentLMinus
  | PentPPlus
  | PentPMinus
  | PentNPlus
  | PentNMinus
  | PentT
  | PentU
  | PentV
  | PentW
  | PentX
  | PentYPlus
  | PentYMinus
  | PentZPlus
  | PentZMinus
deriving DecidableEq, Repr

/-- The `*_BASE` cell tables of `piece.rs`. -/
def monoBASE : List (Int × Int) := [(0, 0)]
def dominoBASE : List (Int × Int) := [(0, 0), (1, 0)]
def triIBASE : List (Int × Int) := [(0, 0), (1, 0), (2, 0)]
def triLBASE : List (Int × Int) := [(0, 0), (0, 1), (1, 0)]
def tetIBASE : List (Int × Int) := [(0, 0), (1, 0), (2, 0), (3, 0)]
def tetLBASE : List (Int × Int) := [(0, 0), (0, 1), (0, 2), (1, 2)]
def tetOBASE : List (Int × Int) := [(0, 0), (1, 0), (0, 1), (1, 1)]
def tetSBASE : List (Int × Int) := [(0, 0), (1, 0), (1, 1), (2, 1)]
def tetTBASE : List (Int × Int) := [(0, 0), (1, 0), (2, 0), (1, 1)]
def pentFBASE : List (Int × Int) := [(0, 1), (1, 0), (1, 1), (1, 2), (2, 2)]
def pentIBASE : List (Int × Int) := [(0, 0), (1, 0), (2, 0), (3, 0), (4, 0)]
def pentLBASE : List (Int × Int) := [(0, 0), (0, 1), (0, 2), (0, 3), (1, 3)]
def pentPBASE : List (Int × Int) := [(0, 0), (1, 0), (0, 1), (1, 1), (0, 2)]
def pentNBASE : List (Int × Int) := [(0, 0), (1, 0), (1, 1), (2, 1), (3, 1)]
def pentTBASE : List (Int × Int) := [(0, 0), (1, 0), (2, 0), (1, 1), (1, 2)]
def pentUBASE : List (Int × Int) := [(0, 0), (0, 1), (0, 2), (1, 0), (1, 2)]
def pentVBASE : List (Int × Int) := [(0, 0), (0, 1), (0, 2), (1, 2), (2, 2)]
def pentWBASE : List (Int × Int) := [(0, 0), (0, 1), (1, 1), (1, 2), (2, 2)]
def pentXBASE : List (Int × Int) := [(1, 0), (0, 1), (1, 1), (2, 1), (1, 2)]
def pentYBASE : List (Int × Int) := [(0, 0), (1, 0), (2, 0), (3, 0), (1, 1)]
def pentZBASE : List (Int × Int) := [(0, 0), (1, 0), (1, 1), (1, 2), (2, 2)]

/-- The orientation table of each shape descriptor: `shape!` entries call
`compute_orientations(base, reflect)`; `shape_mirrored!` entries call
`compute_orientations(mirror_cells(base), false)`. -/
def PolyShape.orientations : PolyShape → List (List (Int × Int))
  | .Mono => computeOrientations monoBASE false
  | .Domino => computeOrientations dominoBASE false
  | .TriI => computeOrientations triIBASE false
  | .TriL => computeOrientations triLBASE false
  | .TetI => computeOrientations tetIBASE false
  | .TetLPlus => computeOrientations tetLBASE false
  | .TetLMinus => computeOrientations (mirrorCells tetLBASE) false
  | .TetO => computeOrientations tetOBASE false
  | .TetSPlus => computeOrientations tetSBASE false
  | .TetSMinus => computeOrientations (mirrorCells tetSBASE) false
  | .TetT => computeOrientations tetTBASE true
  | .PentFPlus => computeOrientations pentFBASE false
  | .PentFMinus => computeOrientations (mirrorCells pentFBASE) false
  | .PentI => computeOrientations pentIBASE false
  | .PentLPlus => computeOrientations pentLBASE false
  | .PentLMinus => computeOrientations (mirrorCells pentLBASE) false
  | .PentPPlus => computeOrientations pentPBASE false
  | .PentPMinus => computeOrientations (mirrorCells pentPBASE) false
  | .PentNPlus => computeOrientations pentNBASE false
  | .PentNMinus => computeOrientations (mirrorCells pentNBASE) false
  | .PentT => computeOrientations pentTBASE true
  | .PentU => computeOrientations pentUBASE true
  | .PentV => computeOrientations pentVBASE true
  | .PentW => computeOrientations pentWBASE true
  | .PentX => computeOrientations pentXBASE true
  | .PentYPlus => computeOrientations pentYBASE false
  | .PentYMinus => computeOrientations (mirrorCells pentYBASE) false
  | .PentZPlus => computeOrientations pentZBASE false
  | .PentZMinus => computeOrientations (mirrorCells pentZBASE) false

/-- `PolyShape::cell_count` (the descriptor's stored count). -/
def PolyShape.cellCount : PolyShape → Nat
  | .Mono => 1
  | .Domino => 2
  | .TriI | .TriL => 3
  | .TetI | .TetLPlus | .TetLMinus | .TetO | .TetSPlus | .TetSMinus | .TetT => 4
  | _ => 5

/-- `Piece` (`model/piece.rs`): a shape plus one pip per cell. -/
structure Piece where
  shape : PolyShape
  pips : List Nat
deriving DecidableEq, Repr

/-- `Piece::new` — the pip list length must match the shape's cell count. -/
def Piece.new (shape : PolyShape) (pips : List Nat) : Except String Piece :=
  if pips.length = shape.cellCount then .ok ⟨shape, pips⟩
  else .error "Piece requires one pip per cell."

/-- `Piece::pip_permutations` — returns only the stored pip order. -/
def Piece.pip_permutations (p : Piece) : List (List Nat) := [p.pips]

end GC

namespace GC

/-- `Board` (`model/board.rs`): a bitset within a bounding box whose
iterator yields the present points in `(y, x)` increasing order.  Embedded
as that iterator's exact output — the `(y,x)`-sorted duplicate-free point
list — which determines the set. -/
structure Board where
  iterList : List Point
deriving DecidableEq, Repr

/-- `Board::new` from a collection of points (the `HashSet` argument is the
de-duplicated collection). -/
def Board.new (pts : List Point) : Board := ⟨sortPoints pts.dedup⟩

/-- `Board::len`. -/
def Board.len (b : Board) : Nat := b.iterList.length

/-- `Board::contains_point`. -/
def Board.contains_point (b : Board) (p : Point) : Bool := p ∈ b.iterList

/-- `Board::remove_points` — fails unless every point is present; clearing
bits keeps the row-major iteration order of the survivors. -/
def Board.remove_points (b : Board) (to_remove : List Point) :
    Except String Board :=
  if to_remove.all (fun p => p ∈ b.iterList) then
    .ok ⟨b.iterList.filter (fun p => p ∉ to_remove)⟩
  else .error "Placement has at least one point outside of the board."

/-- The enumeration index of a point in `Board::iter` (the `index_map` the
placement catalog builds from `board.iter().enumerate()`). -/
def Board.indexOfPoint (b : Board) (p : Point) : Option Nat :=
  b.iterList.findIdx? (fun q => q = p)

/-- Modelled from the spec: the polyomino `Placement` of the gpt_5_codex
crate — the checked-in `model/placement.rs` is a stale domino version
inconsistent with its callers in `solver/mod.rs`, which construct
`Placement::new(piece, anchor, orientation_index, pip_order)`.  Per the
spec's data model, the derived cells are `anchor + orientation[i]` in the
orientation's cell order, and the assignments pair the pip order with the
derived cells. -/
structure Placement where
  piece : Piece
  anchor : Point
  orientation_index : Nat
  pip_order : List Nat
deriving DecidableEq, Repr

/-- Modelled from the spec: the derived cells of a placement,
`anchor + orientation[i]` in orientation cell order. -/
def Placement.cellsList (pl : Placement) : List Point :=
  (pl.piece.shape.orientations.getD pl.orientation_index []).map
    fun off => ⟨((pl.anchor.x : Int) + off.1).toNat, ((pl.anchor.y : Int) + off.2).toNat⟩

/-- Modelled from the spec: the assignments of a placement — the pip order
zipped with the derived cells. -/
def Placement.assignments (pl : Placement) : List Assignment :=
  List.zipWith (fun pip pt => ⟨pip, pt⟩) pl.pip_order pl.cellsList

/-- Modelled from the spec: the points covered by a placement. -/
def Placement.pointsList (pl : Placement) : List Point := pl.cellsList

/-- `Constraint::reduce_placement` — `try_fold` of `reduce_assignment` over
the placement's assignments, where an already-satisfied (`None`) constraint
stays satisfied. -/
def Constraint.reduce_placement (c : Constraint) (pl : Placement) :
    Except String (Option Constraint) :=
  pl.assignments.foldlM
    (fun cur a =>
      match cur with
      | none => .ok none
      | some c' => c'.reduce_assignment a)
    (some c)

/-- `constraint.rs::reduce_constraints` — reduce each constraint by the
placement, dropping satisfied ones; any violation aborts with a fixed
message. -/
def reduce_constraints (constraints : List Constraint) (pl : Placement) :
    Except String (List Constraint) :=
  match constraints with
  | [] => .ok []
  | c :: rest =>
    match c.reduce_placement pl with
    | .ok (some next) => (reduce_constraints rest pl).map (next :: ·)
    | .ok none => reduce_constraints rest pl
    | .error _ => .error "At least one constraint was violated by the placement."

/-- `piece.rs::remove_one` — remove the first occurrence of the piece. -/
def remove_one (pieces : List Piece) (target : Piece) :
    Except String (List Piece) :=
  if target ∈ pieces then .ok (pieces.erase target)
  else .error "was not present in the list of pieces."

/-- `Game` (`model/game.rs`). -/
structure Game where
  board : Board
  pieces : List Piece
  constraints : List Constraint
deriving DecidableEq

/-- `solver/mod.rs::play` — board removal, piece removal and constraint
reduction computed independently; any failure collapses to the one error
message. -/
def play (g : Game) (pl : Placement) : Except String Game :=
  let board_result := g.board.remove_points pl.pointsList
  let pieces_result := remove_one g.pieces pl.piece
  let constraints_result := reduce_constraints g.constraints pl
  match board_result, pieces_result, constraints_result with
  | .ok b, .ok p, .ok cs => .ok ⟨b, p, cs⟩
  | _, _, _ => .error "Unwinnable game."

/-- `solver/mod.rs::PlacementEntry`. -/
structure PlacementEntry where
  piece_index : Nat
  piece : Piece
  piece_shape_order : Nat
  anchor : Point
  orientation_index : Nat
  cell_columns : List Nat
  constraint_score : Nat
deriving DecidableEq, Repr

/-- The `cell_columns` of one candidate placement: each orientation offset
shifted by the anchor must be a non-negative on-board point; its
enumeration index becomes a column. -/
def cellColumnsFor (b : Board) (anchor : Point) (offsets : List (Int × Int)) :
    Option (List Nat) :=
  offsets.foldlM
    (fun acc off =>
      let x : Int := (anchor.x : Int) + off.1
      let y : Int := (anchor.y : Int) + off.2
      if x < 0 ∨ y < 0 then none
      else
        match b.indexOfPoint ⟨x.toNat, y.toNat⟩ with
        | some idx => some (acc ++ [idx])
        | none => none)
    []

/-- Whether a point of a constraint lands (via the board's index map) in
the given column set. -/
def pointHitsCols (b : Board) (cols : List Nat) (p : Point) : Bool :=
  match b.indexOfPoint p with
  | some i => cols.contains i
  | none => false

/-- The `constraint_score` of one candidate placement: the number of
constraints touching any of its columns. -/
def constraintScore (b : Board) (constraints : List Constraint)
    (cols : List Nat) : Nat :=
  constraints.foldl
    (fun acc c =>
      if ∃ p ∈ c.points, pointHitsCols b cols p = true then acc + 1 else acc)
    0

/-- `solver/mod.rs::PlacementCatalog`. -/
structure PlacementCatalog where
  entries : List PlacementEntry
  board_cell_count : Nat
  piece_count : Nat
deriving DecidableEq, Repr

/-- `PlacementCatalog::new` — every piece × orientation × anchor whose
cells all land on the board, in loop order, with sorted columns and the
constraint score. -/
def PlacementCatalog.new (b : Board) (pieces : List Piece)
    (constraints : List Constraint) : PlacementCatalog :=
  if b.iterList.isEmpty then ⟨[], 0, pieces.length⟩
  else
    let entries :=
      pieces.enum.flatMap fun pi =>
        (pi.2.shape.orientations.enum).flatMap fun oi =>
          b.iterList.filterMap fun anchor =>
            match cellColumnsFor b anchor oi.2 with
            | none => none
            | some cols =>
                let cols := sortNats cols
                some ⟨pi.1, pi.2, pi.2.shape.cellCount, anchor, oi.1, cols,
                  constraintScore b constraints cols⟩
    ⟨entries, b.iterList.length, pieces.length⟩

end GC

namespace GC

/-- `solver/mod.rs::RowRemoval`. -/
structure RowRemoval where
  row : Nat
  affected : List Nat
deriving DecidableEq, Repr

/-- `solver/mod.rs::CoverState`. -/
structure CoverState where
  column : Nat
  column_prev_size : Nat
  rows_removed : List RowRemoval
deriving DecidableEq, Repr

/-- `solver/mod.rs::ExactCover` — the mutable matrix state. -/
structure ECState where
  column_rows : List (List Nat)
  row_columns : List (List Nat)
  active_columns : List Bool
  active_rows : List Bool
  column_size : List Nat
deriving DecidableEq, Repr

/-- `ExactCover::new` — one column per board cell plus one per piece; each
row's columns are its sorted cell columns plus its piece column. -/
def ecNew (cat : PlacementCatalog) : ECState :=
  let column_count := cat.board_cell_count + cat.piece_count
  let row_columns := cat.entries.map
    (fun e => sortNats (e.cell_columns ++ [cat.board_cell_count + e.piece_index]))
  let column_rows := row_columns.enum.foldl
    (fun acc rc =>
      rc.2.foldl
        (fun acc2 col => acc2.set col (acc2.getD col [] ++ [rc.1])) acc)
    (List.replicate column_count [])
  ⟨column_rows, row_columns, List.replicate column_count true,
    List.replicate cat.entries.length true, column_rows.map List.length⟩

/-- `ExactCover::select_column` — first zero-size active column wins
immediately; otherwise the first active column of minimal size, stopping
early at size 1. -/
def selectColumnGo (sizes : List Nat) :
    List Bool → Nat → Option (Nat × Nat) → Option Nat
  | [], _, best => best.map Prod.fst
  | a :: rest, idx, best =>
      if !a then selectColumnGo sizes rest (idx + 1) best
      else
        let size := sizes.getD idx 0
        if size = 0 then some idx
        else
          match best with
          | some (bi, bs) =>
              if size < bs then
                if size = 1 then some idx
                else selectColumnGo sizes rest (idx + 1) (some (idx, size))
              else selectColumnGo sizes rest (idx + 1) (some (bi, bs))
          | none =>
              if size = 1 then some idx
              else selectColumnGo sizes rest (idx + 1) (some (idx, size))

/-- `ExactCover::select_column`. -/
def ECState.selectColumn (s : ECState) : Option Nat :=
  selectColumnGo s.column_size s.active_columns 0 none

/-- `ExactCover::cover_column` — deactivate the column, deactivate its
active rows, and decrement every still-active column of each removed row,
recording everything for the undo. -/
def coverColumn (s : ECState) (column : Nat) : CoverState × ECState :=
  let prev_size := s.column_size.getD column 0
  let s1 := { s with active_columns := s.active_columns.set column false,
                     column_size := s.column_size.set column 0 }
  let res := (s1.column_rows.getD column []).foldl
    (fun (acc : List RowRemoval × ECState) row =>
      if !(acc.2.active_rows.getD row false) then acc
      else
        let st := { acc.2 with active_rows := acc.2.active_rows.set row false }
        let inner := (st.row_columns.getD row []).foldl
          (fun (acc2 : List Nat × ECState) col =>
            if acc2.2.active_columns.getD col false then
              (acc2.1 ++ [col],
                { acc2.2 with column_size :=
                    acc2.2.column_size.set col (acc2.2.column_size.getD col 0 - 1) })
            else acc2)
          ([], st)
        (acc.1 ++ [⟨row, inner.1⟩], inner.2))
    ([], s1)
  (⟨column, prev_size, res.1⟩, res.2)

/-- `ExactCover::uncover_column` — exact inverse of `cover_column`, undone
in reverse order. -/
def uncoverColumn (s : ECState) (cs : CoverState) : ECState :=
  let s1 := cs.rows_removed.reverse.foldl
    (fun st rr =>
      let st2 := { st with active_rows := st.active_rows.set rr.row true }
      rr.affected.foldl
        (fun st3 col =>
          if st3.active_columns.getD col false then
            { st3 with column_size :=
                st3.column_size.set col (st3.column_size.getD col 0 + 1) }
          else st3)
        st2)
    s
  { s1 with column_size := s1.column_size.set cs.column cs.column_prev_size,
            active_columns := s1.active_columns.set cs.column true }

/-- `ExactCover::search`, with the callback threaded as a state-passing
function and the `&mut` matrix, solution vector and early-exit flag made
explicit.  The fuel bounds the recursion depth; every level deactivates the
selected column, so `column count + 1` fuel is never exhausted. -/
def ecSearchAux {σ : Type} (callback : σ → List Nat → σ × Bool) :
    Nat → ECState → List Nat → σ → σ × ECState × List Nat × Bool
  | 0, s, sol, acc => (acc, s, sol, false)
  | fuel + 1, s, sol, acc =>
    match s.selectColumn with
    | none =>
        let r := callback acc sol
        (r.1, s, sol, r.2)
    | some column =>
      if s.column_size.getD column 0 = 0 then (acc, s, sol, false)
      else
        let cv := coverColumn s column
        let rows := cv.2.column_rows.getD column []
        let res := rows.foldl
          (fun (r : σ × ECState × List Nat × Bool) row =>
            let (acc1, s1, sol1, stop1) := r
            if stop1 then (acc1, s1, sol1, true)
            else
              let sol2 := sol1 ++ [row]
              let pr := (s1.row_columns.getD row []).foldl
                (fun (q : List CoverState × ECState) col =>
                  if col = column then q
                  else if q.2.active_columns.getD col false then
                    let c2 := coverColumn q.2 col
                    (q.1 ++ [c2.1], c2.2)
                  else q)
                ([], s1)
              let r2 := ecSearchAux callback fuel pr.2 sol2 acc1
              let (acc2, s2, sol3, stop2) := r2
              if stop2 then (acc2, s2, sol3, true)
              else
                let s3 := pr.1.reverse.foldl uncoverColumn s2
                (acc2, s3, sol3.dropLast, false))
          (acc, cv.2, sol, false)
        let (acc4, s4, sol4, stop4) := res
        if stop4 then (acc4, s4, sol4, true)
        else (acc4, uncoverColumn s4 cv.1, sol4, false)

/-- `solver/mod.rs::assign_pips`: the sort comparator — descending
constraint score, then descending column count, then ascending shape
order.  `a` strictly precedes `b`. -/
def entryLtB (a b : PlacementEntry) : Bool :=
  b.constraint_score < a.constraint_score
  || (b.constraint_score == a.constraint_score
      && (b.cell_columns.length < a.cell_columns.length
          || (b.cell_columns.length == a.cell_columns.length
              && a.piece_shape_order < b.piece_shape_order)))

/-- Stable insertion under `entryLtB` (Rust's `sort_by` is stable: an
element is placed after every earlier element not strictly after it). -/
def insertEntry (x : PlacementEntry) :
    List PlacementEntry → List PlacementEntry
  | [] => [x]
  | y :: rest => if entryLtB y x then y :: insertEntry x rest else x :: y :: rest

/-- Stable sort of the selected entries under `entryLtB`. -/
def sortEntries (l : List PlacementEntry) : List PlacementEntry :=
  l.foldr insertEntry []

/-- `solver/mod.rs::assign_pips_recursive` — try every pip order of each
entry in turn, recursing through `play`; a full assignment bumps the count
and records the first solution; `stop_at_first` propagates an early
return. -/
def assign_pips_recursive (stop_at_first : Bool) :
    Game → List PlacementEntry → List Placement →
    Option (List Placement) → Nat → Option (List Placement) × Nat × Bool
  | _, [], placements, best, count =>
      let best' := match best with
        | none => some placements
        | some b => some b
      (best', count + 1, stop_at_first)
  | state, entry :: more, placements, best, count =>
      entry.piece.pip_permutations.foldl
        (fun (r : Option (List Placement) × Nat × Bool) pip_order =>
          let (best1, count1, stop1) := r
          if stop1 then (best1, count1, true)
          else
            let placement : Placement :=
              ⟨entry.piece, entry.anchor, entry.orientation_index, pip_order⟩
            match play state placement with
            | .ok next_state =>
                assign_pips_recursive stop_at_first next_state more
                  (placements ++ [placement]) best1 count1
            | .error _ => (best1, count1, false))
        (best, count, false)

/-- `solver/mod.rs::assign_pips`. -/
def assign_pips (g : Game) (cat : PlacementCatalog) (rows : List Nat)
    (stop_at_first : Bool) : Option (List Placement) × Nat :=
  let entries := sortEntries (rows.filterMap (fun idx => cat.entries.get? idx))
  let r := assign_pips_recursive stop_at_first g entries [] none 0
  (r.1, r.2.1)

/-- `solver/mod.rs::count_solutions` — run the exact cover search, counting
the pip assignments of every cover; the callback never stops early. -/
def count_solutions (g : Game) : Except String Nat :=
  let catalog := PlacementCatalog.new g.board g.pieces g.constraints
  let cover := ecNew catalog
  let column_count := catalog.board_cell_count + catalog.piece_count
  let res := ecSearchAux
    (fun total rows => (total + (assign_pips g catalog rows false).2, false))
    (column_count + 1) cover [] 0
  .ok res.1

/-- Scenario D of the spec (§8): board `{(0,0),(1,0),(2,0)}`, one
triomino-I piece with pips `[1,2,3]`, one
`AllDifferent(∅, {(0,0),(1,0),(2,0)})` constraint. -/
def scenarioD : Game :=
  ⟨Board.new [⟨0,0⟩, ⟨1,0⟩, ⟨2,0⟩],
   [⟨.TriI, [1, 2, 3]⟩],
   [.AllDifferent ∅ {⟨0,0⟩, ⟨1,0⟩, ⟨2,0⟩}]⟩

end GC

/-- C7 counterexample.  On Scenario D the gpt_5_codex counting solver does
not return 6: `Piece::pip_permutations` yields only the stored pip order
`[1,2,3]` (not the 3! permutations), and `compute_orientations`
de-duplicates by sorted cell set, so the 180°-rotated orientation of the
I-triomino collapses into the base one. -/
theorem count_solutions_cex_C7 :
    GC.count_solutions GC.scenarioD ≠ .ok 6 := by decide

/-- C7 (amended).  On Scenario D — board `{(0,0),(1,0),(2,0)}`, a single
triomino-I carrying pips `[1,2,3]`, and `AllDifferent(∅, board)` —
`count_solutions` returns exactly 1: the exact-cover phase finds the one
cover (the horizontal placement anchored at `(0,0)`), and the pip phase
tries only the stored pip order. -/
theorem count_solutions_amended_C7 :
    GC.count_solutions GC.scenarioD = .ok 1 := by decide

namespace GC

/-- `2^64`, the modulus of every `u64` operation in `util/rng.rs`. -/
def u64MOD : Nat := 18446744073709551616

/-- `util/rng.rs::SimpleRng` — a 64-bit LCG. -/
structure SimpleRng where
  state : Nat
deriving DecidableEq, Repr

/-- `SimpleRng::new` — seed (or a salted default), forced non-zero. -/
def SimpleRng.new (seed : Option Nat) (salt_a salt_b : Nat) : SimpleRng :=
  let st :=
    match seed with
    | some s => s
    | none => (0x9e3779b97f4a7c15 ^^^ ((salt_a <<< 16) % u64MOD) ^^^ salt_b) % u64MOD
  ⟨if st = 0 then 0xfeedc0dedeadbeef else st⟩

/-- `SimpleRng::next_u64` — `state = state * A + 1 (mod 2^64)`, returned. -/
def SimpleRng.next_u64 (rng : SimpleRng) : Nat × SimpleRng :=
  let st := (rng.state * 6364136223846793005 + 1) % u64MOD
  (st, ⟨st⟩)

/-- `SimpleRng::gen_range_inclusive` (on `u8` bounds). -/
def SimpleRng.gen_range_inclusive (rng : SimpleRng) (lo hi : Nat) :
    Nat × SimpleRng :=
  let span := hi - lo + 1
  let r := rng.next_u64
  (lo + r.1 % span, r.2)

/-- `SimpleRng::gen_range_usize` — inclusive on both ends; a zero span
returns `min` without consuming the generator. -/
def SimpleRng.gen_range_usize (rng : SimpleRng) (lo hi : Nat) :
    Nat × SimpleRng :=
  let span := hi - lo
  if span = 0 then (lo, rng)
  else
    let r := rng.next_u64
    (r.1 % (span + 1) + lo, r.2)

/-- `slice.swap(i, j)` — identity when either index is out of range. -/
def swapIdx {α : Type} (l : List α) (i j : Nat) : List α :=
  match l.get? i, l.get? j with
  | some a, some b => (l.set i b).set j a
  | _, _ => l

/-- The Fisher–Yates loop of `SimpleRng::shuffle`: `i` runs from
`len − 1` down to `1`, swapping with `next_u64 % (i + 1)`. -/
def shuffleGo {α : Type} : Nat → List α → SimpleRng → List α × SimpleRng
  | 0, l, rng => (l, rng)
  | i + 1, l, rng =>
      let r := rng.next_u64
      shuffleGo i (swapIdx l (i + 1) (r.1 % (i + 2))) r.2

/-- `SimpleRng::shuffle`. -/
def SimpleRng.shuffle {α : Type} (rng : SimpleRng) (l : List α) :
    List α × SimpleRng :=
  shuffleGo (l.length - 1) l rng

/-- The `(y,x)`-sorted list of a finite point set, by repeated minimum
extraction (the deterministic enumeration used where the source iterates a
`HashSet` whose order is unspecified). -/
def sortedPointsOf : Nat → Finset Point → List Point
  | 0, _ => []
  | n + 1, s =>
      match minPoint s with
      | none => []
      | some p => p :: sortedPointsOf n (s.erase p)

/-- `Game::is_won` (`model/game.rs`). -/
def Game.is_won (g : Game) : Bool :=
  g.board.iterList.isEmpty && g.pieces.isEmpty && g.constraints.isEmpty

/-- Execute a list of placements in order via `play` (claim C9's replay of
the generator's witness placements). -/
def replay : Game → List Placement → Option Game
  | g, [] => some g
  | g, pl :: rest =>
    match play g pl with
    | .ok g' => replay g' rest
    | .error _ => none

end GC

namespace GC

/-- `polypips/rules.rs::PieceRule`. -/
inductive PieceRule where
  | Unlimited (shapes : List PolyShape)
  | Exact (shapes : List PolyShape)
  | ExactPentominoSet
deriving DecidableEq, Repr

/-- `polypips/rules.rs::ConstraintRule`. -/
inductive ConstraintRule where
  | None
  | Allowed (shapes : List PolyShape)
deriving DecidableEq, Repr

/-- `polypips/rules.rs::ConstraintSelection`. -/
inductive ConstraintSelection where
  | UniformAll
  | UniformSize
deriving DecidableEq, Repr

/-- `polypips/config.rs::GeneratorConfig`.  The `f64` field `coverage`
enters the generator only through the sign test `coverage > 0.0` and the
rounded cell budget `(coverage * board_len).round() as usize`; those two
derived values are taken as abstract inputs (`coverage_pos`,
`coverage_cells`), over which the soundness theorem quantifies. -/
structure GeneratorConfig where
  board : Board
  piece_rule : PieceRule
  constraint_rule : ConstraintRule
  coverage_pos : Bool
  coverage_cells : Nat
  selection : ConstraintSelection
  seed : Option Nat

/-- `generator.rs::PlacementSpec`. -/
structure PlacementSpec where
  shape : PolyShape
  anchor : Point
  orientation_index : Nat
deriving DecidableEq, Repr

/-- `generator.rs::ShapeRequirement`. -/
structure ShapeRequirement where
  options : List PolyShape
deriving DecidableEq, Repr

/-- `ShapeRequirement::single`. -/
def ShapeRequirement.single (s : PolyShape) : ShapeRequirement := ⟨[s]⟩

/-- `ShapeRequirement::cell_count` — the first option's cell count. -/
def ShapeRequirement.cell_count (r : ShapeRequirement) : Nat :=
  match r.options with
  | [] => 0
  | s :: _ => s.cellCount

/-- `generator.rs::ConstraintSpec`. -/
structure ConstraintSpec where
  shape : PolyShape
  anchor : Point
  orientation_index : Nat
deriving DecidableEq, Repr

/-- `generator.rs::ConstraintKind`. -/
inductive ConstraintKind where
  | AllSame
  | AllDifferent
  | Exactly
  | LessThan
  | MoreThan
deriving DecidableEq, Repr

/-- `generator.rs::GeneratedPuzzle`. -/
structure GeneratedPuzzle where
  board : Board
  pieces : List Piece
  constraints : List Constraint
  placements : List Placement

/-- `GeneratedPuzzle::as_game`. -/
def GeneratedPuzzle.as_game (p : GeneratedPuzzle) : Game :=
  ⟨p.board, p.pieces, p.constraints⟩

/-- `generator.rs::board_dimensions` — bounding-box width and height. -/
def board_dimensions (points : Finset Point) : Except String (Nat × Nat) :=
  if h : points.Nonempty then
    .ok ((points.image Point.x).max' (h.image _)
           - (points.image Point.x).min' (h.image _) + 1,
         (points.image Point.y).max' (h.image _)
           - (points.image Point.y).min' (h.image _) + 1)
  else .error "Board must contain at least one point."

/-- The cells of a spec: anchor plus each orientation offset, cast to
unsigned coordinates (`(anchor + d) as u32`; non-negativity was validated
where the spec was found). -/
def specCellsList (shape : PolyShape) (anchor : Point) (oi : Nat) : List Point :=
  (shape.orientations.getD oi []).map
    fun d => ⟨((anchor.x : Int) + d.1).toNat, ((anchor.y : Int) + d.2).toNat⟩

/-- `generator.rs::anchor_for_offset` — pivot minus offset, if
non-negative. -/
def anchor_for_offset (pivot : Point) (d : Int × Int) : Option Point :=
  let ax : Int := (pivot.x : Int) - d.1
  let ay : Int := (pivot.y : Int) - d.2
  if ax < 0 ∨ ay < 0 then none else some ⟨ax.toNat, ay.toNat⟩

/-- `generator.rs::anchors_for_pivot` — candidate anchors, de-duplicated in
first-seen order. -/
def anchors_for_pivot (pivot : Point) (offsets : List (Int × Int)) :
    List Point :=
  offsets.foldl
    (fun acc d =>
      match anchor_for_offset pivot d with
      | none => acc
      | some a => if a ∈ acc then acc else acc ++ [a])
    []

/-- `generator.rs::placement_cells_available` — all cells non-negative and
still available. -/
def placement_cells_available (anchor : Point) (offsets : List (Int × Int))
    (available : Finset Point) : Option (List Point) :=
  offsets.foldlM
    (fun cells d =>
      let x : Int := (anchor.x : Int) + d.1
      let y : Int := (anchor.y : Int) + d.2
      if x < 0 ∨ y < 0 then none
      else
        let pt : Point := ⟨x.toNat, y.toNat⟩
        if pt ∈ available then some (cells ++ [pt]) else none)
    []

/-- A first-success scan threading the generator state: elements after the
first success are skipped (Rust's early `return`). -/
def firstSomeFold {α β γ : Type} (body : α → γ → Option β × γ)
    (l : List α) (g : γ) : Option β × γ :=
  l.foldl
    (fun acc x =>
      match acc.1 with
      | some r => (some r, acc.2)
      | none => body x acc.2)
    (none, g)

/-- The anchor loop shared by both backtrackers: on a fitting anchor,
recurse (via `recur`) on the shrunken available set, prepending the spec on
success. -/
def anchorLoopBody
    (recur : Finset Point → SimpleRng → Option (List PlacementSpec) × SimpleRng)
    (available : Finset Point) (shape : PolyShape) (oi : Nat)
    (offsets : List (Int × Int)) (anchor : Point) (g : SimpleRng) :
    Option (List PlacementSpec) × SimpleRng :=
  match placement_cells_available anchor offsets available with
  | none => (none, g)
  | some cells =>
    let rr := recur (available \ cells.toFinset) g
    match rr.1 with
    | some tailSpecs => (some (⟨shape, anchor, oi⟩ :: tailSpecs), rr.2)
    | none => (none, rr.2)

/-- The orientation loop shared by both backtrackers: shuffle the anchors
of the pivot and try each. -/
def orientLoopBody
    (recur : Finset Point → SimpleRng → Option (List PlacementSpec) × SimpleRng)
    (available : Finset Point) (pivot : Point) (shape : PolyShape)
    (orientations : List (List (Int × Int))) (oi : Nat) (g : SimpleRng) :
    Option (List PlacementSpec) × SimpleRng :=
  let offsets := orientations.getD oi []
  let s3 := g.shuffle (anchors_for_pivot pivot offsets)
  firstSomeFold (anchorLoopBody recur available shape oi offsets) s3.1 s3.2

/-- The per-shape loop shared by both backtrackers: shuffle the
orientation indices and try each. -/
def shapeLoopBody
    (recur : Finset Point → SimpleRng → Option (List PlacementSpec) × SimpleRng)
    (available : Finset Point) (pivot : Point) (shape : PolyShape)
    (g : SimpleRng) : Option (List PlacementSpec) × SimpleRng :=
  let orientations := shape.orientations
  let s2 := g.shuffle (List.range orientations.length)
  firstSomeFold (orientLoopBody recur available pivot shape orientations)
    s2.1 s2.2

/-- `generator.rs::backtrack_unlimited`, functionally: the result is the
list of specs placed from this frame on, threaded with the generator
state.  Backtracking re-uses the caller's `available` set; the fuel bounds
the recursion depth (each productive level shrinks `available`). -/
def backtrack_unlimited (shapes : List PolyShape) :
    Nat → Finset Point → SimpleRng → Option (List PlacementSpec) × SimpleRng
  | 0, _, rng => (none, rng)
  | fuel + 1, available, rng =>
    if available = ∅ then (some [], rng)
    else
      match minPoint available with
      | none => (none, rng)
      | some pivot =>
        let s1 := rng.shuffle shapes
        firstSomeFold
          (shapeLoopBody (backtrack_unlimited shapes fuel) available pivot)
          s1.1 s1.2

/-- The per-requirement loop of `backtrack_exact`: remove the requirement,
shuffle its shape options, and try each via the shared shape loop with the
remaining requirements. -/
def reqLoopBody
    (recur2 : Finset Point → List ShapeRequirement → SimpleRng →
      Option (List PlacementSpec) × SimpleRng)
    (requirements : List ShapeRequirement) (available : Finset Point)
    (pivot : Point) (req_idx : Nat) (g : SimpleRng) :
    Option (List PlacementSpec) × SimpleRng :=
  let requirement := requirements.getD req_idx ⟨[]⟩
  let remaining := requirements.eraseIdx req_idx
  let s2 := g.shuffle (List.range requirement.options.length)
  firstSomeFold
    (fun opt_idx g2 =>
      shapeLoopBody (fun av g3 => recur2 av remaining g3) available pivot
        (requirement.options.getD opt_idx .Mono) g2)
    s2.1 s2.2

/-- `generator.rs::backtrack_exact`, functionally, with requirement removal
by index; the fuel bounds the recursion depth (one requirement is consumed
per level). -/
def backtrack_exact :
    Nat → Finset Point → List ShapeRequirement → SimpleRng →
    Option (List PlacementSpec) × SimpleRng
  | 0, _, _, rng => (none, rng)
  | fuel + 1, available, requirements, rng =>
    if requirements.isEmpty then
      (if available = ∅ then some [] else none, rng)
    else if available = ∅ then (none, rng)
    else
      match minPoint available with
      | none => (none, rng)
      | some pivot =>
        let s1 := rng.shuffle (List.range requirements.length)
        firstSomeFold
          (reqLoopBody (fun av req g => backtrack_exact fuel av req g)
            requirements available pivot)
          s1.1 s1.2

end GC

namespace GC

/-- `generator.rs::tile_unlimited`. -/
def tile_unlimited (board_points : Finset Point) (shapes : List PolyShape)
    (rng : SimpleRng) : Except String (List PlacementSpec) × SimpleRng :=
  if shapes.isEmpty then
    (.error "Pieces rule resolved to an empty shape set.", rng)
  else
    let g := (shapes.map PolyShape.cellCount).foldl Nat.gcd 0
    if g = 0 ∨ board_points.card % g ≠ 0 then
      (.error "Board area is incompatible with the chosen piece shapes.", rng)
    else
      let r := backtrack_unlimited shapes (board_points.card + 1) board_points rng
      match r.1 with
      | some specs => (.ok specs, r.2)
      | none => (.error "Failed to tile the board with the allowed shapes.", r.2)

/-- `generator.rs::tile_exact`. -/
def tile_exact (board_points : Finset Point)
    (requirements : List ShapeRequirement) (rng : SimpleRng) :
    Except String (List PlacementSpec) × SimpleRng :=
  if requirements.isEmpty then
    (.error "Exact piece rule requires at least one shape.", rng)
  else if (requirements.map ShapeRequirement.cell_count).sum ≠ board_points.card then
    (.error "Exact piece rule total area does not match board area.", rng)
  else
    let s := rng.shuffle requirements
    let r := backtrack_exact (requirements.length + 1) board_points s.1 s.2
    match r.1 with
    | some specs => (.ok specs, r.2)
    | none => (.error "Failed to tile the board with the requested exact shapes.", r.2)

/-- `generator.rs::build_pentomino_requirements`. -/
def build_pentomino_requirements : List ShapeRequirement :=
  [⟨[.PentFPlus, .PentFMinus]⟩, ⟨[.PentI]⟩, ⟨[.PentLPlus, .PentLMinus]⟩,
   ⟨[.PentPPlus, .PentPMinus]⟩, ⟨[.PentNPlus, .PentNMinus]⟩, ⟨[.PentT]⟩,
   ⟨[.PentU]⟩, ⟨[.PentV]⟩, ⟨[.PentW]⟩, ⟨[.PentX]⟩,
   ⟨[.PentYPlus, .PentYMinus]⟩, ⟨[.PentZPlus, .PentZMinus]⟩]

/-- `generator.rs::tile_board`. -/
def tile_board (board_points : Finset Point) (rule : PieceRule)
    (rng : SimpleRng) : Except String (List PlacementSpec) × SimpleRng :=
  match rule with
  | .Unlimited shapes => tile_unlimited board_points shapes rng
  | .Exact shapes =>
      tile_exact board_points (shapes.map ShapeRequirement.single) rng
  | .ExactPentominoSet =>
      if board_points.card ≠ 60 then
        (.error "12x5 pentomino set requires a board area of exactly 60 cells.", rng)
      else tile_exact board_points build_pentomino_requirements rng

/-- `generator.rs::constraint_cells` — all cells non-negative, on the
board, and unoccupied. -/
def constraint_cells (board_points occupied : Finset Point) (anchor : Point)
    (offsets : List (Int × Int)) : Option (List Point) :=
  offsets.foldlM
    (fun cells d =>
      let x : Int := (anchor.x : Int) + d.1
      let y : Int := (anchor.y : Int) + d.2
      if x < 0 ∨ y < 0 then none
      else
        let pt : Point := ⟨x.toNat, y.toNat⟩
        if pt ∉ board_points ∨ pt ∈ occupied then none
        else some (cells ++ [pt]))
    []

/-- The `shapes_by_size` grouping of `find_constraint_placement`, with keys
in first-occurrence order (the source's `HashMap` key order is
unspecified). -/
def addToGroup : List (Nat × List PolyShape) → Nat → PolyShape →
    List (Nat × List PolyShape)
  | [], sz, s => [(sz, [s])]
  | (k, v) :: rest, sz, s =>
      if k = sz then (k, v ++ [s]) :: rest else (k, v) :: addToGroup rest sz s

/-- Group shapes by cell count. -/
def groupBySize (shapes : List PolyShape) : List (Nat × List PolyShape) :=
  shapes.foldl (fun acc s => addToGroup acc s.cellCount s) []

/-- The anchor test of `find_constraint_placement`: succeed when the
constraint cells fit. -/
def cpAnchorBody (board_points occupied : Finset Point) (shape : PolyShape)
    (oi : Nat) (offsets : List (Int × Int)) (anchor : Point) (g : SimpleRng) :
    Option ConstraintSpec × SimpleRng :=
  if (constraint_cells board_points occupied anchor offsets).isSome then
    (some ⟨shape, anchor, oi⟩, g)
  else (none, g)

/-- The pivot loop of `find_constraint_placement`: shuffle the pivot's
anchors and try each. -/
def cpPivotBody (board_points occupied : Finset Point) (shape : PolyShape)
    (oi : Nat) (offsets : List (Int × Int)) (pivot : Point) (g : SimpleRng) :
    Option ConstraintSpec × SimpleRng :=
  let ar := g.shuffle (anchors_for_pivot pivot offsets)
  firstSomeFold (cpAnchorBody board_points occupied shape oi offsets) ar.1 ar.2

/-- The orientation loop of `find_constraint_placement`. -/
def cpOrientBody (board_points occupied : Finset Point) (shape : PolyShape)
    (shuffled_points : List Point) (orientations : List (List (Int × Int)))
    (oi : Nat) (g : SimpleRng) : Option ConstraintSpec × SimpleRng :=
  let offsets := orientations.getD oi []
  firstSomeFold (cpPivotBody board_points occupied shape oi offsets)
    shuffled_points g

/-- The shape pick at the top of each `find_constraint_placement`
attempt. -/
def cpPickShape (shapes : List PolyShape) (selection : ConstraintSelection)
    (shapes_by_size : List (Nat × List PolyShape)) (rng : SimpleRng) :
    Option PolyShape × SimpleRng :=
  match selection with
  | .UniformAll =>
      let r := rng.gen_range_usize 0 (shapes.length - 1)
      (some (shapes.getD r.1 .Mono), r.2)
  | .UniformSize =>
      let sizes := shapes_by_size.map Prod.fst
      if sizes.isEmpty then (none, rng)
      else
        let sr := rng.shuffle sizes
        match shapes_by_size.find? (fun e => e.1 = sr.1.getD 0 0) with
        | none => (none, sr.2)
        | some entry =>
            let ir := sr.2.gen_range_usize 0 (entry.2.length - 1)
            (some (entry.2.getD ir.1 .Mono), ir.2)

/-- The attempt loop of `generator.rs::find_constraint_placement`. -/
def findCPLoop (board_points occupied : Finset Point)
    (shapes : List PolyShape) (selection : ConstraintSelection)
    (shapes_by_size : List (Nat × List PolyShape))
    (shuffled_points : List Point) :
    Nat → SimpleRng → Option ConstraintSpec × SimpleRng
  | 0, rng => (none, rng)
  | att + 1, rng =>
      let shapeR := cpPickShape shapes selection shapes_by_size rng
      match shapeR.1 with
      | none => (none, shapeR.2)
      | some shape =>
        let orientations := shape.orientations
        let oR := shapeR.2.shuffle (List.range orientations.length)
        let res := firstSomeFold
          (cpOrientBody board_points occupied shape shuffled_points orientations)
          oR.1 oR.2
        match res.1 with
        | some spec => (some spec, res.2)
        | none =>
            findCPLoop board_points occupied shapes selection shapes_by_size
              shuffled_points att res.2

/-- `generator.rs::find_constraint_placement` — the available points are
enumerated in sorted order (the source collects them from a `HashSet` in
unspecified order) and then shuffled. -/
def find_constraint_placement (board_points occupied : Finset Point)
    (shapes : List PolyShape) (selection : ConstraintSelection)
    (rng : SimpleRng) : Option ConstraintSpec × SimpleRng :=
  let avail := board_points \ occupied
  let available_points := sortedPointsOf avail.card avail
  if available_points.isEmpty then (none, rng)
  else
    let shapes_by_size :=
      match selection with
      | .UniformSize => groupBySize shapes
      | .UniformAll => []
    let sp := rng.shuffle available_points
    findCPLoop board_points occupied shapes selection shapes_by_size sp.1
      (shapes.length * board_points.card) sp.2

/-- The `while` loop of `generator.rs::place_constraints`; the fuel is the
source's own `max_attempts` bound. -/
def place_constraints_loop (board_points : Finset Point)
    (shapes : List PolyShape) (selection : ConstraintSelection)
    (target_cells : Nat) :
    Nat → Finset Point → List ConstraintSpec → SimpleRng →
    List ConstraintSpec × Finset Point × SimpleRng
  | 0, occupied, placements, rng => (placements, occupied, rng)
  | att + 1, occupied, placements, rng =>
      if occupied.card < target_cells then
        let fr := find_constraint_placement board_points occupied shapes
          selection rng
        match fr.1 with
        | none => (placements, occupied, fr.2)
        | some spec =>
            let cells := specCellsList spec.shape spec.anchor
              spec.orientation_index
            if (cells.filter (fun c => c ∉ occupied)).length = 0 then
              place_constraints_loop board_points shapes selection target_cells
                att occupied placements fr.2
            else
              place_constraints_loop board_points shapes selection target_cells
                att (occupied ∪ cells.toFinset) (placements ++ [spec]) fr.2
      else (placements, occupied, rng)

/-- `generator.rs::place_constraints`. -/
def place_constraints (board_points : Finset Point)
    (config : GeneratorConfig) (rng : SimpleRng) :
    Except String (List ConstraintSpec) × SimpleRng :=
  match config.constraint_rule with
  | .None => (.ok [], rng)
  | .Allowed shapes =>
    if shapes.isEmpty ∨ config.coverage_pos = false then (.ok [], rng)
    else
      let target_cells := min config.coverage_cells board_points.card
      if target_cells = 0 then (.ok [], rng)
      else
        let r := place_constraints_loop board_points shapes config.selection
          target_cells (board_points.card * 50) ∅ [] rng
        if r.2.1.card < target_cells then
          (.error "Unable to achieve the requested constraint coverage with the given rules.",
            r.2.2)
        else (.ok r.1, r.2.2)

end GC

namespace GC

/-- `generator.rs::random_pip` — `gen_range_inclusive(0, 6)`. -/
def random_pip (rng : SimpleRng) : Nat × SimpleRng :=
  rng.gen_range_inclusive 0 pipsMAX

/-- `generator.rs::random_assignment` — one random pip per point, in
order. -/
def random_assignment : List Point → SimpleRng → List (Point × Nat) × SimpleRng
  | [], rng => ([], rng)
  | p :: rest, rng =>
      let r := random_pip rng
      let rr := random_assignment rest r.2
      ((p, r.1) :: rr.1, rr.2)

/-- Fuel for the rejection-sampling `loop`s of `build_constraint`; the
source loops unboundedly, so fuel exhaustion is reported as an error —
which the soundness theorem's `Ok` hypothesis excludes. -/
def resampleFUEL : Nat := 64

/-- The `LessThan` sampling loop of `build_constraint`: resample until the
sum is below the maximum, then pick a target strictly above the sum. -/
def lessThanLoop (points : List Point) (points_set : Finset Point) :
    Nat → SimpleRng → Except String (Constraint × List (Point × Nat)) × SimpleRng
  | 0, rng => (.error "resampling fuel exhausted", rng)
  | n + 1, rng =>
      let sr := random_assignment points rng
      let sum := (sr.1.map Prod.snd).sum
      let max_sum := points.length * pipsMAX
      if sum < max_sum then
        let remaining := max_sum - (sum + 1)
        let offs : Nat × SimpleRng :=
          if remaining = 0 then (0, sr.2)
          else sr.2.gen_range_usize 0 remaining
        (.ok (.LessThan (sum + 1 + offs.1) points_set, sr.1), offs.2)
      else lessThanLoop points points_set n sr.2

/-- The `MoreThan` sampling loop of `build_constraint`: resample until the
sum is positive, then pick a target in `[0, sum − 1]`. -/
def moreThanLoop (points : List Point) (points_set : Finset Point) :
    Nat → SimpleRng → Except String (Constraint × List (Point × Nat)) × SimpleRng
  | 0, rng => (.error "resampling fuel exhausted", rng)
  | n + 1, rng =>
      let sr := random_assignment points rng
      let sum := (sr.1.map Prod.snd).sum
      if 0 < sum then
        let tr := sr.2.gen_range_usize 0 (sum - 1)
        (.ok (.MoreThan tr.1 points_set, sr.1), tr.2)
      else moreThanLoop points points_set n sr.2

/-- `generator.rs::build_constraint` — the constraint over the region
together with the very pip assignment its target was derived from. -/
def build_constraint (points : List Point) (kind : ConstraintKind)
    (rng : SimpleRng) :
    Except String (Constraint × List (Point × Nat)) × SimpleRng :=
  let points_set := points.toFinset
  match kind with
  | .AllSame =>
      let vr := random_pip rng
      (.ok (.AllSame (some vr.1) points_set, points.map (fun p => (p, vr.1))),
        vr.2)
  | .AllDifferent =>
      let vr := rng.shuffle [0, 1, 2, 3, 4, 5, 6]
      (.ok (.AllDifferent ∅ points_set, points.zip vr.1), vr.2)
  | .Exactly =>
      let sr := random_assignment points rng
      (.ok (.Exactly (sr.1.map Prod.snd).sum points_set, sr.1), sr.2)
  | .LessThan => lessThanLoop points points_set resampleFUEL rng
  | .MoreThan => moreThanLoop points points_set resampleFUEL rng

/-- `generator.rs::generate_constraint` — `AllDifferent` is only offered
for regions of 2 to 7 cells. -/
def generate_constraint (points : List Point) (rng : SimpleRng) :
    Except String (Constraint × List (Point × Nat)) × SimpleRng :=
  let choices :=
    if points.length > 1 ∧ points.length ≤ pipsMAX + 1 then
      [ConstraintKind.AllSame, .Exactly, .LessThan, .MoreThan, .AllDifferent]
    else [ConstraintKind.AllSame, .Exactly, .LessThan, .MoreThan]
  let ir := rng.gen_range_usize 0 (choices.length - 1)
  build_constraint points (choices.getD ir.1 .AllSame) ir.2

/-- First-match lookup in the pip map (`HashMap<Point, Pips>` embedded as
an association list where insertion prepends, so the first match is the
most recent insertion). -/
def pipsLookup (m : List (Point × Nat)) (p : Point) : Option Nat :=
  (m.find? (fun e => e.1 = p)).map Prod.snd

/-- The loop of `generator.rs::assign_constraints`: build one constraint
per spec, inserting its assignment into the pip map. -/
def assign_constraints_go :
    List ConstraintSpec → List Constraint → List (Point × Nat) → SimpleRng →
    Except String (List Constraint × List (Point × Nat)) × SimpleRng
  | [], cs, pips, rng => (.ok (cs, pips), rng)
  | spec :: rest, cs, pips, rng =>
      let pts := specCellsList spec.shape spec.anchor spec.orientation_index
      let gr := generate_constraint pts rng
      match gr.1 with
      | .error e => (.error e, gr.2)
      | .ok (c, asg) =>
          assign_constraints_go rest (cs ++ [c])
            (asg.foldl (fun m e => e :: m) pips) gr.2

/-- `generator.rs::assign_constraints`. -/
def assign_constraints (specs : List ConstraintSpec) (rng : SimpleRng) :
    Except String (List Constraint × List (Point × Nat)) × SimpleRng :=
  assign_constraints_go specs [] [] rng

/-- `generator.rs::fill_remaining_cells` — give every so-far-unassigned
board point a random pip, iterating the board in sorted order (the
source's `HashSet` iteration order is unspecified). -/
def fill_remaining_cells (board_points : Finset Point)
    (pips : List (Point × Nat)) (rng : SimpleRng) :
    List (Point × Nat) × SimpleRng :=
  (sortedPointsOf board_points.card board_points).foldl
    (fun (acc : List (Point × Nat) × SimpleRng) p =>
      match pipsLookup acc.1 p with
      | some _ => acc
      | none =>
          let r := random_pip acc.2
          ((p, r.1) :: acc.1, r.2))
    (pips, rng)

/-- `generator.rs::materialize_pieces` — read each spec's pips off the pip
map in orientation cell order; the piece and its witness placement carry
that pip order. -/
def materialize_pieces :
    List PlacementSpec → List (Point × Nat) →
    Except String (List Piece × List Placement)
  | [], _ => .ok ([], [])
  | spec :: rest, pips =>
      let cells := specCellsList spec.shape spec.anchor spec.orientation_index
      match cells.foldlM
          (fun acc pt =>
            match pipsLookup pips pt with
            | some v => some (acc ++ [v])
            | none => none)
          [] with
      | none => .error "Missing pip assignment for point."
      | some pip_order =>
          match Piece.new spec.shape pip_order with
          | .error e => .error e
          | .ok piece =>
              match materialize_pieces rest pips with
              | .error e => .error e
              | .ok r =>
                  .ok (piece :: r.1,
                    ⟨piece, spec.anchor, spec.orientation_index, pip_order⟩ :: r.2)

/-- `generator.rs::generate`. -/
def generate (config : GeneratorConfig) : Except String GeneratedPuzzle :=
  let board_points := config.board.iterList.toFinset
  match board_dimensions board_points with
  | .error e => .error e
  | .ok wh =>
    let rng := SimpleRng.new config.seed wh.1 wh.2
    let tr := tile_board board_points config.piece_rule rng
    match tr.1 with
    | .error e => .error e
    | .ok piece_specs =>
      let cr := place_constraints board_points config tr.2
      match cr.1 with
      | .error e => .error e
      | .ok constraint_specs =>
        let ar := assign_constraints constraint_specs cr.2
        match ar.1 with
        | .error e => .error e
        | .ok cp =>
          let fr := fill_remaining_cells board_points cp.2 ar.2
          match materialize_pieces piece_specs fr.1 with
          | .error e => .error e
          | .ok pp =>
              .ok ⟨config.board, pp.1, cp.1, pp.2⟩

end GC

namespace GC

theorem foldl_firstSome_frozen {α β γ : Type} (body : α → γ → Option β × γ)
    (l : List α) (r : β) (g : γ) :
    l.foldl
      (fun acc x =>
        match acc.1 with
        | some rr => (some rr, acc.2)
        | none => body x acc.2)
      (some r, g) = (some r, g) := by
  induction l with
  | nil => rfl
  | cons x xs ih => simpa using ih

theorem foldl_firstSome {α β γ : Type} (body : α → γ → Option β × γ) :
    ∀ (l : List α) (g0 : γ) (b : β) (gf : γ),
      l.foldl
        (fun acc x =>
          match acc.1 with
          | some rr => (some rr, acc.2)
          | none => body x acc.2)
        (none, g0) = (some b, gf) →
      ∃ x ∈ l, ∃ g, body x g = (some b, gf) := by
  intro l
  induction l with
  | nil =>
      intro g0 b gf h
      exact absurd (congrArg Prod.fst h) (by simp)
  | cons x xs ih =>
      intro g0 b gf h
      rw [List.foldl_cons] at h
      rcases hb : body x g0 with ⟨ob, g1⟩
      rw [show (match (none : Option β) with
            | some rr => (some rr, g0)
            | none => body x g0) = (ob, g1) from hb] at h
      cases ob with
      | some r =>
          rw [foldl_firstSome_frozen] at h
          injection h with h1 h2
          exact ⟨x, List.mem_cons_self x xs, g0, by rw [hb, h1, h2]⟩
      | none =>
          obtain ⟨y, hy, g, hg⟩ := ih g1 b gf h
          exact ⟨y, List.mem_cons_of_mem x hy, g, hg⟩

/-- Modelled from the spec: a constraint is "truthfully built" from the
pip map `μ` when its target is witnessed by `μ` on its own region —
exactly how `build_constraint` derives each target from the very
assignment it stores into the board pip map. -/
def TruthfulGC (μ : Point → Nat) : Constraint → Prop
  | .AllSame expected pts => ∃ v, expected = some v ∧ ∀ p ∈ pts, μ p = v
  | .AllDifferent excl pts =>
      (∀ p ∈ pts, μ p ∉ excl)
      ∧ ∀ p ∈ pts, ∀ q ∈ pts, p ≠ q → μ p ≠ μ q
  | .Exactly target pts => target = ∑ p ∈ pts, μ p
  | .LessThan target pts => (∑ p ∈ pts, μ p) < target
  | .MoreThan target pts => target < ∑ p ∈ pts, μ p

end GC

namespace GC

theorem reduce_assignment_not_mem (c : Constraint) (a : Assignment)
    (h : a.point ∉ c.points) : c.reduce_assignment a = .ok (some c) := by
  rw [Constraint.reduce_assignment.eq_def, if_pos h]

theorem reduce_assignment_truthful (μ : Point → Nat) (hμ : ∀ q, μ q ≤ 6)
    (c : Constraint) (hT : TruthfulGC μ c) (p : Point) (hp : p ∈ c.points) :
    ∃ r, c.reduce_assignment ⟨μ p, p⟩ = .ok r ∧
      (r = none ∨ ∃ c', r = some c' ∧ TruthfulGC μ c'
        ∧ c'.points = c.points.erase p ∧ c'.points.Nonempty) := by
  rw [Constraint.reduce_assignment.eq_def, if_neg (not_not_intro hp)]
  cases c with
  | AllDifferent excl pts =>
      obtain ⟨hnotin, hinj⟩ := hT
      simp only [Constraint.points] at hp
      dsimp only
      rw [if_neg (show ¬ (⟨μ p, p⟩ : Assignment).pips ∈ excl from hnotin p hp)]
      by_cases he : pts.erase (⟨μ p, p⟩ : Assignment).point = ∅
      · rw [if_pos he]
        exact ⟨none, rfl, Or.inl rfl⟩
      · rw [if_neg he]
        refine ⟨_, rfl, Or.inr ⟨_, rfl, ⟨?_, ?_⟩, rfl, Finset.nonempty_iff_ne_empty.2 he⟩⟩
        · intro q hq
          have hqp := Finset.mem_erase.1 hq
          rw [Finset.mem_insert]
          push_neg
          exact ⟨hinj q hqp.2 p hp hqp.1, hnotin q hqp.2⟩
        · intro q hq q' hq'
          exact hinj q (Finset.mem_erase.1 hq).2 q' (Finset.mem_erase.1 hq').2
  | AllSame expected pts =>
      obtain ⟨v, rfl, hall⟩ := hT
      simp only [Constraint.points] at hp
      have hvp : μ p = v := hall p hp
      dsimp only
      rw [if_neg (show ¬ (⟨μ p, p⟩ : Assignment).pips ≠ v by
        simpa using hvp)]
      by_cases h1 : pts.card = 1
      · rw [if_pos h1]
        exact ⟨none, rfl, Or.inl rfl⟩
      · rw [if_neg h1]
        by_cases h2 : pts.card = 2
        · rw [if_pos h2]
          have hcard : (pts.erase p).card = 1 := by
            rw [Finset.card_erase_of_mem hp, h2]
          obtain ⟨q, hq⟩ := Finset.card_eq_one.1 hcard
          refine ⟨_, rfl, Or.inr ⟨_, rfl, ?_, rfl, by rw [hq]; exact ⟨q, Finset.mem_singleton_self q⟩⟩⟩
          show v = ∑ x ∈ pts.erase (⟨μ p, p⟩ : Assignment).point, μ x
          rw [show (⟨μ p, p⟩ : Assignment).point = p from rfl, hq, Finset.sum_singleton]
          have : q ∈ pts := (Finset.erase_subset p pts) (hq ▸ Finset.mem_singleton_self q)
          rw [hall q this]
        · rw [if_neg h2]
          refine ⟨_, rfl, Or.inr ⟨_, rfl, ⟨v, rfl, ?_⟩, rfl, ?_⟩⟩
          · intro q hq
            exact hall q (Finset.mem_erase.1 hq).2
          · show (pts.erase p).Nonempty
            rw [← Finset.card_pos, Finset.card_erase_of_mem hp]
            have : 1 ≤ pts.card := Finset.card_pos.2 ⟨p, hp⟩
            omega
  | Exactly target pts =>
      have hsum : target = ∑ x ∈ pts, μ x := hT
      simp only [Constraint.points] at hp
      have hsplit : μ p + ∑ x ∈ pts.erase p, μ x = ∑ x ∈ pts, μ x :=
        Finset.add_sum_erase pts μ hp
      dsimp only
      by_cases h1 : pts.card = 1
      · rw [if_pos h1]
        have h0 : (pts.erase p).card = 0 := by
          rw [Finset.card_erase_of_mem hp, h1]
        have he : pts.erase p = ∅ := Finset.card_eq_zero.1 h0
        rw [he, Finset.sum_empty] at hsplit
        rw [if_pos (show (⟨μ p, p⟩ : Assignment).pips = target by
          show μ p = target
          omega)]
        exact ⟨none, rfl, Or.inl rfl⟩
      · rw [if_neg h1]
        have hle : μ p ≤ target := by
          rw [hsum, ← hsplit]
          omega
        rw [if_neg (show ¬ (⟨μ p, p⟩ : Assignment).pips > target by
          show ¬ μ p > target
          omega)]
        have hbound : ∑ x ∈ pts.erase p, μ x ≤ (pts.erase p).card * 6 := by
          calc ∑ x ∈ pts.erase p, μ x ≤ ∑ _x ∈ pts.erase p, 6 :=
                Finset.sum_le_sum (fun q _ => hμ q)
            _ = (pts.erase p).card * 6 := by
                rw [Finset.sum_const, smul_eq_mul]
        rw [if_neg (show ¬ target - (⟨μ p, p⟩ : Assignment).pips >
              (pts.erase (⟨μ p, p⟩ : Assignment).point).card * pipsMAX by
          show ¬ target - μ p > (pts.erase p).card * 6
          omega)]
        refine ⟨_, rfl, Or.inr ⟨_, rfl, ?_, rfl, ?_⟩⟩
        · show target - μ p = ∑ x ∈ pts.erase (⟨μ p, p⟩ : Assignment).point, μ x
          show target - μ p = ∑ x ∈ pts.erase p, μ x
          omega
        · show (pts.erase p).Nonempty
          rw [← Finset.card_pos, Finset.card_erase_of_mem hp]
          have h2 : 1 ≤ pts.card := Finset.card_pos.2 ⟨p, hp⟩
          omega
  | LessThan target pts =>
      have hsum : (∑ x ∈ pts, μ x) < target := hT
      simp only [Constraint.points] at hp
      have hsplit : μ p + ∑ x ∈ pts.erase p, μ x = ∑ x ∈ pts, μ x :=
        Finset.add_sum_erase pts μ hp
      dsimp only
      rw [if_neg (show ¬ (⟨μ p, p⟩ : Assignment).pips ≥ target by
        show ¬ μ p ≥ target
        omega)]
      by_cases h1 : pts.card = 1
      · rw [if_pos h1]
        exact ⟨none, rfl, Or.inl rfl⟩
      · rw [if_neg h1]
        have h2 : 1 ≤ pts.card := Finset.card_pos.2 ⟨p, hp⟩
        by_cases h3 : pts.card = 2 ∧ target - (⟨μ p, p⟩ : Assignment).pips = 1
        · rw [if_pos h3]
          refine ⟨_, rfl, Or.inr ⟨_, rfl, ?_, rfl, ?_⟩⟩
          · show (0 : Nat) = ∑ x ∈ pts.erase p, μ x
            have h4 : target - μ p = 1 := h3.2
            omega
          · show (pts.erase p).Nonempty
            rw [← Finset.card_pos, Finset.card_erase_of_mem hp]
            omega
        · rw [if_neg h3]
          refine ⟨_, rfl, Or.inr ⟨_, rfl, ?_, rfl, ?_⟩⟩
          · show (∑ x ∈ pts.erase (⟨μ p, p⟩ : Assignment).point, μ x) <
              target - (⟨μ p, p⟩ : Assignment).pips
            show (∑ x ∈ pts.erase p, μ x) < target - μ p
            omega
          · show (pts.erase p).Nonempty
            rw [← Finset.card_pos, Finset.card_erase_of_mem hp]
            omega
  | MoreThan target pts =>
      have hsum : target < ∑ x ∈ pts, μ x := hT
      simp only [Constraint.points] at hp
      have hsplit : μ p + ∑ x ∈ pts.erase p, μ x = ∑ x ∈ pts, μ x :=
        Finset.add_sum_erase pts μ hp
      dsimp only
      by_cases h1 : pts.card = 1
      · rw [if_pos h1]
        have h0 : (pts.erase p).card = 0 := by
          rw [Finset.card_erase_of_mem hp, h1]
        have he : pts.erase p = ∅ := Finset.card_eq_zero.1 h0
        rw [he, Finset.sum_empty] at hsplit
        rw [if_pos (show ((⟨μ p, p⟩ : Assignment).pips : Int) > (target : Int) by
          show ((μ p : Nat) : Int) > (target : Int)
          omega)]
        exact ⟨none, rfl, Or.inl rfl⟩
      · rw [if_neg h1]
        have h2 : 1 ≤ pts.card := Finset.card_pos.2 ⟨p, hp⟩
        have hbound : ∑ x ∈ pts.erase p, μ x ≤ (pts.erase p).card * 6 := by
          calc ∑ x ∈ pts.erase p, μ x ≤ ∑ _x ∈ pts.erase p, 6 :=
                Finset.sum_le_sum (fun q _ => hμ q)
            _ = (pts.erase p).card * 6 := by
                rw [Finset.sum_const, smul_eq_mul]
        by_cases h3 : (pts.erase (⟨μ p, p⟩ : Assignment).point).card = 1 ∧
            (target : Int) - ((⟨μ p, p⟩ : Assignment).pips : Int) = 5
        · rw [if_pos h3]
          obtain ⟨h3a, h3b⟩ := h3
          obtain ⟨q, hq⟩ := Finset.card_eq_one.1 h3a
          have hq_mem : q ∈ pts := (Finset.erase_subset _ pts)
            (hq ▸ Finset.mem_singleton_self q)
          refine ⟨_, rfl, Or.inr ⟨_, rfl, ?_, rfl,
            by rw [hq]; exact ⟨q, Finset.mem_singleton_self q⟩⟩⟩
          show (6 : Nat) = ∑ x ∈ pts.erase (⟨μ p, p⟩ : Assignment).point, μ x
          rw [hq, Finset.sum_singleton]
          have hsq : μ p + μ q = ∑ x ∈ pts, μ x := by
            rw [← hsplit]
            congr 1
            rw [hq, Finset.sum_singleton]
          have hb6 := hμ q
          have h3b' : (target : Int) - (μ p : Int) = 5 := h3b
          omega
        · rw [if_neg h3]
          by_cases h4 : (target : Int) - ((⟨μ p, p⟩ : Assignment).pips : Int) < 0
          · rw [if_pos h4]
            exact ⟨none, rfl, Or.inl rfl⟩
          · rw [if_neg h4]
            have h4' : ¬ (target : Int) - (μ p : Int) < 0 := h4
            rw [if_neg (show ¬ (target : Int) - ((⟨μ p, p⟩ : Assignment).pips : Int) ≥
                ((pts.erase (⟨μ p, p⟩ : Assignment).point).card : Int) * (pipsMAX : Int) by
              show ¬ (target : Int) - (μ p : Int) ≥ ((pts.erase p).card : Int) * (6 : Int)
              omega)]
            refine ⟨_, rfl, Or.inr ⟨_, rfl, ?_, rfl, ?_⟩⟩
            · show ((target : Int) - ((⟨μ p, p⟩ : Assignment).pips : Int)).toNat <
                ∑ x ∈ pts.erase (⟨μ p, p⟩ : Assignment).point, μ x
              show ((target : Int) - (μ p : Int)).toNat < ∑ x ∈ pts.erase p, μ x
              omega
            · show (pts.erase p).Nonempty
              rw [← Finset.card_pos, Finset.card_erase_of_mem hp]
              omega

end GC

namespace GC

theorem mem_foldl_erase (cells : List Point) :
    ∀ (s : Finset Point) (q : Point),
      q ∈ cells.foldl (fun t c => t.erase c) s ↔ q ∈ s ∧ q ∉ cells := by
  induction cells with
  | nil => intro s q; simp
  | cons c cs ih =>
      intro s q
      rw [List.foldl_cons, ih, Finset.mem_erase, List.mem_cons]
      constructor
      · rintro ⟨⟨hne, hs⟩, hcs⟩
        exact ⟨hs, fun h => h.elim hne hcs⟩
      · rintro ⟨hs, hnot⟩
        exact ⟨⟨fun h => hnot (Or.inl h), hs⟩, fun h => hnot (Or.inr h)⟩

theorem foldlM_reduce_none (assigns : List Assignment) :
    assigns.foldlM
      (fun cur a =>
        match cur with
        | none => Except.ok none
        | some c' => c'.reduce_assignment a)
      (none : Option Constraint) = .ok none := by
  induction assigns with
  | nil => rfl
  | cons a rest ih => simpa [List.foldlM_cons] using ih

theorem foldl_reduce_points (μ : Point → Nat) (hμ : ∀ q, μ q ≤ 6)
    (cells : List Point) :
    ∀ (c0 : Constraint), TruthfulGC μ c0 → c0.points.Nonempty →
      ∃ r, (cells.map fun q => (⟨μ q, q⟩ : Assignment)).foldlM
          (fun cur a =>
            match cur with
            | none => Except.ok none
            | some c' => c'.reduce_assignment a)
          (some c0) = .ok r
        ∧ (r = none ∨ ∃ c', r = some c' ∧ TruthfulGC μ c' ∧ c'.points.Nonempty
            ∧ c'.points = cells.foldl (fun t q => t.erase q) c0.points) := by
  induction cells with
  | nil =>
      intro c0 hT hne
      exact ⟨some c0, rfl, Or.inr ⟨c0, rfl, hT, hne, rfl⟩⟩
  | cons q qs ih =>
      intro c0 hT hne0
      simp only [List.map_cons, List.foldlM_cons]
      by_cases hq : q ∈ c0.points
      · obtain ⟨r1, hr1, hor⟩ := reduce_assignment_truthful μ hμ c0 hT q hq
        rw [hr1]
        rcases hor with rfl | ⟨c1, rfl, hT1, hpts1, hne1⟩
        · rw [show ((Except.ok (none : Option Constraint) : Except String (Option Constraint)) >>=
              fun b => (qs.map fun q' => (⟨μ q', q'⟩ : Assignment)).foldlM
                (fun cur a =>
                  match cur with
                  | none => Except.ok none
                  | some c' => c'.reduce_assignment a) b) =
              (qs.map fun q' => (⟨μ q', q'⟩ : Assignment)).foldlM
                (fun cur a =>
                  match cur with
                  | none => Except.ok none
                  | some c' => c'.reduce_assignment a) none from rfl]
          rw [foldlM_reduce_none]
          exact ⟨none, rfl, Or.inl rfl⟩
        · obtain ⟨r, hr, hor2⟩ := ih c1 hT1 hne1
          refine ⟨r, hr, ?_⟩
          rcases hor2 with rfl | ⟨c', rfl, hT', hne', hpts'⟩
          · exact Or.inl rfl
          · refine Or.inr ⟨c', rfl, hT', hne', ?_⟩
            rw [hpts', hpts1, List.foldl_cons]
      · rw [reduce_assignment_not_mem c0 _ hq]
        obtain ⟨r, hr, hor2⟩ := ih c0 hT hne0
        refine ⟨r, hr, ?_⟩
        rcases hor2 with rfl | ⟨c', rfl, hT', hne', hpts'⟩
        · exact Or.inl rfl
        · refine Or.inr ⟨c', rfl, hT', hne', ?_⟩
          rw [hpts', List.foldl_cons, Finset.erase_eq_of_not_mem hq]

end GC

namespace GC

theorem zipWith_assignments (μ : Point → Nat) (cells : List Point) :
    List.zipWith (fun pip pt => (⟨pip, pt⟩ : Assignment)) (cells.map μ) cells
      = cells.map fun q => (⟨μ q, q⟩ : Assignment) := by
  induction cells with
  | nil => rfl
  | cons c cs ih => simp [ih]

theorem reduce_placement_truthful (μ : Point → Nat) (hμ : ∀ q, μ q ≤ 6)
    (pl : Placement) (hpips : pl.pip_order = pl.cellsList.map μ)
    (c : Constraint) (hT : TruthfulGC μ c) (hne : c.points.Nonempty) :
    ∃ r, c.reduce_placement pl = .ok r ∧
      (r = none ∨ ∃ c', r = some c' ∧ TruthfulGC μ c' ∧ c'.points.Nonempty
        ∧ c'.points = pl.cellsList.foldl (fun t q => t.erase q) c.points) := by
  rw [Constraint.reduce_placement, Placement.assignments, hpips,
    zipWith_assignments]
  exact foldl_reduce_points μ hμ pl.cellsList c hT hne

theorem reduce_constraints_truthful (μ : Point → Nat) (hμ : ∀ q, μ q ≤ 6)
    (pl : Placement) (hpips : pl.pip_order = pl.cellsList.map μ) :
    ∀ cs : List Constraint,
      (∀ c ∈ cs, TruthfulGC μ c ∧ c.points.Nonempty) →
      ∃ cs', reduce_constraints cs pl = .ok cs' ∧
        ∀ c' ∈ cs', TruthfulGC μ c' ∧ c'.points.Nonempty ∧
          ∃ c ∈ cs, c'.points = pl.cellsList.foldl (fun t q => t.erase q) c.points := by
  intro cs
  induction cs with
  | nil =>
      intro _
      exact ⟨[], rfl, fun c' hc' => absurd hc' (List.not_mem_nil c')⟩
  | cons c0 rest ih =>
      intro hall
      obtain ⟨hT0, hne0⟩ := hall c0 (List.mem_cons_self c0 rest)
      obtain ⟨cs', hcs', hprop⟩ := ih (fun c hc => hall c (List.mem_cons_of_mem c0 hc))
      obtain ⟨r, hr, hor⟩ := reduce_placement_truthful μ hμ pl hpips c0 hT0 hne0
      rw [reduce_constraints]
      rcases hor with rfl | ⟨c', rfl, hT', hne', hpts'⟩
      · rw [hr, hcs']
        refine ⟨cs', rfl, ?_⟩
        intro c' hc'
        obtain ⟨a, b, c, hc, d⟩ := hprop c' hc'
        exact ⟨a, b, c, List.mem_cons_of_mem c0 hc, d⟩
      · rw [hr, hcs']
        refine ⟨c' :: cs', rfl, ?_⟩
        intro c2 hc2
        rcases List.mem_cons.1 hc2 with rfl | hmem
        · exact ⟨hT', hne', c0, List.mem_cons_self c0 rest, hpts'⟩
        · obtain ⟨a, b, c, hc, d⟩ := hprop c2 hmem
          exact ⟨a, b, c, List.mem_cons_of_mem c0 hc, d⟩

theorem replay_invariant (μ : Point → Nat) (hμ : ∀ q, μ q ≤ 6) :
    ∀ (pls : List Placement) (g : Game),
      g.board.iterList.toFinset = (pls.flatMap Placement.cellsList).toFinset →
      List.Pairwise (fun p1 p2 => ∀ q ∈ p1.cellsList, q ∉ p2.cellsList) pls →
      g.pieces = pls.map Placement.piece →
      (∀ pl ∈ pls, pl.pip_order = pl.cellsList.map μ) →
      (∀ c ∈ g.constraints, TruthfulGC μ c ∧ c.points.Nonempty
        ∧ ∀ q ∈ c.points, q ∈ g.board.iterList) →
      ∃ g', replay g pls = some g' ∧ g'.is_won = true := by
  intro pls
  induction pls with
  | nil =>
      intro g hb _ hp _ hc
      have hbe : g.board.iterList = [] := by
        rw [List.flatMap_nil] at hb
        exact List.toFinset_eq_empty_iff _ |>.1 hb
      have hce : g.constraints = [] := by
        rw [List.eq_nil_iff_forall_not_mem]
        intro c hcmem
        obtain ⟨_, ⟨q, hq⟩, hsub⟩ := hc c hcmem
        have := hsub q hq
        rw [hbe] at this
        exact absurd this (List.not_mem_nil q)
      refine ⟨g, rfl, ?_⟩
      rw [Game.is_won, hbe, hp, List.map_nil, hce]
      rfl
  | cons pl rest ih =>
      intro g hb hpw hp hpip hc
      have hmem_board : ∀ q ∈ pl.cellsList, q ∈ g.board.iterList := by
        intro q hq
        have hq2 : q ∈ ((pl :: rest).flatMap Placement.cellsList).toFinset := by
          rw [List.mem_toFinset, List.flatMap_cons, List.mem_append]
          exact Or.inl hq
        rw [← hb] at hq2
        exact List.mem_toFinset.1 hq2
      -- board removal succeeds
      have hrm : g.board.remove_points pl.pointsList =
          .ok ⟨g.board.iterList.filter (fun p => p ∉ pl.pointsList)⟩ := by
        rw [Board.remove_points, if_pos]
        rw [List.all_eq_true]
        intro q hq
        exact decide_eq_true (hmem_board q hq)
      -- piece removal succeeds
      have hrp : remove_one g.pieces pl.piece = .ok (rest.map Placement.piece) := by
        rw [hp, List.map_cons, remove_one, if_pos (List.mem_cons_self _ _),
          List.erase_cons_head]
      -- constraint reduction succeeds
      obtain ⟨cs', hcs', hprop⟩ := reduce_constraints_truthful μ hμ pl
        (hpip pl (List.mem_cons_self pl rest)) g.constraints
        (fun c hcm => ⟨(hc c hcm).1, (hc c hcm).2.1⟩)
      have hplay : play g pl =
          .ok ⟨⟨g.board.iterList.filter (fun p => p ∉ pl.pointsList)⟩,
            rest.map Placement.piece, cs'⟩ := by
        rw [play, hrm, hrp, hcs']
      rw [replay, hplay]
      apply ih
      · -- board set
        rw [List.flatMap_cons] at hb
        ext q
        simp only [List.mem_toFinset, List.mem_filter, decide_eq_true_eq]
        constructor
        · rintro ⟨hql, hqn⟩
          have : q ∈ (pl.cellsList ++ rest.flatMap Placement.cellsList) := by
            rw [← List.mem_toFinset, ← hb, List.mem_toFinset]
            exact hql
          rcases List.mem_append.1 this with h1 | h2
          · exact absurd h1 hqn
          · exact h2
        · intro hq
          have hq' := hq
          have hnotpl : q ∉ pl.cellsList := by
            obtain ⟨pl2, hpl2, hq2⟩ := List.mem_flatMap.1 hq'
            intro hcon
            exact (List.rel_of_pairwise_cons hpw hpl2) q hcon hq2
          constructor
          · rw [← List.mem_toFinset, hb, List.mem_toFinset, List.mem_append]
            exact Or.inr hq'
          · exact hnotpl
      · exact hpw.of_cons
      · rfl
      · exact fun p hp2 => hpip p (List.mem_cons_of_mem pl hp2)
      · intro c' hc'
        obtain ⟨hT', hne', c, hcmem, hpts'⟩ := hprop c' hc'
        refine ⟨hT', hne', ?_⟩
        intro q hq
        rw [hpts', mem_foldl_erase] at hq
        rw [List.mem_filter]
        refine ⟨(hc c hcmem).2.2 q hq.1, ?_⟩
        rw [decide_eq_true_eq]
        exact hq.2
  
end GC

deriving instance Fintype for GC.PolyShape

namespace GC

/-- Each stored orientation is a duplicate-free cell list (evaluated over
the whole shape catalog). -/
theorem orientations_nodup_all :
    ∀ s : PolyShape, ∀ o ∈ s.orientations, o.Nodup := by decide

theorem orientations_getD_nodup (s : PolyShape) (oi : Nat) :
    ((s.orientations).getD oi []).Nodup := by
  by_cases h : oi < s.orientations.length
  · rw [List.getD_eq_getElem _ _ h]
    exact orientations_nodup_all s _ (List.getElem_mem h)
  · rw [List.getD_eq_default _ _ (Nat.le_of_not_lt h)]
    exact List.nodup_nil

theorem placement_cells_available_go (available : Finset Point) (anchor : Point) :
    ∀ (offsets : List (Int × Int)) (acc cells : List Point),
      offsets.foldlM
        (fun cells d =>
          let x : Int := (anchor.x : Int) + d.1
          let y : Int := (anchor.y : Int) + d.2
          if x < 0 ∨ y < 0 then none
          else
            let pt : Point := ⟨x.toNat, y.toNat⟩
            if pt ∈ available then some (cells ++ [pt]) else none)
        acc = some cells →
      cells = acc ++ offsets.map
          (fun d => (⟨((anchor.x : Int) + d.1).toNat,
            ((anchor.y : Int) + d.2).toNat⟩ : Point))
      ∧ (∀ d ∈ offsets, ¬ ((anchor.x : Int) + d.1 < 0 ∨ (anchor.y : Int) + d.2 < 0))
      ∧ ∀ d ∈ offsets,
          (⟨((anchor.x : Int) + d.1).toNat,
            ((anchor.y : Int) + d.2).toNat⟩ : Point) ∈ available := by
  intro offsets
  induction offsets with
  | nil =>
      intro acc cells h
      simp only [List.foldlM_nil] at h
      injection h with h'
      subst h'
      refine ⟨by simp, ?_, ?_⟩
      · intro d hd
        exact absurd hd (List.not_mem_nil d)
      · intro d hd
        exact absurd hd (List.not_mem_nil d)
  | cons d ds ih =>
      intro acc cells h
      simp only [List.foldlM_cons] at h
      by_cases hneg : (anchor.x : Int) + d.1 < 0 ∨ (anchor.y : Int) + d.2 < 0
      · rw [if_pos hneg] at h
        exact Option.noConfusion h
      · rw [if_neg hneg] at h
        by_cases hmem : (⟨((anchor.x : Int) + d.1).toNat,
            ((anchor.y : Int) + d.2).toNat⟩ : Point) ∈ available
        · rw [if_pos hmem] at h
          obtain ⟨heq, hng, hav⟩ := ih _ cells h
          refine ⟨by rw [heq]; simp, ?_, ?_⟩
          · intro e he
            rcases List.mem_cons.1 he with rfl | hmem2
            · exact hneg
            · exact hng e hmem2
          · intro e he
            rcases List.mem_cons.1 he with rfl | hmem2
            · exact hmem
            · exact hav e hmem2
        · rw [if_neg hmem] at h
          exact Option.noConfusion h

theorem placement_cells_available_ok (anchor : Point)
    (offsets : List (Int × Int)) (available : Finset Point)
    (cells : List Point)
    (h : placement_cells_available anchor offsets available = some cells) :
    cells = offsets.map
        (fun d => (⟨((anchor.x : Int) + d.1).toNat,
          ((anchor.y : Int) + d.2).toNat⟩ : Point))
    ∧ ∀ q ∈ cells, q ∈ available := by
  obtain ⟨heq, _, hav⟩ := placement_cells_available_go available anchor offsets [] cells h
  rw [List.nil_append] at heq
  refine ⟨heq, ?_⟩
  intro q hq
  rw [heq] at hq
  obtain ⟨d, hd, rfl⟩ := List.mem_map.1 hq
  exact hav d hd

theorem constraint_cells_go (board_points occupied : Finset Point)
    (anchor : Point) :
    ∀ (offsets : List (Int × Int)) (acc cells : List Point),
      offsets.foldlM
        (fun cells d =>
          let x : Int := (anchor.x : Int) + d.1
          let y : Int := (anchor.y : Int) + d.2
          if x < 0 ∨ y < 0 then none
          else
            let pt : Point := ⟨x.toNat, y.toNat⟩
            if pt ∉ board_points ∨ pt ∈ occupied then none
            else some (cells ++ [pt]))
        acc = some cells →
      cells = acc ++ offsets.map
          (fun d => (⟨((anchor.x : Int) + d.1).toNat,
            ((anchor.y : Int) + d.2).toNat⟩ : Point))
      ∧ (∀ d ∈ offsets, ¬ ((anchor.x : Int) + d.1 < 0 ∨ (anchor.y : Int) + d.2 < 0))
      ∧ ∀ d ∈ offsets,
          (⟨((anchor.x : Int) + d.1).toNat,
            ((anchor.y : Int) + d.2).toNat⟩ : Point) ∈ board_points ∧
          (⟨((anchor.x : Int) + d.1).toNat,
            ((anchor.y : Int) + d.2).toNat⟩ : Point) ∉ occupied := by
  intro offsets
  induction offsets with
  | nil =>
      intro acc cells h
      simp only [List.foldlM_nil] at h
      injection h with h'
      subst h'
      exact ⟨by simp, fun d hd => absurd hd (List.not_mem_nil d),
        fun d hd => absurd hd (List.not_mem_nil d)⟩
  | cons d ds ih =>
      intro acc cells h
      simp only [List.foldlM_cons] at h
      by_cases hneg : (anchor.x : Int) + d.1 < 0 ∨ (anchor.y : Int) + d.2 < 0
      · rw [if_pos hneg] at h
        exact Option.noConfusion h
      · rw [if_neg hneg] at h
        by_cases hmem : (⟨((anchor.x : Int) + d.1).toNat,
            ((anchor.y : Int) + d.2).toNat⟩ : Point) ∉ board_points ∨
            (⟨((anchor.x : Int) + d.1).toNat,
              ((anchor.y : Int) + d.2).toNat⟩ : Point) ∈ occupied
        · rw [if_pos hmem] at h
          exact Option.noConfusion h
        · rw [if_neg hmem] at h
          push_neg at hmem
          obtain ⟨heq, hng, hav⟩ := ih _ cells h
          refine ⟨by rw [heq]; simp, ?_, ?_⟩
          · intro e he
            rcases List.mem_cons.1 he with rfl | hmem2
            · exact hneg
            · exact hng e hmem2
          · intro e he
            rcases List.mem_cons.1 he with rfl | hmem2
            · exact hmem
            · exact hav e hmem2

theorem constraint_cells_ok (board_points occupied : Finset Point)
    (anchor : Point) (offsets : List (Int × Int)) (cells : List Point)
    (hnd : offsets.Nodup)
    (h : constraint_cells board_points occupied anchor offsets = some cells) :
    cells = offsets.map
        (fun d => (⟨((anchor.x : Int) + d.1).toNat,
          ((anchor.y : Int) + d.2).toNat⟩ : Point))
    ∧ (∀ q ∈ cells, q ∈ board_points ∧ q ∉ occupied)
    ∧ cells.Nodup := by
  obtain ⟨heq, hng, hav⟩ := constraint_cells_go board_points occupied anchor
    offsets [] cells h
  rw [List.nil_append] at heq
  refine ⟨heq, ?_, ?_⟩
  · intro q hq
    rw [heq] at hq
    obtain ⟨d, hd, rfl⟩ := List.mem_map.1 hq
    exact hav d hd
  · rw [heq]
    refine List.Nodup.map_on ?_ hnd
    intro d1 h1 d2 h2 heq2
    have hn1 := hng d1 h1
    have hn2 := hng d2 h2
    push_neg at hn1 hn2
    have hx := congrArg Point.x heq2
    have hy := congrArg Point.y heq2
    simp only at hx hy
    have hx' : (anchor.x : Int) + d1.1 = (anchor.x : Int) + d2.1 := by omega
    have hy' : (anchor.y : Int) + d1.2 = (anchor.y : Int) + d2.2 := by omega
    have : d1.1 = d2.1 := by omega
    have : d1.2 = d2.2 := by omega
    cases d1
    cases d2
    simp_all

end GC

namespace GC

/-- The board cells a placement spec covers. -/
def PlacementSpec.cells (sp : PlacementSpec) : List Point :=
  specCellsList sp.shape sp.anchor sp.orientation_index

theorem firstSomeFold_ok {α β γ : Type} (body : α → γ → Option β × γ)
    (l : List α) (g : γ) (b : β) (gf : γ)
    (h : firstSomeFold body l g = (some b, gf)) :
    ∃ x ∈ l, ∃ g', body x g' = (some b, gf) :=
  foldl_firstSome body l g b gf h

theorem shapeLoopBody_ok
    (recur : Finset Point → SimpleRng → Option (List PlacementSpec) × SimpleRng)
    (available : Finset Point) (pivot : Point) (shape : PolyShape)
    (g : SimpleRng) (specs : List PlacementSpec) (rng' : SimpleRng)
    (h : shapeLoopBody recur available pivot shape g = (some specs, rng')) :
    ∃ (oi : Nat) (anchor : Point) (cells : List Point) (g' : SimpleRng)
      (tail : List PlacementSpec),
      placement_cells_available anchor (shape.orientations.getD oi [])
        available = some cells
      ∧ recur (available \ cells.toFinset) g' = (some tail, rng')
      ∧ specs = ⟨shape, anchor, oi⟩ :: tail := by
  simp only [shapeLoopBody] at h
  obtain ⟨oi, _, g2, h2⟩ := firstSomeFold_ok _ _ _ _ _ h
  simp only [orientLoopBody] at h2
  obtain ⟨anchor, _, g3, h3⟩ := firstSomeFold_ok _ _ _ _ _ h2
  simp only [anchorLoopBody] at h3
  rcases hpca : placement_cells_available anchor
      (shape.orientations.getD oi []) available with _ | cells <;>
    rw [hpca] at h3
  · exact absurd (congrArg Prod.fst h3) (by simp)
  · dsimp only at h3
    rcases hrec : recur (available \ cells.toFinset) g3 with ⟨orr, rg⟩
    rw [hrec] at h3
    rcases orr with _ | tail <;> dsimp only at h3
    · exact absurd (congrArg Prod.fst h3) (by simp)
    · injection h3 with h3a h3b
      injection h3a with h3a'
      exact ⟨oi, anchor, cells, g3, tail, hpca, by rw [hrec, h3b], h3a'.symm⟩

theorem backtrack_step_assemble (available : Finset Point)
    (shape : PolyShape) (anchor : Point) (oi : Nat) (cells : List Point)
    (tail : List PlacementSpec)
    (hcells : cells = (shape.orientations.getD oi []).map
      (fun d => (⟨((anchor.x : Int) + d.1).toNat,
        ((anchor.y : Int) + d.2).toNat⟩ : Point)))
    (hsub : ∀ q ∈ cells, q ∈ available)
    (htail : (tail.flatMap PlacementSpec.cells).toFinset =
      available \ cells.toFinset)
    (hpw : List.Pairwise (fun s1 s2 => ∀ q ∈ s1.cells, q ∉ s2.cells) tail) :
    (((⟨shape, anchor, oi⟩ : PlacementSpec) :: tail).flatMap
        PlacementSpec.cells).toFinset = available
    ∧ List.Pairwise (fun s1 s2 => ∀ q ∈ s1.cells, q ∉ s2.cells)
        ((⟨shape, anchor, oi⟩ : PlacementSpec) :: tail) := by
  have hcells' : (⟨shape, anchor, oi⟩ : PlacementSpec).cells = cells := by
    rw [hcells]
    rfl
  have hsubF : cells.toFinset ⊆ available := by
    intro q hq
    exact hsub q (List.mem_toFinset.1 hq)
  constructor
  · rw [List.flatMap_cons, List.toFinset_append, hcells', htail]
    exact Finset.union_sdiff_of_subset hsubF
  · refine List.Pairwise.cons ?_ hpw
    intro s2 hs2 q hq hq2
    have hq_in : q ∈ (tail.flatMap PlacementSpec.cells).toFinset := by
      rw [List.mem_toFinset, List.mem_flatMap]
      exact ⟨s2, hs2, hq2⟩
    rw [htail, Finset.mem_sdiff] at hq_in
    rw [hcells'] at hq
    exact hq_in.2 (List.mem_toFinset.2 hq)

theorem backtrack_unlimited_ok (shapes : List PolyShape) :
    ∀ (fuel : Nat) (available : Finset Point) (rng : SimpleRng)
      (specs : List PlacementSpec) (rng' : SimpleRng),
      backtrack_unlimited shapes fuel available rng = (some specs, rng') →
      (specs.flatMap PlacementSpec.cells).toFinset = available
      ∧ List.Pairwise (fun s1 s2 => ∀ q ∈ s1.cells, q ∉ s2.cells) specs := by
  intro fuel
  induction fuel with
  | zero =>
      intro available rng specs rng' h
      exact absurd (congrArg Prod.fst h) (by simp [backtrack_unlimited])
  | succ n ih =>
      intro available rng specs rng' h
      rw [backtrack_unlimited] at h
      by_cases hav : available = ∅
      · rw [if_pos hav] at h
        injection h with h1 _
        injection h1 with h1'
        subst h1'
        exact ⟨by simp [hav], List.Pairwise.nil⟩
      · rw [if_neg hav] at h
        rcases hmp : minPoint available with _ | pivot <;> rw [hmp] at h
        · exact absurd (congrArg Prod.fst h) (by simp)
        · obtain ⟨shape, _, g1, h1⟩ := firstSomeFold_ok _ _ _ _ _ h
          obtain ⟨oi, anchor, cells, g', tail, hpca, hrec, rfl⟩ :=
            shapeLoopBody_ok _ available pivot shape g1 specs rng' h1
          obtain ⟨hcells, hsub⟩ := placement_cells_available_ok anchor _ available
            cells hpca
          obtain ⟨htail, hpw⟩ := ih _ _ _ _ hrec
          exact backtrack_step_assemble available shape anchor oi cells tail
            hcells hsub htail hpw

theorem backtrack_exact_ok :
    ∀ (fuel : Nat) (available : Finset Point)
      (requirements : List ShapeRequirement) (rng : SimpleRng)
      (specs : List PlacementSpec) (rng' : SimpleRng),
      backtrack_exact fuel available requirements rng = (some specs, rng') →
      (specs.flatMap PlacementSpec.cells).toFinset = available
      ∧ List.Pairwise (fun s1 s2 => ∀ q ∈ s1.cells, q ∉ s2.cells) specs := by
  intro fuel
  induction fuel with
  | zero =>
      intro available requirements rng specs rng' h
      exact absurd (congrArg Prod.fst h) (by simp [backtrack_exact])
  | succ n ih =>
      intro available requirements rng specs rng' h
      rw [backtrack_exact] at h
      by_cases hreq : requirements.isEmpty
      · rw [if_pos hreq] at h
        by_cases hav : available = ∅
        · rw [if_pos hav] at h
          injection h with h1 _
          injection h1 with h1'
          subst h1'
          exact ⟨by simp [hav], List.Pairwise.nil⟩
        · rw [if_neg hav] at h
          exact absurd (congrArg Prod.fst h) (by simp)
      · rw [if_neg hreq] at h
        by_cases hav : available = ∅
        · rw [if_pos hav] at h
          exact absurd (congrArg Prod.fst h) (by simp)
        · rw [if_neg hav] at h
          rcases hmp : minPoint available with _ | pivot <;> rw [hmp] at h
          · exact absurd (congrArg Prod.fst h) (by simp)
          · obtain ⟨req_idx, _, g1, h1⟩ := firstSomeFold_ok _ _ _ _ _ h
            simp only [reqLoopBody] at h1
            obtain ⟨opt_idx, _, g2, h2⟩ := firstSomeFold_ok _ _ _ _ _ h1
            obtain ⟨oi, anchor, cells, g', tail, hpca, hrec, rfl⟩ :=
              shapeLoopBody_ok _ available pivot _ g2 specs rng' h2
            obtain ⟨hcells, hsub⟩ := placement_cells_available_ok anchor _
              available cells hpca
            obtain ⟨htail, hpw⟩ := ih _ _ _ _ _ hrec
            exact backtrack_step_assemble available _ anchor oi cells tail
              hcells hsub htail hpw

end GC

namespace GC

/-- The board cells a constraint spec covers. -/
def ConstraintSpec.cells (sp : ConstraintSpec) : List Point :=
  specCellsList sp.shape sp.anchor sp.orientation_index

theorem findCPLoop_ok (board_points occupied : Finset Point)
    (shapes : List PolyShape) (selection : ConstraintSelection)
    (sbs : List (Nat × List PolyShape)) (pts : List Point) :
    ∀ (att : Nat) (rng : SimpleRng) (spec : ConstraintSpec) (rng' : SimpleRng),
      findCPLoop board_points occupied shapes selection sbs pts att rng =
        (some spec, rng') →
      ∃ cells, constraint_cells board_points occupied spec.anchor
        (spec.shape.orientations.getD spec.orientation_index []) = some cells := by
  intro att
  induction att with
  | zero =>
      intro rng spec rng' h
      exact absurd (congrArg Prod.fst h) (by simp [findCPLoop])
  | succ n ih =>
      intro rng spec rng' h
      rw [findCPLoop] at h
      rcases hpk : cpPickShape shapes selection sbs rng with ⟨os, gs⟩
      rw [hpk] at h
      rcases os with _ | shape <;> dsimp only at h
      · exact absurd (congrArg Prod.fst h) (by simp)
      · rcases hres : firstSomeFold
            (cpOrientBody board_points occupied shape pts shape.orientations)
            (gs.shuffle (List.range shape.orientations.length)).1
            (gs.shuffle (List.range shape.orientations.length)).2
          with ⟨ores, gr⟩
        rw [hres] at h
        rcases ores with _ | spec0 <;> dsimp only at h
        · exact ih _ spec rng' h
        · injection h with h1 _
          injection h1 with h1'
          subst h1'
          obtain ⟨oi, _, g2, h2⟩ := firstSomeFold_ok _ _ _ _ _ hres
          simp only [cpOrientBody] at h2
          obtain ⟨pivot, _, g3, h3⟩ := firstSomeFold_ok _ _ _ _ _ h2
          simp only [cpPivotBody] at h3
          obtain ⟨anchor, _, g4, h4⟩ := firstSomeFold_ok _ _ _ _ _ h3
          simp only [cpAnchorBody] at h4
          by_cases hcc : (constraint_cells board_points occupied anchor
              (shape.orientations.getD oi [])).isSome
          · rw [if_pos hcc] at h4
            injection h4 with h4a _
            injection h4a with h4a'
            subst h4a'
            obtain ⟨cells, hcells⟩ := Option.isSome_iff_exists.1 hcc
            exact ⟨cells, hcells⟩
          · rw [if_neg hcc] at h4
            exact absurd (congrArg Prod.fst h4) (by simp)

theorem find_constraint_placement_ok (board_points occupied : Finset Point)
    (shapes : List PolyShape) (selection : ConstraintSelection)
    (rng : SimpleRng) (spec : ConstraintSpec) (rng' : SimpleRng)
    (h : find_constraint_placement board_points occupied shapes selection rng =
      (some spec, rng')) :
    ∃ cells, constraint_cells board_points occupied spec.anchor
      (spec.shape.orientations.getD spec.orientation_index []) = some cells := by
  rw [find_constraint_placement.eq_def] at h
  by_cases he : (sortedPointsOf (board_points \ occupied).card
      (board_points \ occupied)).isEmpty
  · rw [if_pos he] at h
    exact absurd (congrArg Prod.fst h) (by simp)
  · rw [if_neg he] at h
    exact findCPLoop_ok _ _ _ _ _ _ _ _ spec rng' h

end GC

namespace GC

/-- The loop invariant of `place_constraints`: every placed region is on
the board, non-empty, duplicate-free, inside `occupied`, and the regions
are pairwise disjoint. -/
def PCInv (board_points occupied : Finset Point)
    (placements : List ConstraintSpec) : Prop :=
  (∀ sp ∈ placements,
    (∀ q ∈ sp.cells, q ∈ board_points ∧ q ∈ occupied)
    ∧ sp.cells ≠ [] ∧ sp.cells.Nodup)
  ∧ List.Pairwise (fun s1 s2 => ∀ q ∈ s1.cells, q ∉ s2.cells) placements

theorem place_constraints_loop_ok (board_points : Finset Point)
    (shapes : List PolyShape) (selection : ConstraintSelection) (target : Nat) :
    ∀ (att : Nat) (occupied : Finset Point)
      (placements : List ConstraintSpec) (rng : SimpleRng),
      PCInv board_points occupied placements →
      PCInv board_points
        (place_constraints_loop board_points shapes selection target att
          occupied placements rng).2.1
        (place_constraints_loop board_points shapes selection target att
          occupied placements rng).1 := by
  intro att
  induction att with
  | zero =>
      intro occupied placements rng hinv
      exact hinv
  | succ n ih =>
      intro occupied placements rng hinv
      rw [place_constraints_loop]
      by_cases hlt : occupied.card < target
      · rw [if_pos hlt]
        rcases hfr : find_constraint_placement board_points occupied shapes
            selection rng with ⟨ospec, gr⟩
        rcases ospec with _ | spec <;> dsimp only
        · exact hinv
        · obtain ⟨cells, hcc⟩ := find_constraint_placement_ok board_points
            occupied shapes selection rng spec gr hfr
          obtain ⟨hcells, hboard, hnd⟩ := constraint_cells_ok board_points
            occupied spec.anchor _ cells
            (orientations_getD_nodup spec.shape spec.orientation_index) hcc
          have hcellsC : spec.cells = cells := by
            rw [ConstraintSpec.cells, specCellsList, hcells]
          by_cases hz : ((specCellsList spec.shape spec.anchor
              spec.orientation_index).filter (fun c => c ∉ occupied)).length = 0
          · rw [if_pos hz]
            exact ih occupied placements gr hinv
          · rw [if_neg hz]
            apply ih
            obtain ⟨hall, hpw⟩ := hinv
            constructor
            · intro sp hsp
              rcases List.mem_append.1 hsp with hsp1 | hsp2
              · obtain ⟨hin, hne, hnd2⟩ := hall sp hsp1
                exact ⟨fun q hq => ⟨(hin q hq).1,
                  Finset.mem_union_left _ (hin q hq).2⟩, hne, hnd2⟩
              · rw [List.mem_singleton] at hsp2
                subst hsp2
                refine ⟨?_, ?_, by rw [hcellsC]; exact hnd⟩
                · intro q hq
                  have hq' : q ∈ cells := by rw [← hcellsC]; exact hq
                  refine ⟨(hboard q hq').1, Finset.mem_union_right _ ?_⟩
                  exact List.mem_toFinset.2 hq
                · intro hcon
                  apply hz
                  rw [show specCellsList sp.shape sp.anchor
                      sp.orientation_index = sp.cells from rfl, hcon]
                  rfl
            · rw [List.pairwise_append]
              refine ⟨hpw, List.pairwise_singleton _ _, ?_⟩
              intro s1 hs1 s2 hs2 q hq
              rw [List.mem_singleton] at hs2
              subst hs2
              have hqo := ((hall s1 hs1).1 q hq).2
              intro hqc
              have hqc' : q ∈ cells := by rw [← hcellsC]; exact hqc
              exact (hboard q hqc').2 hqo
      · rw [if_neg hlt]
        exact hinv

theorem place_constraints_ok (board_points : Finset Point)
    (config : GeneratorConfig) (rng : SimpleRng)
    (specs : List ConstraintSpec) (rng' : SimpleRng)
    (h : place_constraints board_points config rng = (.ok specs, rng')) :
    (∀ sp ∈ specs,
      (∀ q ∈ sp.cells, q ∈ board_points)
      ∧ sp.cells ≠ [] ∧ sp.cells.Nodup)
    ∧ List.Pairwise (fun s1 s2 => ∀ q ∈ s1.cells, q ∉ s2.cells) specs := by
  rw [place_constraints] at h
  rcases hcr : config.constraint_rule with _ | shapes <;> rw [hcr] at h
  · injection h with h1 _
    injection h1 with h1'
    subst h1'
    exact ⟨fun sp hsp => absurd hsp (List.not_mem_nil sp), List.Pairwise.nil⟩
  · dsimp only at h
    by_cases h0 : shapes.isEmpty = true ∨ config.coverage_pos = false
    · rw [if_pos h0] at h
      injection h with h1 _
      injection h1 with h1'
      subst h1'
      exact ⟨fun sp hsp => absurd hsp (List.not_mem_nil sp), List.Pairwise.nil⟩
    · rw [if_neg h0] at h
      by_cases ht : min config.coverage_cells board_points.card = 0
      · rw [if_pos ht] at h
        injection h with h1 _
        injection h1 with h1'
        subst h1'
        exact ⟨fun sp hsp => absurd hsp (List.not_mem_nil sp), List.Pairwise.nil⟩
      · rw [if_neg ht] at h
        have hinv := place_constraints_loop_ok board_points shapes
          config.selection (min config.coverage_cells board_points.card)
          (board_points.card * 50) ∅ [] rng
          ⟨fun sp hsp => absurd hsp (List.not_mem_nil sp), List.Pairwise.nil⟩
        by_cases hlt : (place_constraints_loop board_points shapes
            config.selection (min config.coverage_cells board_points.card)
            (board_points.card * 50) ∅ [] rng).2.1.card <
            min config.coverage_cells board_points.card
        · rw [if_pos hlt] at h
          exact absurd (congrArg Prod.fst h) (by simp)
        · rw [if_neg hlt] at h
          injection h with h1 _
          injection h1 with h1'
          subst h1'
          obtain ⟨hall, hpw⟩ := hinv
          exact ⟨fun sp hsp =>
            ⟨fun q hq => ((hall sp hsp).1 q hq).1,
              (hall sp hsp).2.1, (hall sp hsp).2.2⟩, hpw⟩

end GC

namespace GC

theorem cons_set_perm {α : Type} (x b : α) :
    ∀ (xs : List α) (m : Nat), xs.get? m = some b →
      (b :: xs.set m x).Perm (x :: xs) := by
  intro xs
  induction xs with
  | nil =>
      intro m h
      exact absurd h (by simp)
  | cons y t ih =>
      intro m h
      cases m with
      | zero =>
          injection h with h'
          subst h'
          exact List.Perm.swap x y t
      | succ m =>
          have h' : t.get? m = some b := by simpa using h
          have s1 : (b :: y :: t.set m x).Perm (y :: b :: t.set m x) :=
            List.Perm.swap y b _
          have s3 : (y :: b :: t.set m x).Perm (y :: x :: t) :=
            (ih m h').cons y
          have s4 : (y :: x :: t).Perm (x :: y :: t) := List.Perm.swap x y t
          exact (s1.trans s3).trans s4

theorem swapIdx_perm {α : Type} :
    ∀ (l : List α) (i j : Nat), (swapIdx l i j).Perm l := by
  intro l
  induction l with
  | nil =>
      intro i j
      rw [swapIdx]
      cases i <;> simp
  | cons x xs ih =>
      intro i j
      rw [swapIdx]
      rcases hi : (x :: xs).get? i with _ | a
      · exact List.Perm.refl _
      rcases hj : (x :: xs).get? j with _ | b
      · exact List.Perm.refl _
      cases i with
      | zero =>
          injection hi with hi'
          subst hi'
          cases j with
          | zero =>
              injection hj with hj'
              subst hj'
              exact List.Perm.refl _
          | succ m =>
              exact cons_set_perm x b xs m (by simpa using hj)
      | succ n =>
          cases j with
          | zero =>
              injection hj with hj'
              subst hj'
              exact cons_set_perm x a xs n (by simpa using hi)
          | succ m =>
              have hperm := ih n m
              rw [swapIdx, show xs.get? n = some a from by simpa using hi,
                show xs.get? m = some b from by simpa using hj] at hperm
              exact hperm.cons x

theorem shuffleGo_perm {α : Type} :
    ∀ (n : Nat) (l : List α) (rng : SimpleRng),
      (shuffleGo n l rng).1.Perm l := by
  intro n
  induction n with
  | zero =>
      intro l rng
      exact List.Perm.refl l
  | succ i ih =>
      intro l rng
      rw [shuffleGo]
      exact (ih _ _).trans (swapIdx_perm l (i + 1) _)

theorem shuffle_perm {α : Type} (rng : SimpleRng) (l : List α) :
    (rng.shuffle l).1.Perm l :=
  shuffleGo_perm _ l rng

theorem random_pip_le (rng : SimpleRng) : (random_pip rng).1 ≤ 6 := by
  rw [random_pip, SimpleRng.gen_range_inclusive]
  dsimp only
  simp only [pipsMAX]
  omega

theorem gen_range_usize_le (rng : SimpleRng) (hi : Nat) :
    (rng.gen_range_usize 0 hi).1 ≤ hi := by
  rw [SimpleRng.gen_range_usize]
  dsimp only
  by_cases h : hi - 0 = 0
  · rw [if_pos h]
    omega
  · rw [if_neg h]
    dsimp only
    have := Nat.mod_lt (rng.next_u64).1 (show 0 < hi - 0 + 1 by omega)
    omega

theorem random_assignment_ok :
    ∀ (points : List Point) (rng : SimpleRng),
      ((random_assignment points rng).1.map Prod.fst = points)
      ∧ ∀ e ∈ (random_assignment points rng).1, e.2 ≤ 6 := by
  intro points
  induction points with
  | nil =>
      intro rng
      exact ⟨rfl, fun e he => absurd he (List.not_mem_nil e)⟩
  | cons p rest ih =>
      intro rng
      rw [random_assignment]
      obtain ⟨ih1, ih2⟩ := ih (random_pip rng).2
      refine ⟨by simp [ih1], ?_⟩
      intro e he
      rcases List.mem_cons.1 he with rfl | hmem
      · exact random_pip_le rng
      · exact ih2 e hmem

end GC

namespace GC

theorem zip_values_distinct :
    ∀ (keys : List Point) (vals : List Nat), keys.Nodup → vals.Nodup →
      ∀ (p q : Point) (vp vq : Nat),
        (p, vp) ∈ keys.zip vals → (q, vq) ∈ keys.zip vals → p ≠ q → vp ≠ vq := by
  intro keys
  induction keys with
  | nil =>
      intro vals _ _ p q vp vq hp
      simp at hp
  | cons k ks ih =>
      intro vals hk hv p q vp vq hp hq hpq
      cases vals with
      | nil => simp at hp
      | cons v vs =>
          rw [List.zip_cons_cons, List.mem_cons] at hp hq
          rcases hp with hp1 | hp2 <;> rcases hq with hq1 | hq2
          · injection hp1 with hpa hpb
            injection hq1 with hqa hqb
            exact absurd (hpa.trans hqa.symm) hpq
          · injection hp1 with hpa hpb
            subst hpa
            subst hpb
            have hv2 := (List.of_mem_zip hq2).2
            have := (List.nodup_cons.1 hv).1
            intro hcon
            rw [hcon] at this
            exact this hv2
          · injection hq1 with hqa hqb
            subst hqa
            subst hqb
            have hv2 := (List.of_mem_zip hp2).2
            have := (List.nodup_cons.1 hv).1
            intro hcon
            rw [← hcon] at this
            exact this hv2
          · exact ih vs (List.nodup_cons.1 hk).2 (List.nodup_cons.1 hv).2
              p q vp vq hp2 hq2 hpq

theorem list_sum_eq_finset_sum (μ : Point → Nat) :
    ∀ (l : List Point), l.Nodup → (l.map μ).sum = ∑ p ∈ l.toFinset, μ p := by
  intro l
  induction l with
  | nil => intro _; simp
  | cons p rest ih =>
      intro hnd
      obtain ⟨hp, hnd'⟩ := List.nodup_cons.1 hnd
      rw [List.map_cons, List.sum_cons, List.toFinset_cons,
        Finset.sum_insert (by simpa using hp), ih hnd']

theorem asg_snd_sum (μ : Point → Nat) (asg : List (Point × Nat))
    (points : List Point) (hfst : asg.map Prod.fst = points)
    (hag : ∀ e ∈ asg, μ e.1 = e.2) (hnd : points.Nodup) :
    (asg.map Prod.snd).sum = ∑ p ∈ points.toFinset, μ p := by
  have h1 : asg.map Prod.snd = points.map μ := by
    rw [← hfst, List.map_map]
    apply List.map_congr_left
    intro e he
    exact (hag e he).symm
  rw [h1, list_sum_eq_finset_sum μ points hnd]

theorem lessThanLoop_ok (points : List Point) (pset : Finset Point) :
    ∀ (fuel : Nat) (rng : SimpleRng) (c : Constraint)
      (asg : List (Point × Nat)) (rng' : SimpleRng),
      lessThanLoop points pset fuel rng = (.ok (c, asg), rng') →
      asg.map Prod.fst = points ∧ (∀ e ∈ asg, e.2 ≤ 6)
      ∧ ∃ t, c = .LessThan t pset ∧ (asg.map Prod.snd).sum < t := by
  intro fuel
  induction fuel with
  | zero =>
      intro rng c asg rng' h
      exact absurd (congrArg Prod.fst h) (by simp [lessThanLoop])
  | succ n ih =>
      intro rng c asg rng' h
      rw [lessThanLoop] at h
      by_cases hs : ((random_assignment points rng).1.map Prod.snd).sum <
          points.length * pipsMAX
      · rw [if_pos hs] at h
        injection h with h1 _
        injection h1 with h1'
        injection h1' with hc hasg
        subst hc
        subst hasg
        obtain ⟨hfst, hle⟩ := random_assignment_ok points rng
        exact ⟨hfst, hle, _, rfl, by omega⟩
      · rw [if_neg hs] at h
        exact ih _ c asg rng' h

theorem moreThanLoop_ok (points : List Point) (pset : Finset Point) :
    ∀ (fuel : Nat) (rng : SimpleRng) (c : Constraint)
      (asg : List (Point × Nat)) (rng' : SimpleRng),
      moreThanLoop points pset fuel rng = (.ok (c, asg), rng') →
      asg.map Prod.fst = points ∧ (∀ e ∈ asg, e.2 ≤ 6)
      ∧ ∃ t, c = .MoreThan t pset ∧ t < (asg.map Prod.snd).sum := by
  intro fuel
  induction fuel with
  | zero =>
      intro rng c asg rng' h
      exact absurd (congrArg Prod.fst h) (by simp [moreThanLoop])
  | succ n ih =>
      intro rng c asg rng' h
      rw [moreThanLoop] at h
      by_cases hs : 0 < ((random_assignment points rng).1.map Prod.snd).sum
      · rw [if_pos hs] at h
        injection h with h1 _
        injection h1 with h1'
        injection h1' with hc hasg
        subst hc
        subst hasg
        obtain ⟨hfst, hle⟩ := random_assignment_ok points rng
        refine ⟨hfst, hle, _, rfl, ?_⟩
        have := gen_range_usize_le (random_assignment points rng).2
          (((random_assignment points rng).1.map Prod.snd).sum - 1)
        omega
      · rw [if_neg hs] at h
        exact ih _ c asg rng' h

theorem build_constraint_ok (points : List Point) (kind : ConstraintKind)
    (rng : SimpleRng) (c : Constraint) (asg : List (Point × Nat))
    (rng' : SimpleRng) (hnd : points.Nodup)
    (h7 : kind = .AllDifferent → points.length ≤ 7)
    (h : build_constraint points kind rng = (.ok (c, asg), rng')) :
    c.points = points.toFinset
    ∧ asg.map Prod.fst = points
    ∧ (∀ e ∈ asg, e.2 ≤ 6)
    ∧ ∀ μ : Point → Nat, (∀ e ∈ asg, μ e.1 = e.2) → TruthfulGC μ c := by
  cases kind with
  | AllSame =>
      rw [build_constraint] at h
      injection h with h1 _
      injection h1 with h1'
      injection h1' with hc hasg
      subst hc
      subst hasg
      refine ⟨rfl, by
        rw [List.map_map, show (Prod.fst ∘ fun p => (p, (random_pip rng).1)) =
          (id : Point → Point) from rfl, List.map_id], ?_, ?_⟩
      · intro e he
        obtain ⟨p, _, rfl⟩ := List.mem_map.1 he
        exact random_pip_le rng
      · intro μ hag
        refine ⟨(random_pip rng).1, rfl, ?_⟩
        intro p hp
        exact hag (p, (random_pip rng).1)
          (List.mem_map.2 ⟨p, List.mem_toFinset.1 hp, rfl⟩)
  | AllDifferent =>
      rw [build_constraint] at h
      injection h with h1 _
      injection h1 with h1'
      injection h1' with hc hasg
      subst hc
      subst hasg
      have hperm := shuffle_perm rng [0, 1, 2, 3, 4, 5, 6]
      have hvnd : (rng.shuffle [0, 1, 2, 3, 4, 5, 6]).1.Nodup :=
        hperm.nodup_iff.2 (by decide)
      have hvlen : (rng.shuffle [0, 1, 2, 3, 4, 5, 6]).1.length = 7 :=
        hperm.length_eq.trans rfl
      have hvle : ∀ v ∈ (rng.shuffle [0, 1, 2, 3, 4, 5, 6]).1, v ≤ 6 := by
        intro v hv
        have := hperm.mem_iff.1 hv
        simp at this
        omega
      have hlen : points.length ≤ (rng.shuffle [0, 1, 2, 3, 4, 5, 6]).1.length := by
        rw [hvlen]
        exact h7 rfl
      have hfst : (points.zip (rng.shuffle [0, 1, 2, 3, 4, 5, 6]).1).map
          Prod.fst = points := List.map_fst_zip _ _ hlen
      refine ⟨rfl, hfst, ?_, ?_⟩
      · intro e he
        exact hvle e.2 (List.of_mem_zip (by rwa [show (e.1, e.2) = e from rfl]
          : (e.1, e.2) ∈ _)).2
      · intro μ hag
        refine ⟨?_, ?_⟩
        · intro p _
          exact Finset.not_mem_empty (μ p)
        · intro p hp q hq hpq
          have hp' : p ∈ points := List.mem_toFinset.1 hp
          have hq' : q ∈ points := List.mem_toFinset.1 hq
          have hp2 : ∃ vp, (p, vp) ∈
              points.zip (rng.shuffle [0, 1, 2, 3, 4, 5, 6]).1 := by
            rw [← hfst] at hp'
            obtain ⟨e, he, he1⟩ := List.mem_map.1 hp'
            exact ⟨e.2, by rw [← he1]; exact he⟩
          have hq2 : ∃ vq, (q, vq) ∈
              points.zip (rng.shuffle [0, 1, 2, 3, 4, 5, 6]).1 := by
            rw [← hfst] at hq'
            obtain ⟨e, he, he1⟩ := List.mem_map.1 hq'
            exact ⟨e.2, by rw [← he1]; exact he⟩
          obtain ⟨vp, hvp⟩ := hp2
          obtain ⟨vq, hvq⟩ := hq2
          have hμp : μ p = vp := hag (p, vp) hvp
          have hμq : μ q = vq := hag (q, vq) hvq
          rw [hμp, hμq]
          exact zip_values_distinct points _ hnd hvnd p q vp vq hvp hvq hpq
  | Exactly =>
      rw [build_constraint] at h
      injection h with h1 _
      injection h1 with h1'
      injection h1' with hc hasg
      subst hc
      subst hasg
      obtain ⟨hfst, hle⟩ := random_assignment_ok points rng
      refine ⟨rfl, hfst, hle, ?_⟩
      intro μ hag
      show _ = ∑ p ∈ points.toFinset, μ p
      exact asg_snd_sum μ _ points hfst hag hnd
  | LessThan =>
      rw [build_constraint] at h
      obtain ⟨hfst, hle, t, hc, hlt⟩ := lessThanLoop_ok points points.toFinset
        resampleFUEL rng c asg rng' h
      subst hc
      refine ⟨rfl, hfst, hle, ?_⟩
      intro μ hag
      show (∑ p ∈ points.toFinset, μ p) < t
      rw [← asg_snd_sum μ asg points hfst hag hnd]
      exact hlt
  | MoreThan =>
      rw [build_constraint] at h
      obtain ⟨hfst, hle, t, hc, hlt⟩ := moreThanLoop_ok points points.toFinset
        resampleFUEL rng c asg rng' h
      subst hc
      refine ⟨rfl, hfst, hle, ?_⟩
      intro μ hag
      show t < ∑ p ∈ points.toFinset, μ p
      rw [← asg_snd_sum μ asg points hfst hag hnd]
      exact hlt

end GC

namespace GC

theorem foldl_prepend_eq_reverse_append {α : Type} :
    ∀ (l acc : List α), l.foldl (fun m e => e :: m) acc = l.reverse ++ acc := by
  intro l
  induction l with
  | nil => intro acc; simp
  | cons x xs ih =>
      intro acc
      rw [List.foldl_cons, ih (x :: acc), List.reverse_cons, List.append_assoc]
      rfl

theorem keys_nodup_unique :
    ∀ (l : List (Point × Nat)), (l.map Prod.fst).Nodup →
      ∀ (q : Point) (v w : Nat), (q, v) ∈ l → (q, w) ∈ l → v = w := by
  intro l
  induction l with
  | nil =>
      intro _ q v w h1
      exact absurd h1 (List.not_mem_nil _)
  | cons e rest ih =>
      intro hnd q v w h1 h2
      rw [List.map_cons, List.nodup_cons] at hnd
      rcases List.mem_cons.1 h1 with h1e | hm1 <;>
        rcases List.mem_cons.1 h2 with h2e | hm2
      · simpa using h1e.trans h2e.symm
      · exfalso
        apply hnd.1
        rw [← h1e]
        exact List.mem_map.2 ⟨(q, w), hm2, rfl⟩
      · exfalso
        apply hnd.1
        rw [← h2e]
        exact List.mem_map.2 ⟨(q, v), hm1, rfl⟩
      · exact ih hnd.2 q v w hm1 hm2

theorem pipsLookup_of_mem (l : List (Point × Nat))
    (hnd : (l.map Prod.fst).Nodup) (q : Point) (v : Nat)
    (hmem : (q, v) ∈ l) : pipsLookup l q = some v := by
  rw [pipsLookup]
  have hsome : (l.find? (fun e => e.1 = q)).isSome := by
    rw [List.find?_isSome]
    exact ⟨(q, v), hmem, by simp⟩
  obtain ⟨e, he⟩ := Option.isSome_iff_exists.1 hsome
  have hpred := List.find?_some he
  have hememb := List.mem_of_find?_eq_some he
  rw [decide_eq_true_eq] at hpred
  have he2 : e = (q, e.2) := by
    rw [← hpred]
  rw [he2] at hememb
  have := keys_nodup_unique l hnd q e.2 v hememb hmem
  rw [he, he2]
  simp [this]

theorem pipsLookup_of_not_mem_keys (l : List (Point × Nat)) (q : Point)
    (h : ∀ v, (q, v) ∉ l) (m : List (Point × Nat)) :
    pipsLookup (l ++ m) q = pipsLookup m q := by
  rw [pipsLookup, pipsLookup, List.find?_append]
  have hnone : l.find? (fun e => e.1 = q) = none := by
    rw [List.find?_eq_none]
    intro e he
    rw [decide_eq_true_eq]
    intro hcon
    exact h e.2 (by rw [← hcon]; exact he)
  rw [hnone]
  rfl

end GC


namespace GC

theorem pipsLookup_append_left (l m : List (Point × Nat)) (q : Point) (v : Nat)
    (h : pipsLookup l q = some v) : pipsLookup (l ++ m) q = some v := by
  rw [pipsLookup] at h ⊢
  rw [List.find?_append]
  rcases hf : l.find? (fun e => e.1 = q) with _ | ent <;> rw [hf] at h
  · exact Option.noConfusion h
  · rw [hf]
    exact h

theorem choices4_getD_ne (i : Nat) :
    ([ConstraintKind.AllSame, .Exactly, .LessThan,
      .MoreThan].getD i .AllSame) ≠ .AllDifferent := by
  match i with
  | 0 => decide
  | 1 => decide
  | 2 => decide
  | 3 => decide
  | n + 4 => rw [List.getD_eq_default _ _ (by simp)]; decide

theorem generate_constraint_ok (points : List Point) (rng : SimpleRng)
    (c : Constraint) (asg : List (Point × Nat)) (rng' : SimpleRng)
    (hnd : points.Nodup)
    (h : generate_constraint points rng = (.ok (c, asg), rng')) :
    c.points = points.toFinset ∧ asg.map Prod.fst = points
    ∧ (∀ e ∈ asg, e.2 ≤ 6)
    ∧ ∀ μ : Point → Nat, (∀ e ∈ asg, μ e.1 = e.2) → TruthfulGC μ c := by
  rw [generate_constraint] at h
  by_cases hcond : points.length > 1 ∧ points.length ≤ pipsMAX + 1
  · rw [if_pos hcond] at h
    refine build_constraint_ok points _ _ c asg rng' hnd ?_ h
    intro _
    have := hcond.2
    simp only [pipsMAX] at this
    omega
  · rw [if_neg hcond] at h
    refine build_constraint_ok points _ _ c asg rng' hnd ?_ h
    intro hk
    exact absurd hk (choices4_getD_ne _)

theorem assign_constraints_go_ok :
    ∀ (specs : List ConstraintSpec) (cs0 : List Constraint)
      (pips0 : List (Point × Nat)) (rng : SimpleRng)
      (cs : List Constraint) (pips : List (Point × Nat)) (rng' : SimpleRng),
      assign_constraints_go specs cs0 pips0 rng = (.ok (cs, pips), rng') →
      (∀ sp ∈ specs, sp.cells.Nodup) →
      List.Pairwise (fun s1 s2 => ∀ q ∈ s1.cells, q ∉ s2.cells) specs →
      (∃ newE : List (Point × Nat), pips = newE ++ pips0
        ∧ ∀ e ∈ newE, e.2 ≤ 6 ∧ ∃ sp ∈ specs, e.1 ∈ sp.cells)
      ∧ ∀ c ∈ cs, c ∈ cs0 ∨ ∃ sp ∈ specs,
          c.points = sp.cells.toFinset
          ∧ (∀ q ∈ sp.cells, (pipsLookup pips q).isSome)
          ∧ ∀ μ : Point → Nat,
              (∀ q ∈ sp.cells, μ q = (pipsLookup pips q).getD 0) →
              TruthfulGC μ c := by
  intro specs
  induction specs with
  | nil =>
      intro cs0 pips0 rng cs pips rng' h _ _
      rw [assign_constraints_go] at h
      injection h with h1 _
      injection h1 with h1'
      injection h1' with hcs hpips
      subst hcs
      subst hpips
      exact ⟨⟨[], rfl, fun e he => absurd he (List.not_mem_nil e)⟩,
        fun c hc => Or.inl hc⟩
  | cons spec rest ih =>
      intro cs0 pips0 rng cs pips rng' h hndall hpw
      rw [assign_constraints_go] at h
      rcases hgr : generate_constraint
          (specCellsList spec.shape spec.anchor spec.orientation_index) rng
        with ⟨egr, g1⟩
      rw [hgr] at h
      rcases egr with e | cpair <;> dsimp only at h
      · exact absurd (congrArg Prod.fst h) (by simp)
      · rcases cpair with ⟨c0, asg0⟩
        have hnd0 : spec.cells.Nodup := hndall spec (List.mem_cons_self _ _)
        obtain ⟨hcpts, hfst, hvle, htruth⟩ := generate_constraint_ok
          spec.cells rng c0 asg0 g1 hnd0 hgr
        rw [foldl_prepend_eq_reverse_append asg0 pips0] at h
        obtain ⟨⟨newE, hpips, hnewE⟩, hcs⟩ := ih (cs0 ++ [c0])
          (asg0.reverse ++ pips0) _ cs pips rng' h
          (fun sp hsp => hndall sp (List.mem_cons_of_mem _ hsp))
          hpw.of_cons
        have hkeys_rev : (asg0.reverse.map Prod.fst).Nodup := by
          rw [List.map_reverse]
          exact List.nodup_reverse.2 (hfst ▸ hnd0)
        have hlook : ∀ q ∈ spec.cells, ∃ v, pipsLookup pips q = some v
            ∧ (q, v) ∈ asg0 := by
          intro q hq
          have hqmap : q ∈ asg0.map Prod.fst := by
            rw [hfst]
            exact hq
          obtain ⟨e2, he2, he21⟩ := List.mem_map.1 hqmap
          have hv : (q, e2.2) ∈ asg0 := by
            rw [← he21]
            exact he2
          have hq_not_newE : ∀ w, (q, w) ∉ newE := by
            intro w hcon
            obtain ⟨_, sp2, hsp2, hq2⟩ := hnewE (q, w) hcon
            exact (List.rel_of_pairwise_cons hpw hsp2) q hq hq2
          rw [hpips, pipsLookup_of_not_mem_keys newE q hq_not_newE]
          refine ⟨e2.2, ?_, hv⟩
          exact pipsLookup_append_left _ pips0 q e2.2
            (pipsLookup_of_mem asg0.reverse hkeys_rev q e2.2
              (List.mem_reverse.2 hv))
        refine ⟨⟨newE ++ asg0.reverse, by rw [hpips, List.append_assoc], ?_⟩, ?_⟩
        · intro e he
          rcases List.mem_append.1 he with he1 | he2
          · obtain ⟨hle, sp2, hsp2, hq2⟩ := hnewE e he1
            exact ⟨hle, sp2, List.mem_cons_of_mem _ hsp2, hq2⟩
          · have he3 : e ∈ asg0 := List.mem_reverse.1 he2
            refine ⟨hvle e he3, spec, List.mem_cons_self _ _, ?_⟩
            rw [show spec.cells = asg0.map Prod.fst from hfst.symm]
            exact List.mem_map.2 ⟨e, he3, rfl⟩
        · intro c hc
          rcases hcs c hc with hc0 | ⟨sp2, hsp2, hP⟩
          · rcases List.mem_append.1 hc0 with hcc | hcc
            · exact Or.inl hcc
            · rw [List.mem_singleton] at hcc
              subst hcc
              refine Or.inr ⟨spec, List.mem_cons_self _ _, hcpts, ?_, ?_⟩
              · intro q hq
                obtain ⟨v, hl, _⟩ := hlook q hq
                rw [hl]
                rfl
              · intro μ hag
                apply htruth
                intro e he
                have hq : e.1 ∈ spec.cells := by
                  rw [show spec.cells = asg0.map Prod.fst from hfst.symm]
                  exact List.mem_map.2 ⟨e, he, rfl⟩
                obtain ⟨v, hl, hv'⟩ := hlook e.1 hq
                have hveq : v = e.2 := keys_nodup_unique asg0 (hfst ▸ hnd0)
                  e.1 v e.2 hv' (by
                    rw [show (e.1, e.2) = e from rfl]
                    exact he)
                rw [hag e.1 hq, hl]
                simp [hveq]
          · exact Or.inr ⟨sp2, List.mem_cons_of_mem _ hsp2, hP⟩

end GC

namespace GC

theorem pipsLookup_cons (p : Point) (w : Nat) (l : List (Point × Nat))
    (q : Point) :
    pipsLookup ((p, w) :: l) q = if p = q then some w else pipsLookup l q := by
  rw [pipsLookup, pipsLookup]
  by_cases hpq : p = q
  · rw [List.find?_cons_of_pos _ (by simpa using hpq), if_pos hpq]
    rfl
  · rw [List.find?_cons_of_neg _ (by simpa using hpq), if_neg hpq]

theorem pipsLookup_mem (l : List (Point × Nat)) (q : Point) (v : Nat)
    (h : pipsLookup l q = some v) : (q, v) ∈ l := by
  rw [pipsLookup] at h
  rcases hf : l.find? (fun e => e.1 = q) with _ | e <;> rw [hf] at h
  · exact Option.noConfusion h
  · have hmem := List.mem_of_find?_eq_some hf
    have hkey : e.1 = q := by simpa using List.find?_some hf
    have hval : e.2 = v := by
      injection h with h'
    have : (q, v) = e := by
      rw [← hkey, ← hval]
    rw [this]
    exact hmem

theorem fill_remaining_cells_preserves (board_points : Finset Point)
    (pips : List (Point × Nat)) (rng : SimpleRng) :
    (∀ q v, pipsLookup pips q = some v →
      pipsLookup (fill_remaining_cells board_points pips rng).1 q = some v)
    ∧ ∀ e ∈ (fill_remaining_cells board_points pips rng).1,
        e ∈ pips ∨ e.2 ≤ 6 := by
  rw [fill_remaining_cells]
  generalize sortedPointsOf board_points.card board_points = pts
  induction pts generalizing pips rng with
  | nil => exact ⟨fun q v h => h, fun e he => Or.inl he⟩
  | cons p ps ih =>
      rw [List.foldl_cons]
      dsimp only
      rcases hl : pipsLookup pips p with _ | w
      · dsimp only
        obtain ⟨ihp, ihm⟩ := ih ((p, (random_pip rng).1) :: pips) (random_pip rng).2
        refine ⟨?_, ?_⟩
        · intro q v hq
          apply ihp
          rw [pipsLookup_cons]
          have hpq : p ≠ q := by
            intro hc
            rw [hc, hq] at hl
            exact Option.noConfusion hl
          rw [if_neg hpq]
          exact hq
        · intro e he
          rcases ihm e he with he1 | he2
          · rcases List.mem_cons.1 he1 with he3 | he4
            · refine Or.inr ?_
              rw [he3]
              exact random_pip_le rng
            · exact Or.inl he4
          · exact Or.inr he2
      · dsimp only
        exact ih pips rng

end GC

namespace GC

theorem foldlM_lookup (pips : List (Point × Nat)) :
    ∀ (cells : List Point) (acc out : List Nat),
      cells.foldlM
        (fun acc pt =>
          match pipsLookup pips pt with
          | some v => some (acc ++ [v])
          | none => none) acc = some out →
      out = acc ++ cells.map (fun pt => (pipsLookup pips pt).getD 0) := by
  intro cells
  induction cells with
  | nil =>
      intro acc out h
      rw [List.foldlM_nil] at h
      injection h with h'
      rw [← h', List.map_nil, List.append_nil]
  | cons pt rest ih =>
      intro acc out h
      rw [List.foldlM_cons] at h
      rcases hl : pipsLookup pips pt with _ | v
      · rw [hl] at h
        exact absurd h (by simp)
      · rw [hl] at h
        dsimp only at h
        rw [show ((some (acc ++ [v]) >>= fun b =>
            List.foldlM (fun acc pt =>
              match pipsLookup pips pt with
              | some v => some (acc ++ [v])
              | none => none) b rest) = List.foldlM (fun acc pt =>
              match pipsLookup pips pt with
              | some v => some (acc ++ [v])
              | none => none) (acc ++ [v]) rest) from rfl] at h
        rw [ih (acc ++ [v]) out h, List.map_cons, hl]
        rw [List.append_assoc]
        rfl

theorem materialize_pieces_ok :
    ∀ (specs : List PlacementSpec) (pips : List (Point × Nat))
      (pieces : List Piece) (pls : List Placement),
      materialize_pieces specs pips = .ok (pieces, pls) →
      pieces = pls.map Placement.piece
      ∧ pls.map Placement.cellsList = specs.map PlacementSpec.cells
      ∧ ∀ pl ∈ pls, pl.pip_order
          = pl.cellsList.map (fun pt => (pipsLookup pips pt).getD 0) := by
  intro specs
  induction specs with
  | nil =>
      intro pips pieces pls h
      rw [materialize_pieces] at h
      injection h with h'
      injection h' with h1 h2
      subst h1
      subst h2
      exact ⟨rfl, rfl, fun pl hpl => absurd hpl (List.not_mem_nil pl)⟩
  | cons spec rest ih =>
      intro pips pieces pls h
      rw [materialize_pieces] at h
      rcases hfo : (specCellsList spec.shape spec.anchor
          spec.orientation_index).foldlM
          (fun acc pt =>
            match pipsLookup pips pt with
            | some v => some (acc ++ [v])
            | none => none) [] with _ | pip_order
      · rw [hfo] at h
        exact Except.noConfusion h
      · rw [hfo] at h
        dsimp only at h
        rcases hpn : Piece.new spec.shape pip_order with e | piece
        · rw [hpn] at h
          exact Except.noConfusion h
        · rw [hpn] at h
          dsimp only at h
          rcases hm : materialize_pieces rest pips with e | r
          · rw [hm] at h
            exact Except.noConfusion h
          · rw [hm] at h
            dsimp only at h
            injection h with h'
            injection h' with h1 h2
            subst h1
            subst h2
            have hpe : piece = ⟨spec.shape, pip_order⟩ := by
              rw [Piece.new] at hpn
              by_cases hc : pip_order.length = spec.shape.cellCount
              · rw [if_pos hc] at hpn
                injection hpn with h''
                exact h''.symm
              · rw [if_neg hc] at hpn
                exact Except.noConfusion hpn
            obtain ⟨ih1, ih2, ih3⟩ := ih pips r.1 r.2 (by rw [hm])
            have hcells :
                Placement.cellsList
                  ⟨piece, spec.anchor, spec.orientation_index, pip_order⟩
                  = spec.cells := by
              subst hpe
              rfl
            refine ⟨?_, ?_, ?_⟩
            · rw [List.map_cons, ih1]
            · rw [List.map_cons, List.map_cons, hcells, ih2]
            · intro pl hpl
              rcases List.mem_cons.1 hpl with hpl1 | hpl2
              · subst hpl1
                have hpo := foldlM_lookup pips _ [] pip_order hfo
                rw [List.nil_append] at hpo
                show pip_order = _
                rw [hcells]
                exact hpo
              · exact ih3 pl hpl2

end GC

namespace GC

theorem pairwise_transfer {α β : Type} (f : α → List Point)
    (g : β → List Point) :
    ∀ (l1 : List α) (l2 : List β), l1.map f = l2.map g →
      List.Pairwise (fun a b => ∀ q ∈ f a, q ∉ f b) l1 →
      List.Pairwise (fun a b => ∀ q ∈ g a, q ∉ g b) l2 := by
  intro l1
  induction l1 with
  | nil =>
      intro l2 h _
      cases l2 with
      | nil => exact List.Pairwise.nil
      | cons b bs => exact absurd h (by simp)
  | cons a as ih =>
      intro l2 h hpw
      cases l2 with
      | nil => exact absurd h (by simp)
      | cons b bs =>
          rw [List.map_cons, List.map_cons] at h
          injection h with h1 h2
          obtain ⟨hhead, htail⟩ := List.pairwise_cons.1 hpw
          refine List.pairwise_cons.2 ⟨?_, ih bs h2 htail⟩
          intro b' hb'
          have hgb' : g b' ∈ List.map g bs := List.mem_map.2 ⟨b', hb', rfl⟩
          rw [← h2] at hgb'
          obtain ⟨a', ha', hfa'⟩ := List.mem_map.1 hgb'
          intro q hq
          rw [← hfa']
          apply hhead a' ha'
          rw [h1]
          exact hq

theorem tile_unlimited_ok (board_points : Finset Point)
    (shapes : List PolyShape) (rng : SimpleRng)
    (specs : List PlacementSpec) (rng' : SimpleRng)
    (h : tile_unlimited board_points shapes rng = (.ok specs, rng')) :
    (specs.flatMap PlacementSpec.cells).toFinset = board_points
    ∧ List.Pairwise (fun s1 s2 => ∀ q ∈ s1.cells, q ∉ s2.cells) specs := by
  rw [tile_unlimited] at h
  by_cases h1 : shapes.isEmpty = true
  · rw [if_pos h1] at h
    exact absurd (congrArg Prod.fst h) (by simp)
  · rw [if_neg h1] at h
    dsimp only at h
    by_cases h2 : (shapes.map PolyShape.cellCount).foldl Nat.gcd 0 = 0
        ∨ board_points.card % (shapes.map PolyShape.cellCount).foldl Nat.gcd 0 ≠ 0
    · rw [if_pos h2] at h
      exact absurd (congrArg Prod.fst h) (by simp)
    · rw [if_neg h2] at h
      rcases hb : backtrack_unlimited shapes (board_points.card + 1)
          board_points rng with ⟨ob, g2⟩
      rw [hb] at h
      cases ob with
      | none => exact absurd (congrArg Prod.fst h) (by simp)
      | some s2 =>
          dsimp only at h
          injection h with hl hr
          injection hl with hl'
          subst hl'
          subst hr
          exact backtrack_unlimited_ok shapes _ board_points rng s2 g2 hb

theorem tile_exact_ok (board_points : Finset Point)
    (requirements : List ShapeRequirement) (rng : SimpleRng)
    (specs : List PlacementSpec) (rng' : SimpleRng)
    (h : tile_exact board_points requirements rng = (.ok specs, rng')) :
    (specs.flatMap PlacementSpec.cells).toFinset = board_points
    ∧ List.Pairwise (fun s1 s2 => ∀ q ∈ s1.cells, q ∉ s2.cells) specs := by
  rw [tile_exact] at h
  by_cases h1 : requirements.isEmpty = true
  · rw [if_pos h1] at h
    exact absurd (congrArg Prod.fst h) (by simp)
  · rw [if_neg h1] at h
    by_cases h2 : (requirements.map ShapeRequirement.cell_count).sum
        ≠ board_points.card
    · rw [if_pos h2] at h
      exact absurd (congrArg Prod.fst h) (by simp)
    · rw [if_neg h2] at h
      dsimp only at h
      rcases hb : backtrack_exact (requirements.length + 1) board_points
          (rng.shuffle requirements).1 (rng.shuffle requirements).2
          with ⟨ob, g2⟩
      rw [hb] at h
      cases ob with
      | none => exact absurd (congrArg Prod.fst h) (by simp)
      | some s2 =>
          dsimp only at h
          injection h with hl hr
          injection hl with hl'
          subst hl'
          subst hr
          exact backtrack_exact_ok _ board_points _ _ s2 g2 hb

theorem tile_board_ok (board_points : Finset Point) (rule : PieceRule)
    (rng : SimpleRng) (specs : List PlacementSpec) (rng' : SimpleRng)
    (h : tile_board board_points rule rng = (.ok specs, rng')) :
    (specs.flatMap PlacementSpec.cells).toFinset = board_points
    ∧ List.Pairwise (fun s1 s2 => ∀ q ∈ s1.cells, q ∉ s2.cells) specs := by
  rw [tile_board.eq_def] at h
  rcases rule with shapes | shapes | _
  · exact tile_unlimited_ok board_points shapes rng specs rng' h
  · exact tile_exact_ok board_points _ rng specs rng' h
  · dsimp only at h
    by_cases hc : board_points.card ≠ 60
    · rw [if_pos hc] at h
      exact absurd (congrArg Prod.fst h) (by simp)
    · rw [if_neg hc] at h
      exact tile_exact_ok board_points _ rng specs rng' h

end GC

namespace GC

theorem flatMap_congr_map {α β : Type} (f : α → List Point)
    (g : β → List Point) :
    ∀ (l1 : List α) (l2 : List β), l1.map f = l2.map g →
      l1.flatMap f = l2.flatMap g := by
  intro l1
  induction l1 with
  | nil =>
      intro l2 h
      cases l2 with
      | nil => rfl
      | cons b bs => exact absurd h (by simp)
  | cons a as ih =>
      intro l2 h
      cases l2 with
      | nil => exact absurd h (by simp)
      | cons b bs =>
          rw [List.map_cons, List.map_cons] at h
          injection h with h1 h2
          rw [List.flatMap_cons, List.flatMap_cons, h1, ih bs h2]

end GC

namespace GC

/-- C9: for every generator configuration and seed for which
`generator.rs::generate` returns a puzzle, the emitted game admits at
least one solution — concretely, the generator's own witness placement
list, applied in order via `play` starting from the emitted game, succeeds
at every step and reaches the won state (empty board, pieces, and
constraints), because each generated constraint's target is derived from
the very pip assignment used to label the pieces. -/
theorem generate_sound_C9 (config : GeneratorConfig)
    (puzzle : GeneratedPuzzle) (h : generate config = .ok puzzle) :
    ∃ g', replay puzzle.as_game puzzle.placements = some g'
      ∧ g'.is_won = true := by
  rw [generate] at h
  dsimp only at h
  rcases hbd : board_dimensions config.board.iterList.toFinset with e | wh
  · rw [hbd] at h
    exact Except.noConfusion h
  · rw [hbd] at h
    dsimp only at h
    rcases htr : tile_board config.board.iterList.toFinset config.piece_rule
        (SimpleRng.new config.seed wh.1 wh.2) with ⟨tre, trg⟩
    rw [htr] at h
    rcases tre with e | piece_specs
    · dsimp only at h
      exact Except.noConfusion h
    · dsimp only at h
      rcases hcr : place_constraints config.board.iterList.toFinset config trg
          with ⟨cre, crg⟩
      rw [hcr] at h
      rcases cre with e | cspecs
      · dsimp only at h
        exact Except.noConfusion h
      · dsimp only at h
        rcases har : assign_constraints cspecs crg with ⟨are, arg⟩
        rw [har] at h
        rcases are with e | cp
        · dsimp only at h
          exact Except.noConfusion h
        · dsimp only at h
          rcases hmz : materialize_pieces piece_specs
              (fill_remaining_cells config.board.iterList.toFinset
                cp.2 arg).1 with e | pp
          · rw [hmz] at h
            exact Except.noConfusion h
          · rw [hmz] at h
            dsimp only at h
            injection h with h'
            subst h'
            obtain ⟨htile, hpwspec⟩ := tile_board_ok
              config.board.iterList.toFinset config.piece_rule
              (SimpleRng.new config.seed wh.1 wh.2) piece_specs trg htr
            obtain ⟨hcall, hpwc⟩ := place_constraints_ok
              config.board.iterList.toFinset config trg cspecs crg hcr
            rw [assign_constraints] at har
            obtain ⟨⟨newE, hpips, hnewE⟩, hcs⟩ := assign_constraints_go_ok
              cspecs [] [] crg cp.1 cp.2 arg har
              (fun sp hsp => (hcall sp hsp).2.2) hpwc
            obtain ⟨hfillp, hfillm⟩ := fill_remaining_cells_preserves
              config.board.iterList.toFinset cp.2 arg
            obtain ⟨hm1, hm2, hm3⟩ := materialize_pieces_ok piece_specs
              (fill_remaining_cells config.board.iterList.toFinset
                cp.2 arg).1 pp.1 pp.2 hmz
            have hμ : ∀ q, (pipsLookup
                (fill_remaining_cells config.board.iterList.toFinset
                  cp.2 arg).1 q).getD 0 ≤ 6 := by
              intro q
              rcases hl : pipsLookup
                  (fill_remaining_cells config.board.iterList.toFinset
                    cp.2 arg).1 q with _ | v
              · simp
              · have hmem := pipsLookup_mem _ q v hl
                rcases hfillm (q, v) hmem with hin | hle
                · rw [hpips, List.append_nil] at hin
                  simpa using (hnewE (q, v) hin).1
                · simpa using hle
            have hcongr := flatMap_congr_map Placement.cellsList
              PlacementSpec.cells pp.2 piece_specs hm2
            have hb : config.board.iterList.toFinset
                = (pp.2.flatMap Placement.cellsList).toFinset := by
              rw [hcongr]
              exact htile.symm
            have hpw := pairwise_transfer PlacementSpec.cells
              Placement.cellsList piece_specs pp.2 hm2.symm hpwspec
            have hcons : ∀ c ∈ cp.1,
                TruthfulGC (fun q => (pipsLookup
                  (fill_remaining_cells config.board.iterList.toFinset
                    cp.2 arg).1 q).getD 0) c
                ∧ c.points.Nonempty
                ∧ ∀ q ∈ c.points, q ∈ config.board.iterList := by
              intro c hc
              rcases hcs c hc with hfalse | ⟨sp, hsp, hpts, hisSome, htruthμ⟩
              · exact absurd hfalse (List.not_mem_nil c)
              · obtain ⟨hsub, hne, hnd⟩ := hcall sp hsp
                have hμagree : ∀ q ∈ sp.cells,
                    (pipsLookup (fill_remaining_cells
                      config.board.iterList.toFinset cp.2 arg).1 q).getD 0
                      = (pipsLookup cp.2 q).getD 0 := by
                  intro q hq
                  obtain ⟨v, hv⟩ := Option.isSome_iff_exists.1 (hisSome q hq)
                  rw [hfillp q v hv, hv]
                refine ⟨htruthμ _ hμagree, ?_, ?_⟩
                · obtain ⟨q, hq⟩ := List.exists_mem_of_ne_nil sp.cells hne
                  exact ⟨q, by rw [hpts]; exact List.mem_toFinset.2 hq⟩
                · intro q hq
                  rw [hpts] at hq
                  exact List.mem_toFinset.1 (hsub q (List.mem_toFinset.1 hq))
            obtain ⟨g', hrep, hwon⟩ := replay_invariant _ hμ pp.2
              ⟨config.board, pp.1, cp.1⟩ hb hpw hm1 hm3 hcons
            exact ⟨g', hrep, hwon⟩

end GC

namespace GC

deriving instance DecidableEq for GeneratedPuzzle

/-- A concrete generator configuration: 2x2 board, unlimited dominoes,
domino-shaped constraints allowed with a 2-cell coverage budget, seed 7. -/
def cfgC9W : GeneratorConfig :=
  ⟨Board.new [⟨0, 0⟩, ⟨1, 0⟩, ⟨0, 1⟩, ⟨1, 1⟩], .Unlimited [.Domino],
   .Allowed [.Domino], true, 2, .UniformAll, some 7⟩

/-- The puzzle the generator emits for `cfgC9W`. -/
def puzzleC9W : GeneratedPuzzle :=
  (generate cfgC9W).toOption.getD ⟨Board.new [], [], [], []⟩

/-- Witness for C9: on the concrete configuration `cfgC9W` the generator
succeeds, and the soundness theorem applies to the emitted puzzle. -/
theorem generate_sound_C9_witness :
    generate cfgC9W = .ok puzzleC9W
    ∧ ∃ g', replay puzzleC9W.as_game puzzleC9W.placements = some g'
        ∧ g'.is_won = true :=
  ⟨by decide, generate_sound_C9 cfgC9W puzzleC9W (by decide)⟩

end GC
